import Mathlib

/-!
# Gas tracking keeper (`x/gastracker/keeper.go`)

A shallow embedding of the keeper of the gas tracking module: the block /
transaction / contract-call ledger, the contract metadata store and the
left-over reward ledger, followed by theorems about them.

Conventions of the embedding.

* `sdk.Dec` is a fixed-point decimal with 18 fractional digits backed by a big
  integer; it is represented by that integer (`Dec := Int`, the value times
  `10^18`).  `sdk.Int` is represented by `Int`.  The aborts of the library are
  part of the embedding: `sdk.NewCoin` on an invalid denom or a negative amount,
  `Dec.Add` and `Dec.Sub` beyond 315 bits, `sdk.NewIntFromBigInt` beyond 255 bits.
* Slices of pointers (`[]*sdk.DecCoin`, `[]*TransactionTracking`, ...) are lists
  of values.
* A Go `[]byte` is `Option B` for a type `B` of non-nil byte strings: `none` is
  the nil slice returned by the store for an absent key.
* The key-value store and the binary codec are external collaborators: the
  store is a function from keys to stored bytes, the codec is a record of
  fallible encode / decode functions.
* A Go function returning `error` returns `Option Error` here (`none` is `nil`).
  A run-time abort of `CreateOrMergeLeftOverRewardEntry` is the `error` of an
  outer `Except Abort`; the only abort `TrackContractGasUsage` could meet is an
  index out of range, the outer `none` of an `Option`.
-/

namespace GasTracker

/-! ## Data model -/

/-- The fixed-point decimal `sdk.Dec`: the backing integer, value times `10^18`. -/
abbrev Dec := Int

/-- The scaling factor of `sdk.Dec` (`precisionReuse`, 18 decimal digits). -/
def precisionReuse : Int := 10 ^ 18

/-- Decimal coin `sdk.DecCoin`. -/
structure DecCoin where
  Denom : String
  Amount : Dec
deriving DecidableEq, Repr

/-- Integral coin `sdk.Coin`. -/
structure Coin where
  Denom : String
  Amount : Int
deriving DecidableEq, Repr

/-- Modelled from the spec: the `ContractOperation` enumeration of the types
package, `enum{Instantiate, Execute, Query, Migrate, ...}`; any further value of
the wire enum is `Other`. -/
inductive ContractOperation where
  | Instantiate
  | Execute
  | Query
  | Migrate
  | Other (code : Nat)
deriving DecidableEq, Repr

/-- Record `ContractGasTracking` of one contract call. -/
structure ContractGasTracking where
  Address : String
  GasConsumed : Nat
  Operation : ContractOperation
  IsEligibleForReward : Bool
deriving DecidableEq, Repr

/-- Record `TransactionTracking` of one transaction. -/
structure TransactionTracking where
  MaxGasAllowed : Nat
  MaxContractRewards : List DecCoin
  ContractTrackingInfos : List ContractGasTracking
deriving DecidableEq, Repr

/-- Record `BlockGasTracking` of the current block. -/
structure BlockGasTracking where
  TxTrackingInfos : List TransactionTracking
deriving DecidableEq, Repr

/-- Record `LeftOverRewardEntry` kept per reward address. -/
structure LeftOverRewardEntry where
  ContractRewards : List DecCoin
deriving DecidableEq, Repr

/-- Modelled from the spec: the error kinds of the types package. The four
NotFound kinds are distinct; `Codec` stands for any failure reported by the
codec. -/
inductive Error where
  | ErrBlockTrackingDataNotFound
  | ErrTxTrackingDataNotFound
  | ErrRewardEntryNotFound
  | ErrContractInstanceMetadataNotFound
  | Codec (code : Nat)
deriving DecidableEq, Repr

/-- Modelled from the spec: the persisted key schema (`CurrentBlockTrackingKey`,
`GetRewardEntryKey`, `GetContractInstanceMetadataKey`): a fixed singleton key, one
key per reward address and one key per contract address, pairwise distinct. -/
inductive Key where
  | CurrentBlockTrackingKey
  | RewardEntryKey (rewardAddress : String)
  | ContractInstanceMetadataKey (address : String)
deriving DecidableEq, Repr

/-- The key-value store `sdk.KVStore` over byte strings `B`. -/
abbrev KVStore (B : Type) := Key → Option B

/-- Store read `KVStore.Get`: `none` is the nil slice of an absent key. -/
def KVStore.Get {B : Type} (s : KVStore B) (k : Key) : Option B := s k

/-- Store write `KVStore.Set`. -/
def KVStore.Set {B : Type} (s : KVStore B) (k : Key) (bz : B) : KVStore B :=
  fun k' => if k' = k then some bz else s k'

/-- The execution context `sdk.Context`: the module store and the block height. -/
structure Context (B : Type) where
  store : KVStore B
  BlockHeight : Int

/-- The binary codec `codec.Marshaler`, at the four record types the keeper
encodes; `M` is the type of `ContractInstanceMetadata`, whose declaration is
not part of the keeper. Decoders take a Go byte slice, which may be nil. -/
structure Codec (B M : Type) where
  MarshalEntry : LeftOverRewardEntry → Except Error B
  UnmarshalEntry : Option B → Except Error LeftOverRewardEntry
  MarshalMetadata : M → Except Error B
  UnmarshalMetadata : Option B → Except Error M
  MarshalBlock : BlockGasTracking → Except Error B
  UnmarshalBlock : Option B → Except Error BlockGasTracking
  MarshalTx : TransactionTracking → Except Error B

/-! ## Decimal and coin operations of the SDK -/

/-- The run-time aborts (Go panics) the embedding tracks: an index or slice bound
out of range, `sdk.NewCoin` refusing a coin, and an integer leaving the range of
`sdk.Int` or `sdk.Dec`. -/
inductive Abort where
  | IndexOutOfRange
  | InvalidCoin
  | IntOverflow
deriving DecidableEq, Repr

/-- The bit length `maxBitLen` of `sdk.Int`. -/
def maxBitLen : Nat := 255

/-- The extra bits `DecimalPrecisionBits` of `sdk.Dec` over `sdk.Int`. -/
def DecimalPrecisionBits : Nat := 60

/-- The first absolute value whose bit length exceeds `maxDecBitLen`, which is
`maxBitLen + DecimalPrecisionBits` (315 bits): `2^315`, written as a product. -/
def decLimit : Nat := 2 ^ maxBitLen * 2 ^ DecimalPrecisionBits

/-- The helper `ConvertUint64ToBigInt`. -/
def ConvertUint64ToBigInt (n : Nat) : Int := (n : Int)

/-- Decimal of an integer, `sdk.NewDecFromBigInt`. -/
def NewDecFromBigInt (i : Int) : Dec := i * precisionReuse

/-- Integer part as a decimal, `Dec.TruncateDec`: the backing integer is divided
by `10^18` rounding toward zero and scaled back. -/
def TruncateDec (d : Dec) : Dec := (d.tdiv precisionReuse) * precisionReuse

/-- The integer part of a decimal, rounded toward zero
(`chopPrecisionAndTruncate`). -/
def integerPart (d : Dec) : Int := d.tdiv precisionReuse

/-- Constructor `sdk.NewIntFromBigInt`: aborts when the bit length of the integer
exceeds `maxBitLen`. -/
def NewIntFromBigInt (i : Int) : Except Abort Int :=
  if i.natAbs < 2 ^ maxBitLen then .ok i else .error Abort.IntOverflow

/-- Integer part as an integer, `Dec.TruncateInt`. -/
def TruncateInt (d : Dec) : Except Abort Int := NewIntFromBigInt (integerPart d)

/-- Decimal addition `Dec.Add`: aborts when the bit length of the sum exceeds
`maxDecBitLen`. -/
def DecAdd (d d2 : Dec) : Except Abort Dec :=
  if (d + d2).natAbs < decLimit then .ok (d + d2) else .error Abort.IntOverflow

/-- Decimal subtraction `Dec.Sub`: aborts when the bit length of the difference
exceeds `maxDecBitLen`. -/
def DecSub (d d2 : Dec) : Except Abort Dec :=
  if (d - d2).natAbs < decLimit then .ok (d - d2) else .error Abort.IntOverflow

/-- Comparison `Dec.GTE`. -/
def GTE (a b : Dec) : Bool := decide (b ≤ a)

/-- The first character of a denom: an ASCII letter. -/
def isDenomLetter (c : Char) : Bool :=
  (decide (65 ≤ c.toNat) && decide (c.toNat ≤ 90)) ||
    (decide (97 ≤ c.toNat) && decide (c.toNat ≤ 122))

/-- A further character of a denom: an ASCII letter, a digit or `/`. -/
def isDenomChar (c : Char) : Bool :=
  isDenomLetter c || (decide (48 ≤ c.toNat) && decide (c.toNat ≤ 57)) || decide (c.toNat = 47)

/-- Denom check `sdk.ValidateDenom`: the denom matches
`[a-zA-Z][a-zA-Z0-9/]{2,127}`. -/
def ValidateDenom (denom : String) : Bool :=
  match denom.data with
  | [] => false
  | c :: rest =>
    isDenomLetter c && decide (2 ≤ rest.length) && decide (rest.length ≤ 127) &&
      rest.all isDenomChar

/-- Constructor `sdk.NewCoin`: aborts when `Coin.Validate` refuses the coin, that
is on an invalid denom or a negative amount. -/
def NewCoin (denom : String) (amount : Int) : Except Abort Coin :=
  if ValidateDenom denom && decide (0 ≤ amount) then .ok { Denom := denom, Amount := amount }
  else .error Abort.InvalidCoin

/-- Sorting `DecCoins.Sort` (`sort.Sort` with `Less` comparing denoms): ascending
by denom. `sort.Sort` is not stable; for pairwise distinct denoms the ascending
arrangement is unique, and this is the arrangement computed here (each coin is
inserted before the first coin whose denom is not smaller). For repeated denoms
the order among the coins of one denom is that of the algorithm `sort.Sort` runs
and is not determined by this definition: the theorems that depend on that order
assume pairwise distinct denoms. -/
def SortDecCoins (coins : List DecCoin) : List DecCoin :=
  coins.insertionSort (fun a b => a.Denom ≤ b.Denom)

/-- Dropping of zero amounts, `removeZeroDecCoins`. -/
def removeZeroDecCoins (coins : List DecCoin) : List DecCoin :=
  coins.filter (fun c => decide (c.Amount ≠ 0))

/-- The two-pointer merge `DecCoins.safeAdd` behind `DecCoins.Add`: coins are
compared by denom, equal denoms are added with `Dec.Add`, which may abort, and a
coin whose amount is zero is not appended to the sum. -/
def safeAdd : List DecCoin → List DecCoin → Except Abort (List DecCoin)
  | [], coinsB => .ok (removeZeroDecCoins coinsB)
  | coinA :: restA, [] => .ok (removeZeroDecCoins (coinA :: restA))
  | coinA :: restA, coinB :: restB =>
    if coinA.Denom < coinB.Denom then
      match safeAdd restA (coinB :: restB) with
      | .error abort => .error abort
      | .ok sum => .ok ((if coinA.Amount ≠ 0 then [coinA] else []) ++ sum)
    else if coinA.Denom = coinB.Denom then
      match DecAdd coinA.Amount coinB.Amount with
      | .error abort => .error abort
      | .ok res =>
        match safeAdd restA restB with
        | .error abort => .error abort
        | .ok sum =>
          .ok ((if res ≠ 0 then [{ Denom := coinA.Denom, Amount := res }] else []) ++ sum)
    else
      match safeAdd (coinA :: restA) restB with
      | .error abort => .error abort
      | .ok sum => .ok ((if coinB.Amount ≠ 0 then [coinB] else []) ++ sum)
termination_by coinsA coinsB => coinsA.length + coinsB.length

/-- Addition `DecCoins.Add`. -/
def Add (coins coinsB : List DecCoin) : Except Abort (List DecCoin) := safeAdd coins coinsB

/-! ## Left-over reward ledger -/

/-- The local variables of the threshold loop of
`CreateOrMergeLeftOverRewardEntry`. -/
structure LoopState where
  rewardsToBeDistributed : List Coin
  rewardIndex : Nat
  ContractRewards : List DecCoin
deriving DecidableEq, Repr

/-- The zero value of `sdk.Coin`, with which `make(sdk.Coins, n)` fills a slice. -/
def zeroCoin : Coin := { Denom := "", Amount := 0 }

/-- One iteration of the threshold loop at index `i`. The right-hand side of the
assignment (`TruncateInt`, then `sdk.NewCoin`) is evaluated before the slice is
written at `rewardIndex`; `Dec.Sub` follows. -/
def loopBody (leftOverDec : Dec) (s : LoopState) (i : Nat) : Except Abort LoopState :=
  match s.ContractRewards.get? i with
  | none => .error Abort.IndexOutOfRange
  | some reward =>
    let truncatedDec := TruncateDec reward.Amount
    if GTE truncatedDec leftOverDec then
      match TruncateInt truncatedDec with
      | .error abort => .error abort
      | .ok amount =>
        match NewCoin reward.Denom amount with
        | .error abort => .error abort
        | .ok coin =>
          if s.rewardIndex < s.rewardsToBeDistributed.length then
            match DecSub reward.Amount truncatedDec with
            | .error abort => .error abort
            | .ok remainder =>
              .ok
                { rewardsToBeDistributed := s.rewardsToBeDistributed.set s.rewardIndex coin
                  rewardIndex := s.rewardIndex + 1
                  ContractRewards :=
                    s.ContractRewards.set i { reward with Amount := remainder } }
          else .error Abort.IndexOutOfRange
    else .ok s

/-- The threshold loop `for i := range rewardEntry.ContractRewards`, started
with a coin slice of the length of the entry and `rewardIndex = 0`. -/
def thresholdLoop (leftOverDec : Dec) (rewards : List DecCoin) : Except Abort LoopState :=
  (List.range rewards.length).foldlM (loopBody leftOverDec)
    { rewardsToBeDistributed := List.replicate rewards.length zeroCoin
      rewardIndex := 0
      ContractRewards := rewards }

/-- The reslice `rewardsToBeDistributed[:rewardIndex]`. -/
def reslice (coins : List Coin) (n : Nat) : Except Abort (List Coin) :=
  if n ≤ coins.length then .ok (coins.take n) else .error Abort.IndexOutOfRange

/-- The merge step of `CreateOrMergeLeftOverRewardEntry`: the stored rewards
plus the (sorted) input when an entry exists, the (sorted) input otherwise. -/
def mergeRewards (previous : Option (List DecCoin)) (contractRewards : List DecCoin) :
    Except Abort (List DecCoin) :=
  match previous with
  | some previousRewards => Add previousRewards contractRewards
  | none => .ok contractRewards

/-- The result of `CreateOrMergeLeftOverRewardEntry`: the store afterwards, the
returned coins and the returned error. -/
structure MergeResult (B : Type) where
  store : KVStore B
  coins : List Coin
  err : Option Error

/-- The threshold processing and the write of `CreateOrMergeLeftOverRewardEntry`
on the merged rewards. -/
def distributeAndStore {B M : Type} (cdc : Codec B M) (store : KVStore B)
    (rewardAddress : String) (merged : List DecCoin) (leftOverThreshold : Nat) :
    Except Abort (MergeResult B) :=
  let leftOverDec := NewDecFromBigInt (ConvertUint64ToBigInt leftOverThreshold)
  match thresholdLoop leftOverDec merged with
  | .error abort => .error abort
  | .ok s =>
    match reslice s.rewardsToBeDistributed s.rewardIndex with
    | .error abort => .error abort
    | .ok rewardsToBeDistributed =>
      match cdc.MarshalEntry { ContractRewards := s.ContractRewards } with
      | .error err => .ok { store := store, coins := rewardsToBeDistributed, err := some err }
      | .ok bz =>
        .ok { store := store.Set (Key.RewardEntryKey rewardAddress) bz
              coins := rewardsToBeDistributed
              err := none }

/-- The keeper method `CreateOrMergeLeftOverRewardEntry`; an `error` of the outer
`Except` is a run-time abort, the error the method returns is the `err` of the
result. -/
def CreateOrMergeLeftOverRewardEntry {B M : Type} (cdc : Codec B M) (ctx : Context B)
    (rewardAddress : String) (contractRewards : List DecCoin) (leftOverThreshold : Nat) :
    Except Abort (MergeResult B) :=
  let contractRewards := SortDecCoins contractRewards
  match ctx.store.Get (Key.RewardEntryKey rewardAddress) with
  | some bz =>
    match cdc.UnmarshalEntry (some bz) with
    | .error err => .ok { store := ctx.store, coins := [], err := some err }
    | .ok rewardEntry =>
      match mergeRewards (some rewardEntry.ContractRewards) contractRewards with
      | .error abort => .error abort
      | .ok merged => distributeAndStore cdc ctx.store rewardAddress merged leftOverThreshold
  | none =>
    match mergeRewards none contractRewards with
    | .error abort => .error abort
    | .ok merged => distributeAndStore cdc ctx.store rewardAddress merged leftOverThreshold

/-- The keeper method `GetLeftOverRewardEntry`. -/
def GetLeftOverRewardEntry {B M : Type} (cdc : Codec B M) (ctx : Context B)
    (rewardAddress : String) : Except Error LeftOverRewardEntry :=
  match ctx.store.Get (Key.RewardEntryKey rewardAddress) with
  | none => .error Error.ErrRewardEntryNotFound
  | some bz => cdc.UnmarshalEntry (some bz)

/-! ## Contract metadata store -/

/-- The keeper method `GetNewContractMetadata`. -/
def GetNewContractMetadata {B M : Type} (cdc : Codec B M) (ctx : Context B)
    (address : String) : Except Error M :=
  match ctx.store.Get (Key.ContractInstanceMetadataKey address) with
  | none => .error Error.ErrContractInstanceMetadataNotFound
  | some bz => cdc.UnmarshalMetadata (some bz)

/-- The keeper method `AddNewContractMetadata`: the store afterwards and the
returned error. -/
def AddNewContractMetadata {B M : Type} (cdc : Codec B M) (ctx : Context B)
    (address : String) (metadata : M) : KVStore B × Option Error :=
  match cdc.MarshalMetadata metadata with
  | .error err => (ctx.store, some err)
  | .ok bz => (ctx.store.Set (Key.ContractInstanceMetadataKey address) bz, none)

/-! ## Block, transaction and contract-call ledger -/

/-- The keeper method `TrackNewBlock`. -/
def TrackNewBlock {B M : Type} (cdc : Codec B M) (ctx : Context B)
    (blockGasTracking : BlockGasTracking) : KVStore B × Option Error :=
  match cdc.MarshalBlock blockGasTracking with
  | .error err => (ctx.store, some err)
  | .ok bz => (ctx.store.Set Key.CurrentBlockTrackingKey bz, none)

/-- The keeper method `GetCurrentBlockTrackingInfo`. -/
def GetCurrentBlockTrackingInfo {B M : Type} (cdc : Codec B M) (ctx : Context B) :
    Except Error BlockGasTracking :=
  match ctx.store.Get Key.CurrentBlockTrackingKey with
  | none => .error Error.ErrBlockTrackingDataNotFound
  | some bz => cdc.UnmarshalBlock (some bz)

/-- The keeper method `TrackNewTx`. -/
def TrackNewTx {B M : Type} (cdc : Codec B M) (ctx : Context B)
    (fee : List DecCoin) (gasLimit : Nat) : KVStore B × Option Error :=
  let currentTxGasTracking : TransactionTracking :=
    { MaxGasAllowed := gasLimit, MaxContractRewards := fee, ContractTrackingInfos := [] }
  match cdc.MarshalTx currentTxGasTracking with
  | .error err => (ctx.store, some err)
  | .ok _ =>
    let bz := ctx.store.Get Key.CurrentBlockTrackingKey
    if bz.isNone && decide (ctx.BlockHeight > 1) then
      (ctx.store, some Error.ErrBlockTrackingDataNotFound)
    else
      match cdc.UnmarshalBlock bz with
      | .error err => (ctx.store, some err)
      | .ok currentBlockTracking =>
        match cdc.MarshalBlock
            { TxTrackingInfos := currentBlockTracking.TxTrackingInfos ++ [currentTxGasTracking] } with
        | .error err => (ctx.store, some err)
        | .ok bz => (ctx.store.Set Key.CurrentBlockTrackingKey bz, none)

/-- The keeper method `TrackContractGasUsage`; the outer `none` is an index out
of range at `TxTrackingInfos[txsLen - 1]`. -/
def TrackContractGasUsage {B M : Type} (cdc : Codec B M) (ctx : Context B)
    (contractAddress : String) (gasUsed : Nat) (operation : ContractOperation)
    (isEligibleForReward : Bool) : Option (KVStore B × Option Error) :=
  match ctx.store.Get Key.CurrentBlockTrackingKey with
  | none => some (ctx.store, some Error.ErrBlockTrackingDataNotFound)
  | some bz =>
    match cdc.UnmarshalBlock (some bz) with
    | .error err => some (ctx.store, some err)
    | .ok currentBlockGasTracking =>
      let txsLen := currentBlockGasTracking.TxTrackingInfos.length
      if txsLen = 0 then some (ctx.store, some Error.ErrTxTrackingDataNotFound)
      else
        match currentBlockGasTracking.TxTrackingInfos.get? (txsLen - 1) with
        | none => none
        | some currentTxGasTracking =>
          let updated : TransactionTracking :=
            { currentTxGasTracking with
              ContractTrackingInfos :=
                currentTxGasTracking.ContractTrackingInfos ++
                  [{ Address := contractAddress, GasConsumed := gasUsed,
                     Operation := operation, IsEligibleForReward := isEligibleForReward }] }
          match cdc.MarshalBlock
              { TxTrackingInfos :=
                  currentBlockGasTracking.TxTrackingInfos.set (txsLen - 1) updated } with
          | .error err => some (ctx.store, some err)
          | .ok bz => some (ctx.store.Set Key.CurrentBlockTrackingKey bz, none)

/-! ## Specification-level views used by the theorems -/

/-- The sum of two coin sets computed with unbounded decimals: what `safeAdd`
returns when no addition aborts. -/
def safeAddExact : List DecCoin → List DecCoin → List DecCoin
  | [], coinsB => removeZeroDecCoins coinsB
  | coinA :: restA, [] => removeZeroDecCoins (coinA :: restA)
  | coinA :: restA, coinB :: restB =>
    if coinA.Denom < coinB.Denom then
      (if coinA.Amount ≠ 0 then [coinA] else []) ++ safeAddExact restA (coinB :: restB)
    else if coinA.Denom = coinB.Denom then
      (if coinA.Amount + coinB.Amount ≠ 0 then
          [{ Denom := coinA.Denom, Amount := coinA.Amount + coinB.Amount }]
        else []) ++ safeAddExact restA restB
    else
      (if coinB.Amount ≠ 0 then [coinB] else []) ++ safeAddExact (coinA :: restA) restB
termination_by coinsA coinsB => coinsA.length + coinsB.length

/-- The merged set computed with unbounded decimals: what `mergeRewards` returns
when no addition aborts. -/
def mergeRewardsExact (previous : Option (List DecCoin)) (contractRewards : List DecCoin) :
    List DecCoin :=
  match previous with
  | some previousRewards => safeAddExact previousRewards contractRewards
  | none => contractRewards

/-- The coins the threshold loop is expected to return: one coin per reward
whose integer part reaches the threshold, in the order of the rewards. -/
def distributedCoins (leftOverDec : Dec) (rewards : List DecCoin) : List Coin :=
  (rewards.filter (fun r => GTE (TruncateDec r.Amount) leftOverDec)).map
    (fun r => { Denom := r.Denom, Amount := integerPart r.Amount })

/-- The rewards the threshold loop is expected to leave: the integer part is
removed from each reward that reaches the threshold. -/
def remainingRewards (leftOverDec : Dec) (rewards : List DecCoin) : List DecCoin :=
  rewards.map (fun r =>
    if GTE (TruncateDec r.Amount) leftOverDec then
      { r with Amount := r.Amount - TruncateDec r.Amount }
    else r)

/-- The library accepts every coin the threshold loop has to build: each reward
whose integer part reaches the threshold has a valid denom and a non-negative
integer part within the range of `sdk.Int`. -/
def distributable (leftOverDec : Dec) (rewards : List DecCoin) : Prop :=
  ∀ r ∈ rewards, GTE (TruncateDec r.Amount) leftOverDec = true →
    (integerPart r.Amount).natAbs < 2 ^ maxBitLen ∧ ValidateDenom r.Denom = true ∧
      0 ≤ integerPart r.Amount

/-- The state of the threshold loop after the first `k` iterations. -/
def loopStateAfter (L : Dec) (rewards : List DecCoin) (k : Nat) : LoopState :=
  { rewardsToBeDistributed :=
      distributedCoins L (rewards.take k) ++
        List.replicate (rewards.length - (distributedCoins L (rewards.take k)).length)
          zeroCoin
    rewardIndex := (distributedCoins L (rewards.take k)).length
    ContractRewards := remainingRewards L (rewards.take k) ++ rewards.drop k }

/-- The total amount a list of decimal coins holds for a denom (zero when the
denom does not occur). -/
def amountOf (denom : String) (coins : List DecCoin) : Dec :=
  ((coins.filter (fun c => decide (c.Denom = denom))).map (fun c => c.Amount)).sum

/-- The total amount a list of integral coins holds for a denom. -/
def coinAmountOf (denom : String) (coins : List Coin) : Int :=
  ((coins.filter (fun c => decide (c.Denom = denom))).map (fun c => c.Amount)).sum

/-- The read at the start of `CreateOrMergeLeftOverRewardEntry`: no previous
rewards when the key is absent, the decoded rewards when it is present, or the
error of the decoder. -/
def readPrevious {B M : Type} (cdc : Codec B M) (store : KVStore B) (rewardAddress : String) :
    Except Error (Option (List DecCoin)) :=
  match store.Get (Key.RewardEntryKey rewardAddress) with
  | none => .ok none
  | some bz =>
    match cdc.UnmarshalEntry (some bz) with
    | .ok rewardEntry => .ok (some rewardEntry.ContractRewards)
    | .error err => .error err

/-- The rewards currently stored for a reward address, as `GetLeftOverRewardEntry`
reads them; no rewards when the lookup fails. -/
def storedRewards {B M : Type} (cdc : Codec B M) (store : KVStore B) (rewardAddress : String) :
    List DecCoin :=
  match GetLeftOverRewardEntry cdc { store := store, BlockHeight := 0 } rewardAddress with
  | .ok rewardEntry => rewardEntry.ContractRewards
  | .error _ => []

/-- A working codec: every record encodes, decoding an encoding gives the record
back, and the nil byte slice decodes to the empty block record. -/
structure Codec.RoundTrips {B M : Type} (cdc : Codec B M) : Prop where
  entry : ∀ e, ∃ bz, cdc.MarshalEntry e = .ok bz ∧ cdc.UnmarshalEntry (some bz) = .ok e
  metadata : ∀ m, ∃ bz, cdc.MarshalMetadata m = .ok bz ∧ cdc.UnmarshalMetadata (some bz) = .ok m
  block : ∀ b, ∃ bz, cdc.MarshalBlock b = .ok bz ∧ cdc.UnmarshalBlock (some bz) = .ok b
  tx : ∀ t, ∃ bz, cdc.MarshalTx t = .ok bz
  nilBlock : cdc.UnmarshalBlock none = .ok { TxTrackingInfos := [] }

/-- Stored values of the reference codec: the encoded record itself, tagged with
its type. -/
inductive Blob (M : Type) where
  | entry (e : LeftOverRewardEntry)
  | metadata (m : M)
  | block (b : BlockGasTracking)
  | tx (t : TransactionTracking)

/-- A reference codec that round-trips, used to instantiate the theorems. -/
def referenceCodec (M : Type) [Inhabited M] : Codec (Blob M) M where
  MarshalEntry e := .ok (.entry e)
  UnmarshalEntry bz :=
    match bz with
    | none => .ok { ContractRewards := [] }
    | some (.entry e) => .ok e
    | some _ => .error (Error.Codec 1)
  MarshalMetadata m := .ok (.metadata m)
  UnmarshalMetadata bz :=
    match bz with
    | none => .ok default
    | some (.metadata m) => .ok m
    | some _ => .error (Error.Codec 1)
  MarshalBlock b := .ok (.block b)
  UnmarshalBlock bz :=
    match bz with
    | none => .ok { TxTrackingInfos := [] }
    | some (.block b) => .ok b
    | some _ => .error (Error.Codec 1)
  MarshalTx t := .ok (.tx t)

/-- The empty store. -/
def emptyStore (B : Type) : KVStore B := fun _ => none

/-- One call of `CreateOrMergeLeftOverRewardEntry`: the block height of its
context and its arguments. -/
structure MergeCall where
  BlockHeight : Int
  contractRewards : List DecCoin
  leftOverThreshold : Nat

/-- A sequence of successful `CreateOrMergeLeftOverRewardEntry` calls for one
reward address: the store afterwards and all coins returned, in call order;
`none` when a call aborts or returns an error. -/
def runMerges {B M : Type} (cdc : Codec B M) (rewardAddress : String) :
    KVStore B → List MergeCall → Option (KVStore B × List Coin)
  | store, [] => some (store, [])
  | store, call :: rest =>
    match CreateOrMergeLeftOverRewardEntry cdc { store := store, BlockHeight := call.BlockHeight }
        rewardAddress call.contractRewards call.leftOverThreshold with
    | .ok { store := store', coins := coins, err := none } =>
      (runMerges cdc rewardAddress store' rest).map (fun r => (r.1, coins ++ r.2))
    | _ => none

/-- A coin set in strictly ascending denom order (in particular without a
repeated denom), the order `DecCoins.Add` relies on. -/
def denomsAscending (coins : List DecCoin) : Prop :=
  coins.Pairwise (fun a b => a.Denom < b.Denom)

/-- One call of `TrackNewTx`: the block height of its context and its
arguments. -/
structure TxCall where
  BlockHeight : Int
  fee : List DecCoin
  gasLimit : Nat

/-- The transaction record `TrackNewTx` builds for a call. -/
def TxCall.record (call : TxCall) : TransactionTracking :=
  { MaxGasAllowed := call.gasLimit, MaxContractRewards := call.fee, ContractTrackingInfos := [] }

/-- A sequence of `TrackNewTx` calls, stopped at the first call that fails: the
store afterwards and the error of the failing call, if any. -/
def runTrackNewTx {B M : Type} (cdc : Codec B M) : KVStore B → List TxCall → KVStore B × Option Error
  | store, [] => (store, none)
  | store, call :: rest =>
    match TrackNewTx cdc { store := store, BlockHeight := call.BlockHeight } call.fee
        call.gasLimit with
    | (store', none) => runTrackNewTx cdc store' rest
    | (store', some err) => (store', some err)

/-- One call of `TrackContractGasUsage`: the block height of its context and its
arguments. -/
structure GasCall where
  BlockHeight : Int
  contractAddress : String
  gasUsed : Nat
  operation : ContractOperation
  isEligibleForReward : Bool

/-- The contract-call record `TrackContractGasUsage` builds for a call. -/
def GasCall.record (call : GasCall) : ContractGasTracking :=
  { Address := call.contractAddress, GasConsumed := call.gasUsed, Operation := call.operation,
    IsEligibleForReward := call.isEligibleForReward }

/-- A sequence of `TrackContractGasUsage` calls, stopped at the first call that
fails: the store afterwards and the error of the failing call, if any; `none`
when a call aborts. -/
def runTrackContractGasUsage {B M : Type} (cdc : Codec B M) :
    KVStore B → List GasCall → Option (KVStore B × Option Error)
  | store, [] => some (store, none)
  | store, call :: rest =>
    match TrackContractGasUsage cdc { store := store, BlockHeight := call.BlockHeight }
        call.contractAddress call.gasUsed call.operation call.isEligibleForReward with
    | some (store', none) => runTrackContractGasUsage cdc store' rest
    | other => other

/-- A context over the empty store of the reference codec, at a given height. -/
def genesisContext (height : Int) : Context (Blob Nat) :=
  { store := emptyStore (Blob Nat), BlockHeight := height }

/-- Two sample `TrackNewTx` calls. -/
def sampleTxCalls : List TxCall :=
  [{ BlockHeight := 7, fee := [{ Denom := "uusd", Amount := 3 * 10 ^ 18 }], gasLimit := 200000 },
   { BlockHeight := 7, fee := [], gasLimit := 50000 }]

/-- Two sample `TrackContractGasUsage` calls to the same contract. -/
def sampleGasCalls : List GasCall :=
  [{ BlockHeight := 7, contractAddress := "contract1", gasUsed := 120,
     operation := ContractOperation.Execute, isEligibleForReward := true },
   { BlockHeight := 7, contractAddress := "contract1", gasUsed := 30,
     operation := ContractOperation.Query, isEligibleForReward := false }]

/-- A sample transaction record with one contract call. -/
def sampleTx : TransactionTracking :=
  { MaxGasAllowed := 200000, MaxContractRewards := [{ Denom := "uusd", Amount := 3 * 10 ^ 18 }],
    ContractTrackingInfos :=
      [{ Address := "contract0", GasConsumed := 5, Operation := ContractOperation.Instantiate,
         IsEligibleForReward := true }] }

/-- The store of the reference codec holding a given block record. -/
def storeWithBlock (block : BlockGasTracking) : KVStore (Blob Nat) :=
  (TrackNewBlock (referenceCodec Nat) (genesisContext 7) block).1

/-- The stores reached from the empty store by successful
`CreateOrMergeLeftOverRewardEntry` calls (any reward addresses, thresholds and
block heights) whose inputs have pairwise distinct denoms and non-negative
amounts. -/
inductive Reachable {B M : Type} (cdc : Codec B M) : KVStore B → Prop where
  | empty : Reachable cdc (emptyStore B)
  | merge (store : KVStore B) (height : Int) (rewardAddress : String)
      (contractRewards : List DecCoin) (leftOverThreshold : Nat) (res : MergeResult B) :
      Reachable cdc store →
      (contractRewards.map (fun c => c.Denom)).Nodup →
      (∀ c ∈ contractRewards, 0 ≤ c.Amount) →
      CreateOrMergeLeftOverRewardEntry cdc { store := store, BlockHeight := height }
        rewardAddress contractRewards leftOverThreshold = .ok res →
      res.err = none →
      Reachable cdc res.store

/-- A sample input of three denoms, not in denom order. -/
def sampleRewards : List DecCoin :=
  [{ Denom := "uusd", Amount := 25 * 10 ^ 17 },
   { Denom := "uatom", Amount := 5 * 10 ^ 17 },
   { Denom := "ubtc", Amount := 2 * 10 ^ 18 }]

/-- The merged set as the specification words it, for comparison with
`mergeRewards`: the stored rewards in their order, each with the input amount of
its denom added, and the input coins of denoms that were not stored appended
after them. -/
def mergeRewardsAppending (previousRewards contractRewards : List DecCoin) : List DecCoin :=
  previousRewards.map
      (fun p => { Denom := p.Denom, Amount := p.Amount + amountOf p.Denom contractRewards }) ++
    contractRewards.filter
      (fun c => decide (c.Denom ∉ previousRewards.map (fun p => p.Denom)))

/-- A stored entry as the method leaves it after distributing `ubb` in full: a
zero remainder for `ubb` and half a unit of `ucc`. -/
def sampleStored : List DecCoin :=
  [{ Denom := "ubb", Amount := 0 }, { Denom := "ucc", Amount := 5 * 10 ^ 17 }]

/-- An input of a quarter unit of the denom `uaa`, which sorts before `ubb`. -/
def sampleNewDenom : List DecCoin :=
  [{ Denom := "uaa", Amount := 25 * 10 ^ 16 }]

/-- A first input that leaves `sampleStored` behind at threshold 1: two units of
`ubb` and half a unit of `ucc`. -/
def sampleFirstMerge : List DecCoin :=
  [{ Denom := "ubb", Amount := 2 * 10 ^ 18 }, { Denom := "ucc", Amount := 5 * 10 ^ 17 }]

/-- The store of the reference codec holding given rewards for a reward address. -/
def storeWithEntry (rewardAddress : String) (rewards : List DecCoin) : KVStore (Blob Nat) :=
  (emptyStore (Blob Nat)).Set (Key.RewardEntryKey rewardAddress)
    (Blob.entry { ContractRewards := rewards })

/-- A codec whose encoders all fail, used to instantiate the error paths. -/
def failingCodec : Codec (Blob Nat) Nat where
  MarshalEntry _ := .error (Error.Codec 7)
  UnmarshalEntry := (referenceCodec Nat).UnmarshalEntry
  MarshalMetadata _ := .error (Error.Codec 7)
  UnmarshalMetadata := (referenceCodec Nat).UnmarshalMetadata
  MarshalBlock _ := .error (Error.Codec 7)
  UnmarshalBlock := (referenceCodec Nat).UnmarshalBlock
  MarshalTx _ := .error (Error.Codec 7)

/-- Two merges of `uusd` for one reward address: `7.5`, then `5.0`, each with
threshold 10. -/
def sampleMerges : List MergeCall :=
  [{ BlockHeight := 5, contractRewards := [{ Denom := "uusd", Amount := 75 * 10 ^ 17 }],
     leftOverThreshold := 10 },
   { BlockHeight := 6, contractRewards := [{ Denom := "uusd", Amount := 5 * 10 ^ 18 }],
     leftOverThreshold := 10 }]

/-! ## The threshold loop -/

theorem precisionReuse_pos : 0 < precisionReuse := by
  unfold precisionReuse; norm_num

theorem integerPart_TruncateDec (a : Dec) : integerPart (TruncateDec a) = integerPart a := by
  unfold integerPart TruncateDec
  exact Int.mul_tdiv_cancel _ (ne_of_gt precisionReuse_pos)

theorem tmod_natAbs_lt (a P : Int) (hP : 0 < P) : (a.tmod P).natAbs < P.natAbs := by
  rcases le_or_lt 0 a with ha | ha
  · have h1 := Int.tmod_nonneg P ha
    have h2 := Int.tmod_lt_of_pos a hP
    omega
  · have hm : 0 ≤ -a := by omega
    have h1 := Int.tmod_nonneg P hm
    have h2 := Int.tmod_lt_of_pos (-a) hP
    have h3 : (-a).tmod P = -(a.tmod P) := by
      rw [Int.tmod_def, Int.tmod_def, Int.neg_tdiv]; ring
    omega

/-- The remainder `a - TruncateDec a` is below one unit in absolute value, so
`Dec.Sub` never aborts on it. -/
theorem remainder_natAbs_lt (a : Dec) :
    (a - TruncateDec a).natAbs < decLimit := by
  have h : a - TruncateDec a = Int.tmod a precisionReuse := by
    unfold TruncateDec; rw [Int.tmod_def]; ring
  rw [h]
  have hlt := tmod_natAbs_lt a precisionReuse precisionReuse_pos
  have h60 : precisionReuse.natAbs < 2 ^ 60 := by
    unfold precisionReuse; decide
  have hpow : 2 ^ 60 ≤ decLimit := by
    unfold decLimit DecimalPrecisionBits
    exact Nat.le_mul_of_pos_left _ (Nat.two_pow_pos _)
  exact lt_of_lt_of_le (lt_trans hlt h60) hpow

theorem DecSub_remainder (a : Dec) : DecSub a (TruncateDec a) = .ok (a - TruncateDec a) := by
  unfold DecSub
  rw [if_pos (remainder_natAbs_lt a)]

theorem distributedCoins_append (L : Dec) (xs ys : List DecCoin) :
    distributedCoins L (xs ++ ys) = distributedCoins L xs ++ distributedCoins L ys := by
  simp [distributedCoins]

theorem remainingRewards_append (L : Dec) (xs ys : List DecCoin) :
    remainingRewards L (xs ++ ys) = remainingRewards L xs ++ remainingRewards L ys := by
  simp [remainingRewards]

theorem distributedCoins_length_le (L : Dec) (xs : List DecCoin) :
    (distributedCoins L xs).length ≤ xs.length := by
  simp only [distributedCoins, List.length_map]
  exact List.length_filter_le _ _

theorem remainingRewards_length (L : Dec) (xs : List DecCoin) :
    (remainingRewards L xs).length = xs.length := by
  simp [remainingRewards]

theorem distributable_append (L : Dec) (xs ys : List DecCoin) :
    distributable L (xs ++ ys) ↔ distributable L xs ∧ distributable L ys := by
  unfold distributable
  constructor
  · intro h
    exact ⟨fun r hr => h r (List.mem_append_left _ hr),
      fun r hr => h r (List.mem_append_right _ hr)⟩
  · rintro ⟨h₁, h₂⟩ r hr
    rcases List.mem_append.mp hr with hr | hr
    · exact h₁ r hr
    · exact h₂ r hr

theorem distributable_singleton (L : Dec) (r : DecCoin) :
    distributable L [r] ↔
      (GTE (TruncateDec r.Amount) L = true →
        (integerPart r.Amount).natAbs < 2 ^ maxBitLen ∧ ValidateDenom r.Denom = true ∧
          0 ≤ integerPart r.Amount) := by
  unfold distributable
  simp

/-- What one iteration builds for a reward that reaches the threshold: the coin
when the library accepts it, an abort of the library otherwise. -/
theorem build_coin (r : DecCoin) :
    ((integerPart r.Amount).natAbs < 2 ^ maxBitLen ∧ ValidateDenom r.Denom = true ∧
        0 ≤ integerPart r.Amount) ∧
      TruncateInt (TruncateDec r.Amount) = .ok (integerPart r.Amount) ∧
      NewCoin r.Denom (integerPart r.Amount) =
        .ok { Denom := r.Denom, Amount := integerPart r.Amount } ∨
    ¬ ((integerPart r.Amount).natAbs < 2 ^ maxBitLen ∧ ValidateDenom r.Denom = true ∧
        0 ≤ integerPart r.Amount) ∧
      (TruncateInt (TruncateDec r.Amount) = .error Abort.IntOverflow ∨
        TruncateInt (TruncateDec r.Amount) = .ok (integerPart r.Amount) ∧
          NewCoin r.Denom (integerPart r.Amount) = .error Abort.InvalidCoin) := by
  unfold TruncateInt NewIntFromBigInt NewCoin
  rw [integerPart_TruncateDec]
  by_cases h₁ : (integerPart r.Amount).natAbs < 2 ^ maxBitLen
  · by_cases h₂ : ValidateDenom r.Denom = true
    · by_cases h₃ : 0 ≤ integerPart r.Amount
      · left
        simp [h₁, h₂, h₃]
      · right
        simp [h₁, h₂, h₃]
    · right
      simp [h₁, h₂]
  · right
    simp [h₁]

/-- One iteration of the loop from the expected state: the next expected state
when the reward stays below the threshold or its coin is accepted, an abort of
the library otherwise; never an index out of range. -/
theorem loopBody_loopStateAfter (L : Dec) (rewards : List DecCoin) (k : Nat)
    (hk : k < rewards.length) :
    (distributable L [rewards[k]] ∧
      loopBody L (loopStateAfter L rewards k) k = .ok (loopStateAfter L rewards (k + 1))) ∨
    (¬ distributable L [rewards[k]] ∧
      ∃ abort, abort ≠ Abort.IndexOutOfRange ∧
        loopBody L (loopStateAfter L rewards k) k = .error abort) := by
  have hlen : (remainingRewards L (rewards.take k)).length = k := by
    rw [remainingRewards_length, List.length_take]; omega
  have hD : (distributedCoins L (rewards.take k)).length ≤ k := by
    have := distributedCoins_length_le L (rewards.take k)
    rw [List.length_take] at this; omega
  have htake : rewards.take (k + 1) = rewards.take k ++ [rewards[k]] := by
    rw [List.take_succ, List.getElem?_eq_getElem hk]; rfl
  have hdrop : rewards.drop k = rewards[k] :: rewards.drop (k + 1) :=
    List.drop_eq_getElem_cons hk
  have hget : (remainingRewards L (rewards.take k) ++ rewards.drop k).get? k = some rewards[k] := by
    rw [List.get?_eq_getElem?, List.getElem?_append_right (by omega), hlen, hdrop]
    simp
  rw [distributable_singleton]
  unfold loopBody
  simp only [loopStateAfter, hget]
  by_cases hT : GTE (TruncateDec rewards[k].Amount) L = true
  · simp only [hT, if_true, true_implies]
    rcases build_coin rewards[k] with ⟨hok, hint, hcoin⟩ | ⟨hbad, hcase⟩
    · left
      refine ⟨hok, ?_⟩
      have hlt : (distributedCoins L (List.take k rewards)).length <
          (distributedCoins L (List.take k rewards) ++
            List.replicate (rewards.length - (distributedCoins L (List.take k rewards)).length)
              zeroCoin).length := by
        simp only [List.length_append, List.length_replicate]; omega
      simp only [hint, hcoin, DecSub_remainder]
      rw [if_pos hlt]
      have hDk : distributedCoins L (List.take (k + 1) rewards) =
          distributedCoins L (List.take k rewards) ++
            [{ Denom := rewards[k].Denom, Amount := integerPart rewards[k].Amount }] := by
        rw [htake, distributedCoins_append]
        simp [distributedCoins, hT]
      have hRk : remainingRewards L (List.take (k + 1) rewards) =
          remainingRewards L (List.take k rewards) ++
            [{ rewards[k] with Amount := rewards[k].Amount - TruncateDec rewards[k].Amount }] := by
        rw [htake, remainingRewards_append]
        simp [remainingRewards, hT]
      rw [hDk, hRk]
      congr 1
      refine LoopState.mk.injEq .. |>.mpr ⟨?_, ?_, ?_⟩
      · rw [List.set_append_right _ _ (le_refl _)]
        simp only [Nat.sub_self, List.length_append, List.length_singleton, List.append_assoc]
        congr 1
        have : rewards.length - (distributedCoins L (List.take k rewards)).length =
            (rewards.length - ((distributedCoins L (List.take k rewards)).length + 1)) + 1 := by
          omega
        rw [this, List.replicate_succ]
        simp
      · simp
      · rw [List.set_append_right _ _ (by omega), hlen, hdrop, Nat.sub_self, List.set_cons_zero]
        simp only [List.append_assoc, List.singleton_append]
    · right
      refine ⟨hbad, ?_⟩
      rcases hcase with hint | ⟨hint, hcoin⟩
      · exact ⟨Abort.IntOverflow, by decide, by simp only [hint]⟩
      · exact ⟨Abort.InvalidCoin, by decide, by simp only [hint, hcoin]⟩
  · left
    refine ⟨fun h => absurd h hT, ?_⟩
    simp only [hT]
    have hDk : distributedCoins L (List.take (k + 1) rewards) =
        distributedCoins L (List.take k rewards) := by
      rw [htake, distributedCoins_append]
      simp [distributedCoins, hT]
    have hRk : remainingRewards L (List.take (k + 1) rewards) =
        remainingRewards L (List.take k rewards) ++ [rewards[k]] := by
      rw [htake, remainingRewards_append]
      simp [remainingRewards, hT]
    rw [hDk, hRk, hdrop]
    simp

/-- The first `k` iterations of the loop: the expected state when the library
accepts every coin they build, an abort of the library otherwise; never an index
out of range. -/
theorem foldlM_range_loopBody (L : Dec) (rewards : List DecCoin) (k : Nat)
    (hk : k ≤ rewards.length) :
    (distributable L (rewards.take k) ∧
      (List.range k).foldlM (loopBody L) (loopStateAfter L rewards 0) =
        .ok (loopStateAfter L rewards k)) ∨
    (¬ distributable L (rewards.take k) ∧
      ∃ abort, abort ≠ Abort.IndexOutOfRange ∧
        (List.range k).foldlM (loopBody L) (loopStateAfter L rewards 0) = .error abort) := by
  induction k with
  | zero =>
    left
    exact ⟨fun r hr => by simp at hr, rfl⟩
  | succ k ih =>
    have hk' : k < rewards.length := by omega
    have htake : rewards.take (k + 1) = rewards.take k ++ [rewards[k]] := by
      rw [List.take_succ, List.getElem?_eq_getElem hk']; rfl
    rw [List.range_succ, List.foldlM_append, htake, distributable_append]
    rcases ih (by omega) with ⟨hd, hfold⟩ | ⟨hd, abort, hne, hfold⟩
    · rw [hfold]
      rcases loopBody_loopStateAfter L rewards k hk' with ⟨hd', hstep⟩ | ⟨hd', abort, hne, hstep⟩
      · left
        refine ⟨⟨hd, hd'⟩, ?_⟩
        simp only [List.foldlM_cons, List.foldlM_nil, bind, Except.bind, hstep]
        rfl
      · right
        refine ⟨fun h => hd' h.2, abort, hne, ?_⟩
        simp only [List.foldlM_cons, List.foldlM_nil, bind, Except.bind, hstep]
    · right
      refine ⟨fun h => hd h.1, abort, hne, ?_⟩
      rw [hfold]
      rfl

theorem loopStateAfter_zero (L : Dec) (rewards : List DecCoin) :
    ({ rewardsToBeDistributed := List.replicate rewards.length zeroCoin
       rewardIndex := 0
       ContractRewards := rewards } : LoopState) = loopStateAfter L rewards 0 := by
  simp [loopStateAfter, distributedCoins, remainingRewards]

theorem loopStateAfter_length (L : Dec) (rewards : List DecCoin) :
    loopStateAfter L rewards rewards.length =
      { rewardsToBeDistributed :=
          distributedCoins L rewards ++
            List.replicate (rewards.length - (distributedCoins L rewards).length) zeroCoin
        rewardIndex := (distributedCoins L rewards).length
        ContractRewards := remainingRewards L rewards } := by
  simp [loopStateAfter]

/-- The threshold loop never leaves the bounds of its slices. When the library
accepts every coin it builds, it ends with the expected coins in front of the
unused slots, the number of coins as `rewardIndex`, and the expected remainders;
otherwise it ends in an abort of the library. -/
theorem thresholdLoop_eq (L : Dec) (rewards : List DecCoin) :
    (distributable L rewards ∧
      thresholdLoop L rewards =
        .ok
          { rewardsToBeDistributed :=
              distributedCoins L rewards ++
                List.replicate (rewards.length - (distributedCoins L rewards).length) zeroCoin
            rewardIndex := (distributedCoins L rewards).length
            ContractRewards := remainingRewards L rewards }) ∨
    (¬ distributable L rewards ∧
      ∃ abort, abort ≠ Abort.IndexOutOfRange ∧ thresholdLoop L rewards = .error abort) := by
  unfold thresholdLoop
  rw [loopStateAfter_zero L rewards, ← loopStateAfter_length]
  have h := foldlM_range_loopBody L rewards rewards.length (le_refl _)
  rw [List.take_length] at h
  exact h

theorem reslice_distributed (L : Dec) (rewards : List DecCoin) (n : Nat) :
    reslice (distributedCoins L rewards ++ List.replicate n zeroCoin)
      (distributedCoins L rewards).length = .ok (distributedCoins L rewards) := by
  unfold reslice
  rw [if_pos (by simp)]
  simp

/-- The threshold processing, when the library accepts every coin it builds:
it returns the expected coins and writes the expected remainders, or returns the
expected coins with the error of the encoder. -/
theorem distributeAndStore_eq {B M : Type} (cdc : Codec B M) (store : KVStore B)
    (rewardAddress : String) (merged : List DecCoin) (leftOverThreshold : Nat)
    (hd : distributable (NewDecFromBigInt leftOverThreshold) merged) :
    distributeAndStore cdc store rewardAddress merged leftOverThreshold =
      match cdc.MarshalEntry
          { ContractRewards := remainingRewards (NewDecFromBigInt leftOverThreshold) merged } with
      | .error err =>
        .ok { store := store
              coins := distributedCoins (NewDecFromBigInt leftOverThreshold) merged
              err := some err }
      | .ok bz =>
        .ok { store := store.Set (Key.RewardEntryKey rewardAddress) bz
              coins := distributedCoins (NewDecFromBigInt leftOverThreshold) merged
              err := none } := by
  rcases thresholdLoop_eq (NewDecFromBigInt leftOverThreshold) merged with
    ⟨_, hloop⟩ | ⟨hnot, _⟩
  · unfold distributeAndStore
    simp only [ConvertUint64ToBigInt, hloop, reslice_distributed]
  · exact absurd hd hnot

/-- The threshold processing, when the library refuses a coin it builds: an abort
of the library, not an index out of range. -/
theorem distributeAndStore_abort {B M : Type} (cdc : Codec B M) (store : KVStore B)
    (rewardAddress : String) (merged : List DecCoin) (leftOverThreshold : Nat)
    (hd : ¬ distributable (NewDecFromBigInt leftOverThreshold) merged) :
    ∃ abort, abort ≠ Abort.IndexOutOfRange ∧
      distributeAndStore cdc store rewardAddress merged leftOverThreshold = .error abort := by
  rcases thresholdLoop_eq (NewDecFromBigInt leftOverThreshold) merged with
    ⟨hyes, _⟩ | ⟨_, abort, hne, hloop⟩
  · exact absurd hyes hd
  · refine ⟨abort, hne, ?_⟩
    unfold distributeAndStore
    simp only [ConvertUint64ToBigInt, hloop]

/-! ## Arithmetic of truncation -/

theorem integerPart_eq_floor (a : Dec) (ha : 0 ≤ a) : integerPart a = a / precisionReuse :=
  Int.tdiv_eq_ediv ha (le_of_lt precisionReuse_pos)

theorem TruncateDec_eq_integerPart (a : Dec) : TruncateDec a = integerPart a * precisionReuse :=
  rfl

theorem TruncateDec_eq_floor (a : Dec) (ha : 0 ≤ a) :
    TruncateDec a = (a / precisionReuse) * precisionReuse := by
  unfold TruncateDec
  rw [Int.tdiv_eq_ediv ha (le_of_lt precisionReuse_pos)]

theorem sub_TruncateDec_eq_emod (a : Dec) (ha : 0 ≤ a) :
    a - TruncateDec a = a % precisionReuse := by
  rw [TruncateDec_eq_floor a ha]
  have := Int.ediv_add_emod a precisionReuse
  linarith [mul_comm (a / precisionReuse) precisionReuse]

/-! ## Amounts per denom -/

theorem amountOf_nil (d : String) : amountOf d [] = 0 := rfl

theorem amountOf_cons (d : String) (c : DecCoin) (l : List DecCoin) :
    amountOf d (c :: l) = (if c.Denom = d then c.Amount else 0) + amountOf d l := by
  unfold amountOf
  by_cases h : c.Denom = d <;> simp [List.filter_cons, h]

theorem amountOf_append (d : String) (l₁ l₂ : List DecCoin) :
    amountOf d (l₁ ++ l₂) = amountOf d l₁ + amountOf d l₂ := by
  simp [amountOf]

theorem coinAmountOf_cons (d : String) (c : Coin) (l : List Coin) :
    coinAmountOf d (c :: l) = (if c.Denom = d then c.Amount else 0) + coinAmountOf d l := by
  unfold coinAmountOf
  by_cases h : c.Denom = d <;> simp [List.filter_cons, h]

theorem coinAmountOf_append (d : String) (l₁ l₂ : List Coin) :
    coinAmountOf d (l₁ ++ l₂) = coinAmountOf d l₁ + coinAmountOf d l₂ := by
  simp [coinAmountOf]

theorem amountOf_perm (d : String) {l₁ l₂ : List DecCoin} (h : l₁.Perm l₂) :
    amountOf d l₁ = amountOf d l₂ := by
  unfold amountOf
  exact ((h.filter _).map _).sum_eq

theorem amountOf_SortDecCoins (d : String) (l : List DecCoin) :
    amountOf d (SortDecCoins l) = amountOf d l :=
  amountOf_perm d (List.perm_insertionSort _ l)

theorem amountOf_removeZeroDecCoins (d : String) (l : List DecCoin) :
    amountOf d (removeZeroDecCoins l) = amountOf d l := by
  induction l with
  | nil => rfl
  | cons c l ih =>
    unfold removeZeroDecCoins at ih ⊢
    by_cases hz : c.Amount = 0
    · rw [List.filter_cons_of_neg (by simpa using hz), ih, amountOf_cons, hz]; simp
    · rw [List.filter_cons_of_pos (by simpa using hz), amountOf_cons, amountOf_cons, ih]

/-- Addition of coin sets adds the amounts of every denom. -/
theorem amountOf_safeAddExact (d : String) (coinsA coinsB : List DecCoin) :
    amountOf d (safeAddExact coinsA coinsB) = amountOf d coinsA + amountOf d coinsB := by
  induction coinsA, coinsB using safeAddExact.induct with
  | case1 coinsB => rw [safeAddExact, amountOf_removeZeroDecCoins, amountOf_nil, zero_add]
  | case2 coinA restA => rw [safeAddExact, amountOf_removeZeroDecCoins, amountOf_nil, add_zero]
  | case3 coinA restA coinB restB hlt ih =>
    rw [safeAddExact, if_pos hlt, amountOf_append, ih, amountOf_cons d coinA]
    by_cases hz : coinA.Amount = 0
    · simp [hz, amountOf_nil]
    · simp [hz, amountOf_cons, amountOf_nil]; ring
  | case4 coinA restA coinB restB hlt heq ih =>
    rw [safeAddExact, if_neg hlt, if_pos heq, amountOf_append, ih, amountOf_cons d coinA,
      amountOf_cons d coinB, ← heq]
    by_cases hz : coinA.Amount + coinB.Amount = 0
    · by_cases hd : coinA.Denom = d
      · simp [hz, hd, amountOf_nil]; linarith
      · simp [hz, hd, amountOf_nil]
    · by_cases hd : coinA.Denom = d
      · simp [hz, hd, amountOf_cons, amountOf_nil]; ring
      · simp [hz, hd, amountOf_cons, amountOf_nil]
  | case5 coinA restA coinB restB hlt hne ih =>
    rw [safeAddExact, if_neg hlt, if_neg hne, amountOf_append, ih, amountOf_cons d coinB]
    by_cases hz : coinB.Amount = 0
    · simp [hz, amountOf_nil]
    · simp [hz, amountOf_cons, amountOf_nil]; ring

/-- The threshold loop conserves every denom: the coins it returns plus the
remainders it leaves are the rewards it started from. -/
theorem threshold_conserves (L : Dec) (d : String) (rewards : List DecCoin) :
    coinAmountOf d (distributedCoins L rewards) * precisionReuse +
      amountOf d (remainingRewards L rewards) = amountOf d rewards := by
  induction rewards with
  | nil => simp [distributedCoins, remainingRewards, coinAmountOf, amountOf]
  | cons r rest ih =>
    have hD : distributedCoins L (r :: rest) = distributedCoins L [r] ++ distributedCoins L rest :=
      distributedCoins_append L [r] rest
    have hR : remainingRewards L (r :: rest) = remainingRewards L [r] ++ remainingRewards L rest :=
      remainingRewards_append L [r] rest
    rw [hD, hR, coinAmountOf_append, amountOf_append, amountOf_cons d r rest, ← ih]
    have hone : coinAmountOf d (distributedCoins L [r]) * precisionReuse +
        amountOf d (remainingRewards L [r]) = if r.Denom = d then r.Amount else 0 := by
      by_cases hT : GTE (TruncateDec r.Amount) L = true
      · have hD₁ : distributedCoins L [r] =
            [{ Denom := r.Denom, Amount := integerPart r.Amount }] := by
          simp [distributedCoins, hT]
        have hR₁ : remainingRewards L [r] =
            [{ Denom := r.Denom, Amount := r.Amount - TruncateDec r.Amount }] := by
          simp [remainingRewards, hT]
        rw [hD₁, hR₁, coinAmountOf_cons, amountOf_cons]
        by_cases hd : r.Denom = d
        · simp only [hd, if_true, coinAmountOf, amountOf, List.filter_nil, List.map_nil,
            List.sum_nil, add_zero, TruncateDec_eq_integerPart]
          ring
        · simp [hd, coinAmountOf, amountOf]
      · have hD₁ : distributedCoins L [r] = [] := by
          simp [distributedCoins, hT]
        have hR₁ : remainingRewards L [r] = [r] := by
          simp [remainingRewards, hT]
        rw [hD₁, hR₁, amountOf_cons]
        simp [coinAmountOf, amountOf]
    linarith

/-! ## The sum of coin sets and its aborts -/

/-- The sum `safeAdd` is the exact sum, unless an addition aborts. -/
theorem safeAdd_cases (coinsA coinsB : List DecCoin) :
    safeAdd coinsA coinsB = .ok (safeAddExact coinsA coinsB) ∨
      safeAdd coinsA coinsB = .error Abort.IntOverflow := by
  induction coinsA, coinsB using safeAddExact.induct with
  | case1 coinsB => left; rw [safeAdd, safeAddExact]
  | case2 coinA restA => left; rw [safeAdd, safeAddExact]
  | case3 coinA restA coinB restB hlt ih =>
    rw [safeAdd, safeAddExact, if_pos hlt, if_pos hlt]
    rcases ih with h | h
    · left; rw [h]
    · right; rw [h]
  | case4 coinA restA coinB restB hlt heq ih =>
    rw [safeAdd, safeAddExact, if_neg hlt, if_pos heq, if_neg hlt, if_pos heq]
    unfold DecAdd
    by_cases hfit : (coinA.Amount + coinB.Amount).natAbs < decLimit
    · rw [if_pos hfit]
      rcases ih with h | h
      · left; simp only [h]
      · right; simp only [h]
    · right; rw [if_neg hfit]
  | case5 coinA restA coinB restB hlt hne ih =>
    rw [safeAdd, safeAddExact, if_neg hlt, if_neg hne, if_neg hlt, if_neg hne]
    rcases ih with h | h
    · left; rw [h]
    · right; rw [h]

/-- The sum `safeAdd` does not abort when every pair of coins of one denom has a
sum within the range of `sdk.Dec`. -/
theorem safeAdd_ok_of_fits (coinsA coinsB : List DecCoin) :
    (∀ a ∈ coinsA, ∀ b ∈ coinsB, a.Denom = b.Denom →
        (a.Amount + b.Amount).natAbs < decLimit) →
      safeAdd coinsA coinsB = .ok (safeAddExact coinsA coinsB) := by
  induction coinsA, coinsB using safeAddExact.induct with
  | case1 coinsB => intro _; rw [safeAdd, safeAddExact]
  | case2 coinA restA => intro _; rw [safeAdd, safeAddExact]
  | case3 coinA restA coinB restB hlt ih =>
    intro h
    rw [safeAdd, safeAddExact, if_pos hlt, if_pos hlt,
      ih (fun a ha b hb => h a (List.mem_cons_of_mem _ ha) b hb)]
  | case4 coinA restA coinB restB hlt heq ih =>
    intro h
    have hfit := h coinA (List.mem_cons_self _ _) coinB (List.mem_cons_self _ _) heq
    rw [safeAdd, safeAddExact, if_neg hlt, if_pos heq, if_neg hlt, if_pos heq]
    unfold DecAdd
    rw [if_pos hfit]
    simp only [ih (fun a ha b hb =>
      h a (List.mem_cons_of_mem _ ha) b (List.mem_cons_of_mem _ hb))]
  | case5 coinA restA coinB restB hlt hne ih =>
    intro h
    rw [safeAdd, safeAddExact, if_neg hlt, if_neg hne, if_neg hlt, if_neg hne,
      ih (fun a ha b hb => h a ha b (List.mem_cons_of_mem _ hb))]

/-- The merge step gives the exact merged set, unless an addition aborts. -/
theorem mergeRewards_cases (previous : Option (List DecCoin)) (contractRewards : List DecCoin) :
    mergeRewards previous contractRewards =
        .ok (mergeRewardsExact previous contractRewards) ∨
      mergeRewards previous contractRewards = .error Abort.IntOverflow := by
  cases previous with
  | none => left; rfl
  | some prev => exact safeAdd_cases prev contractRewards

theorem mergeRewards_eq_ok {previous : Option (List DecCoin)} {contractRewards merged : List DecCoin}
    (h : mergeRewards previous contractRewards = .ok merged) :
    merged = mergeRewardsExact previous contractRewards := by
  rcases mergeRewards_cases previous contractRewards with h' | h'
  · rw [h'] at h
    cases h
    rfl
  · rw [h'] at h
    cases h

theorem mergeRewards_ok_of_fits (previous : Option (List DecCoin))
    (contractRewards : List DecCoin)
    (h : ∀ l, previous = some l → ∀ a ∈ l, ∀ b ∈ contractRewards, a.Denom = b.Denom →
      (a.Amount + b.Amount).natAbs < decLimit) :
    mergeRewards previous contractRewards =
      .ok (mergeRewardsExact previous contractRewards) := by
  cases previous with
  | none => rfl
  | some prev => exact safeAdd_ok_of_fits prev contractRewards (h prev rfl)

/-! ## The reference codec -/

theorem referenceCodec_roundTrips (M : Type) [Inhabited M] : (referenceCodec M).RoundTrips where
  entry e := ⟨.entry e, rfl, rfl⟩
  metadata m := ⟨.metadata m, rfl, rfl⟩
  block b := ⟨.block b, rfl, rfl⟩
  tx t := ⟨.tx t, rfl⟩
  nilBlock := rfl

/-! ## One call of `CreateOrMergeLeftOverRewardEntry` -/

theorem KVStore.Get_Set_same {B : Type} (s : KVStore B) (k : Key) (bz : B) :
    (s.Set k bz).Get k = some bz := by
  simp [KVStore.Get, KVStore.Set]

theorem KVStore.Get_Set_other {B : Type} (s : KVStore B) (k k' : Key) (bz : B) (h : k' ≠ k) :
    (s.Set k bz).Get k' = s.Get k' := by
  simp [KVStore.Get, KVStore.Set, h]

/-- The method is the threshold processing of the merge of what it read, or the
abort of that merge. -/
theorem CreateOrMerge_of_readPrevious {B M : Type} (cdc : Codec B M) (ctx : Context B)
    (rewardAddress : String) (contractRewards : List DecCoin) (leftOverThreshold : Nat)
    (previous : Option (List DecCoin))
    (h : readPrevious cdc ctx.store rewardAddress = .ok previous) :
    CreateOrMergeLeftOverRewardEntry cdc ctx rewardAddress contractRewards leftOverThreshold =
      match mergeRewards previous (SortDecCoins contractRewards) with
      | .error abort => .error abort
      | .ok merged =>
        distributeAndStore cdc ctx.store rewardAddress merged leftOverThreshold := by
  cases hget : ctx.store.Get (Key.RewardEntryKey rewardAddress) with
  | none =>
    simp only [readPrevious, hget] at h
    cases h
    simp only [CreateOrMergeLeftOverRewardEntry, hget]
  | some bz =>
    cases hdec : cdc.UnmarshalEntry (some bz) with
    | error err => simp only [readPrevious, hget, hdec] at h; cases h
    | ok rewardEntry =>
      simp only [readPrevious, hget, hdec] at h
      cases h
      simp only [CreateOrMergeLeftOverRewardEntry, hget, hdec]

theorem readPrevious_Set {B M : Type} (cdc : Codec B M) (store : KVStore B)
    (rewardAddress : String) (bz : B) (e : LeftOverRewardEntry)
    (h : cdc.UnmarshalEntry (some bz) = .ok e) :
    readPrevious cdc (store.Set (Key.RewardEntryKey rewardAddress) bz) rewardAddress =
      .ok (some e.ContractRewards) := by
  simp only [readPrevious, KVStore.Get_Set_same, h]

theorem GetLeftOverRewardEntry_Set {B M : Type} (cdc : Codec B M) (store : KVStore B)
    (height : Int) (rewardAddress : String) (bz : B) :
    GetLeftOverRewardEntry cdc
        { store := store.Set (Key.RewardEntryKey rewardAddress) bz, BlockHeight := height }
        rewardAddress = cdc.UnmarshalEntry (some bz) := by
  simp only [GetLeftOverRewardEntry, KVStore.Get_Set_same]

theorem storedRewards_of_readPrevious {B M : Type} (cdc : Codec B M) (store : KVStore B)
    (rewardAddress : String) (previous : Option (List DecCoin))
    (h : readPrevious cdc store rewardAddress = .ok previous) :
    storedRewards cdc store rewardAddress = previous.getD [] := by
  cases hget : store.Get (Key.RewardEntryKey rewardAddress) with
  | none =>
    simp only [readPrevious, hget] at h
    cases h
    simp only [storedRewards, GetLeftOverRewardEntry, hget, Option.getD_none]
  | some bz =>
    cases hdec : cdc.UnmarshalEntry (some bz) with
    | error err => simp only [readPrevious, hget, hdec] at h; cases h
    | ok rewardEntry =>
      simp only [readPrevious, hget, hdec] at h
      cases h
      simp only [storedRewards, GetLeftOverRewardEntry, hget, hdec, Option.getD_some]

/-- With a working codec, a call that could read its key, whose merge does not
abort and whose coins the library accepts, succeeds: it returns the expected
coins and writes an encoding of the expected remainders. -/
theorem CreateOrMerge_ok {B M : Type} (cdc : Codec B M) (hcdc : cdc.RoundTrips)
    (ctx : Context B) (rewardAddress : String) (contractRewards : List DecCoin)
    (leftOverThreshold : Nat) (previous : Option (List DecCoin)) (merged : List DecCoin)
    (h : readPrevious cdc ctx.store rewardAddress = .ok previous)
    (hmerged : mergeRewards previous (SortDecCoins contractRewards) = .ok merged)
    (hd : distributable (NewDecFromBigInt leftOverThreshold) merged) :
    ∃ bz,
      cdc.MarshalEntry
          { ContractRewards := remainingRewards (NewDecFromBigInt leftOverThreshold) merged } =
        .ok bz ∧
      cdc.UnmarshalEntry (some bz) =
        .ok { ContractRewards :=
                remainingRewards (NewDecFromBigInt leftOverThreshold) merged } ∧
      CreateOrMergeLeftOverRewardEntry cdc ctx rewardAddress contractRewards leftOverThreshold =
        .ok { store := ctx.store.Set (Key.RewardEntryKey rewardAddress) bz
              coins := distributedCoins (NewDecFromBigInt leftOverThreshold) merged
              err := none } := by
  obtain ⟨bz, hm, hu⟩ := hcdc.entry
    { ContractRewards := remainingRewards (NewDecFromBigInt leftOverThreshold) merged }
  refine ⟨bz, hm, hu, ?_⟩
  rw [CreateOrMerge_of_readPrevious cdc ctx rewardAddress contractRewards leftOverThreshold
    previous h, hmerged]
  simp only
  rw [distributeAndStore_eq cdc ctx.store rewardAddress merged leftOverThreshold hd, hm]

/-- With a working codec, a call that could read its key and returns has merged
without abort, the library has accepted its coins, and its result is the expected
one, without error. -/
theorem CreateOrMerge_ok_inv {B M : Type} (cdc : Codec B M) (hcdc : cdc.RoundTrips)
    (ctx : Context B) (rewardAddress : String) (contractRewards : List DecCoin)
    (leftOverThreshold : Nat) (previous : Option (List DecCoin)) (res : MergeResult B)
    (h : readPrevious cdc ctx.store rewardAddress = .ok previous)
    (hcall : CreateOrMergeLeftOverRewardEntry cdc ctx rewardAddress contractRewards
      leftOverThreshold = .ok res) :
    ∃ merged bz,
      mergeRewards previous (SortDecCoins contractRewards) = .ok merged ∧
      distributable (NewDecFromBigInt leftOverThreshold) merged ∧
      cdc.MarshalEntry
          { ContractRewards := remainingRewards (NewDecFromBigInt leftOverThreshold) merged } =
        .ok bz ∧
      cdc.UnmarshalEntry (some bz) =
        .ok { ContractRewards :=
                remainingRewards (NewDecFromBigInt leftOverThreshold) merged } ∧
      res = { store := ctx.store.Set (Key.RewardEntryKey rewardAddress) bz
              coins := distributedCoins (NewDecFromBigInt leftOverThreshold) merged
              err := none } := by
  rw [CreateOrMerge_of_readPrevious cdc ctx rewardAddress contractRewards leftOverThreshold
    previous h] at hcall
  cases hmerged : mergeRewards previous (SortDecCoins contractRewards) with
  | error abort => rw [hmerged] at hcall; cases hcall
  | ok merged =>
    rw [hmerged] at hcall
    simp only at hcall
    by_cases hd : distributable (NewDecFromBigInt leftOverThreshold) merged
    · obtain ⟨bz, hm, hu, hcall'⟩ := CreateOrMerge_ok cdc hcdc ctx rewardAddress contractRewards
        leftOverThreshold previous merged h hmerged hd
      rw [CreateOrMerge_of_readPrevious cdc ctx rewardAddress contractRewards leftOverThreshold
        previous h, hmerged] at hcall'
      simp only at hcall'
      rw [hcall'] at hcall
      cases hcall
      exact ⟨merged, bz, rfl, hd, hm, hu, rfl⟩
    · obtain ⟨abort, _, habort⟩ := distributeAndStore_abort cdc ctx.store rewardAddress merged
        leftOverThreshold hd
      rw [habort] at hcall
      cases hcall

theorem amountOf_mergeRewardsExact (d : String) (previous : Option (List DecCoin))
    (contractRewards : List DecCoin) :
    amountOf d (mergeRewardsExact previous contractRewards) =
      amountOf d (previous.getD []) + amountOf d contractRewards := by
  cases previous with
  | none => simp [mergeRewardsExact, amountOf_nil]
  | some prev => simp [mergeRewardsExact, amountOf_safeAddExact]

/-! ## Conservation over a sequence of merges -/

/-- A run of merges that succeeds starts with a successful call, whose result is
the expected one, and continues from the store that call wrote. -/
theorem runMerges_cons_inv {B M : Type} (cdc : Codec B M) (hcdc : cdc.RoundTrips)
    (rewardAddress : String) (store : KVStore B) (call : MergeCall) (rest : List MergeCall)
    (previous : Option (List DecCoin)) (store' : KVStore B) (coins : List Coin)
    (h : readPrevious cdc store rewardAddress = .ok previous)
    (hrun : runMerges cdc rewardAddress store (call :: rest) = some (store', coins)) :
    ∃ merged bz coins',
      mergeRewards previous (SortDecCoins call.contractRewards) = .ok merged ∧
      distributable (NewDecFromBigInt call.leftOverThreshold) merged ∧
      cdc.UnmarshalEntry (some bz) =
        .ok { ContractRewards :=
                remainingRewards (NewDecFromBigInt call.leftOverThreshold) merged } ∧
      runMerges cdc rewardAddress (store.Set (Key.RewardEntryKey rewardAddress) bz) rest =
        some (store', coins') ∧
      coins = distributedCoins (NewDecFromBigInt call.leftOverThreshold) merged ++ coins' := by
  cases hcall : CreateOrMergeLeftOverRewardEntry cdc
      { store := store, BlockHeight := call.BlockHeight } rewardAddress call.contractRewards
      call.leftOverThreshold with
  | error abort => simp only [runMerges, hcall] at hrun; cases hrun
  | ok res =>
    obtain ⟨merged, bz, hmerged, hd, _, hu, hres⟩ := CreateOrMerge_ok_inv cdc hcdc
      { store := store, BlockHeight := call.BlockHeight } rewardAddress call.contractRewards
      call.leftOverThreshold previous res h hcall
    subst hres
    simp only [runMerges, hcall] at hrun
    cases hrest : runMerges cdc rewardAddress
        (store.Set (Key.RewardEntryKey rewardAddress) bz) rest with
    | none => rw [hrest] at hrun; cases hrun
    | some r =>
      rw [hrest] at hrun
      simp only [Option.map_some', Option.some.injEq, Prod.mk.injEq] at hrun
      obtain ⟨h1, h2⟩ := hrun
      exact ⟨merged, bz, r.2, hmerged, hd, hu, by rw [← h1, hrest], h2.symm⟩

theorem runMerges_conserves {B M : Type} (cdc : Codec B M) (hcdc : cdc.RoundTrips)
    (rewardAddress : String) (calls : List MergeCall) :
    ∀ (store : KVStore B) (previous : Option (List DecCoin)),
      readPrevious cdc store rewardAddress = .ok previous →
      ∀ store' coins,
        runMerges cdc rewardAddress store calls = some (store', coins) →
        ∀ d, coinAmountOf d coins * precisionReuse +
              amountOf d (storedRewards cdc store' rewardAddress) =
            amountOf d (previous.getD []) +
              (calls.map (fun c => amountOf d c.contractRewards)).sum := by
  induction calls with
  | nil =>
    intro store previous h store' coins hrun d
    simp only [runMerges, Option.some.injEq, Prod.mk.injEq] at hrun
    obtain ⟨h1, h2⟩ := hrun
    subst h1 h2
    rw [storedRewards_of_readPrevious cdc store rewardAddress previous h]
    simp [coinAmountOf]
  | cons call rest ih =>
    intro store previous h store' coins hrun d
    obtain ⟨merged, bz, coins', hmerged, _, hu, hrest, hcoins⟩ :=
      runMerges_cons_inv cdc hcdc rewardAddress store call rest previous store' coins h hrun
    have h1 := ih _ _ (readPrevious_Set cdc store rewardAddress bz _ hu) store' coins' hrest d
    have h2 := threshold_conserves (NewDecFromBigInt call.leftOverThreshold) d merged
    rw [mergeRewards_eq_ok hmerged, amountOf_mergeRewardsExact, amountOf_SortDecCoins] at h2
    rw [mergeRewards_eq_ok hmerged] at hcoins h1
    simp only [Option.getD_some] at h1
    rw [hcoins, coinAmountOf_append, List.map_cons, List.sum_cons]
    linarith

/-! ## Denom order of the merged set -/

theorem denomsAscending_SortDecCoins (coins : List DecCoin)
    (h : (coins.map (fun c => c.Denom)).Nodup) : denomsAscending (SortDecCoins coins) := by
  haveI : IsTotal DecCoin (fun a b => a.Denom ≤ b.Denom) := ⟨fun a b => le_total _ _⟩
  haveI : IsTrans DecCoin (fun a b => a.Denom ≤ b.Denom) := ⟨fun _ _ _ h₁ h₂ => le_trans h₁ h₂⟩
  have hs : (SortDecCoins coins).Pairwise (fun a b => a.Denom ≤ b.Denom) :=
    List.sorted_insertionSort (fun a b : DecCoin => a.Denom ≤ b.Denom) coins
  have hp : (SortDecCoins coins).Perm coins := List.perm_insertionSort _ coins
  have hn : ((SortDecCoins coins).map (fun c => c.Denom)).Nodup :=
    ((hp.map _).nodup_iff).mpr h
  have hne : (SortDecCoins coins).Pairwise (fun a b => a.Denom ≠ b.Denom) := by
    unfold List.Nodup at hn
    exact List.pairwise_map.mp hn
  exact (hs.and hne).imp (fun ⟨h₁, h₂⟩ => lt_of_le_of_ne h₁ h₂)

theorem denom_mem_removeZeroDecCoins {c : DecCoin} {coins : List DecCoin}
    (h : c ∈ removeZeroDecCoins coins) : c ∈ coins :=
  (List.mem_filter.mp h).1

/-- Every denom of a sum of coin sets is a denom of one of the two sets. -/
theorem denom_mem_safeAddExact (coinsA coinsB : List DecCoin) :
    ∀ c ∈ safeAddExact coinsA coinsB, ∃ x ∈ coinsA ++ coinsB, x.Denom = c.Denom := by
  induction coinsA, coinsB using safeAddExact.induct with
  | case1 coinsB =>
    intro c hc
    rw [safeAddExact] at hc
    exact ⟨c, by simpa using denom_mem_removeZeroDecCoins hc, rfl⟩
  | case2 coinA restA =>
    intro c hc
    rw [safeAddExact] at hc
    exact ⟨c, by simpa using denom_mem_removeZeroDecCoins hc, rfl⟩
  | case3 coinA restA coinB restB hlt ih =>
    intro c hc
    rw [safeAddExact, if_pos hlt, List.mem_append] at hc
    rcases hc with hc | hc
    · have : c = coinA := by
        by_cases hz : coinA.Amount = 0 <;> simp [hz] at hc
        exact hc
      exact ⟨coinA, by simp, by rw [this]⟩
    · obtain ⟨x, hx, hxd⟩ := ih c hc
      refine ⟨x, ?_, hxd⟩
      simp only [List.mem_append, List.mem_cons] at hx ⊢
      tauto
  | case4 coinA restA coinB restB hlt heq ih =>
    intro c hc
    rw [safeAddExact, if_neg hlt, if_pos heq, List.mem_append] at hc
    rcases hc with hc | hc
    · have : c.Denom = coinA.Denom := by
        by_cases hz : coinA.Amount + coinB.Amount = 0 <;> simp [hz] at hc
        rw [hc]
      exact ⟨coinA, by simp, this.symm⟩
    · obtain ⟨x, hx, hxd⟩ := ih c hc
      refine ⟨x, ?_, hxd⟩
      simp only [List.mem_append, List.mem_cons] at hx ⊢
      tauto
  | case5 coinA restA coinB restB hlt hne ih =>
    intro c hc
    rw [safeAddExact, if_neg hlt, if_neg hne, List.mem_append] at hc
    rcases hc with hc | hc
    · have : c = coinB := by
        by_cases hz : coinB.Amount = 0 <;> simp [hz] at hc
        exact hc
      exact ⟨coinB, by simp, by rw [this]⟩
    · obtain ⟨x, hx, hxd⟩ := ih c hc
      refine ⟨x, ?_, hxd⟩
      simp only [List.mem_append, List.mem_cons] at hx ⊢
      tauto

theorem denomsAscending_removeZeroDecCoins {coins : List DecCoin} (h : denomsAscending coins) :
    denomsAscending (removeZeroDecCoins coins) :=
  List.Pairwise.sublist (List.filter_sublist _) h

theorem denomsAscending_optional_cons (keep : Prop) [Decidable keep] (c : DecCoin)
    (rest : List DecCoin) (hrest : denomsAscending rest)
    (hlt : ∀ x ∈ rest, c.Denom < x.Denom) :
    denomsAscending ((if keep then [c] else []) ++ rest) := by
  by_cases hk : keep
  · simp only [hk, if_true, List.singleton_append]
    exact List.pairwise_cons.mpr ⟨hlt, hrest⟩
  · simpa only [hk, if_false, List.nil_append] using hrest

/-- Adding two coin sets in ascending denom order gives a set in ascending denom
order. -/
theorem denomsAscending_safeAddExact (coinsA coinsB : List DecCoin) :
    denomsAscending coinsA → denomsAscending coinsB →
      denomsAscending (safeAddExact coinsA coinsB) := by
  induction coinsA, coinsB using safeAddExact.induct with
  | case1 coinsB =>
    intro _ hB
    rw [safeAddExact]
    exact denomsAscending_removeZeroDecCoins hB
  | case2 coinA restA =>
    intro hA _
    rw [safeAddExact]
    exact denomsAscending_removeZeroDecCoins hA
  | case3 coinA restA coinB restB hlt ih =>
    intro hA hB
    rw [safeAddExact, if_pos hlt]
    have hA' := List.pairwise_cons.mp hA
    have hB' := List.pairwise_cons.mp hB
    refine denomsAscending_optional_cons _ coinA _ (ih hA'.2 hB) ?_
    intro x hx
    obtain ⟨y, hy, hyd⟩ := denom_mem_safeAddExact _ _ x hx
    rw [← hyd]
    simp only [List.mem_append, List.mem_cons] at hy
    rcases hy with hy | hy | hy
    · exact hA'.1 y hy
    · rw [hy]; exact hlt
    · exact lt_trans hlt (hB'.1 y hy)
  | case4 coinA restA coinB restB hlt heq ih =>
    intro hA hB
    rw [safeAddExact, if_neg hlt, if_pos heq]
    have hA' := List.pairwise_cons.mp hA
    have hB' := List.pairwise_cons.mp hB
    refine denomsAscending_optional_cons _
      { Denom := coinA.Denom, Amount := coinA.Amount + coinB.Amount } _ (ih hA'.2 hB'.2) ?_
    intro x hx
    obtain ⟨y, hy, hyd⟩ := denom_mem_safeAddExact _ _ x hx
    rw [← hyd]
    simp only [List.mem_append] at hy
    rcases hy with hy | hy
    · exact hA'.1 y hy
    · show coinA.Denom < y.Denom
      rw [heq]; exact hB'.1 y hy
  | case5 coinA restA coinB restB hlt hne ih =>
    intro hA hB
    rw [safeAddExact, if_neg hlt, if_neg hne]
    have hA' := List.pairwise_cons.mp hA
    have hB' := List.pairwise_cons.mp hB
    have hgt : coinB.Denom < coinA.Denom := lt_of_le_of_ne (not_lt.mp hlt) (Ne.symm hne)
    refine denomsAscending_optional_cons _ coinB _ (ih hA hB'.2) ?_
    intro x hx
    obtain ⟨y, hy, hyd⟩ := denom_mem_safeAddExact _ _ x hx
    rw [← hyd]
    simp only [List.mem_append, List.mem_cons] at hy
    rcases hy with (hy | hy) | hy
    · rw [hy]; exact hgt
    · exact lt_trans hgt (hA'.1 y hy)
    · exact hB'.1 y hy

/-- The merged set is in ascending denom order when the stored rewards are and
the input has pairwise distinct denoms. -/
theorem denomsAscending_mergeRewardsExact (previous : Option (List DecCoin))
    (contractRewards : List DecCoin)
    (hprev : ∀ l, previous = some l → denomsAscending l)
    (hinput : (contractRewards.map (fun c => c.Denom)).Nodup) :
    denomsAscending (mergeRewardsExact previous (SortDecCoins contractRewards)) := by
  cases previous with
  | none => exact denomsAscending_SortDecCoins contractRewards hinput
  | some prev =>
    exact denomsAscending_safeAddExact prev _ (hprev prev rfl)
      (denomsAscending_SortDecCoins contractRewards hinput)

theorem nodup_denoms_of_ascending {coins : List DecCoin} (h : denomsAscending coins) :
    (coins.map (fun c => c.Denom)).Nodup := by
  unfold List.Nodup
  exact List.pairwise_map.mpr (h.imp (fun hlt => ne_of_lt hlt))

/-- The merged set has pairwise distinct denoms when the stored rewards are in
ascending denom order and the input has pairwise distinct denoms. -/
theorem nodup_denoms_mergeRewardsExact (previous : Option (List DecCoin))
    (contractRewards : List DecCoin)
    (hprev : ∀ l, previous = some l → denomsAscending l)
    (hinput : (contractRewards.map (fun c => c.Denom)).Nodup) :
    ((mergeRewardsExact previous (SortDecCoins contractRewards)).map (fun c => c.Denom)).Nodup :=
  nodup_denoms_of_ascending (denomsAscending_mergeRewardsExact previous contractRewards hprev hinput)

theorem filter_denom_of_nodup {coins : List DecCoin}
    (h : (coins.map (fun c => c.Denom)).Nodup) {c : DecCoin} (hc : c ∈ coins) :
    coins.filter (fun x => decide (x.Denom = c.Denom)) = [c] := by
  induction coins with
  | nil => cases hc
  | cons x rest ih =>
    rw [List.map_cons, List.nodup_cons] at h
    rcases List.mem_cons.mp hc with hcx | hcr
    · subst hcx
      rw [List.filter_cons_of_pos (by simp)]
      congr 1
      apply List.filter_eq_nil_iff.mpr
      intro y hy hyd
      exact h.1 (List.mem_map.mpr ⟨y, hy, by simpa using hyd⟩)
    · have hne : x.Denom ≠ c.Denom := by
        intro heq
        exact h.1 (List.mem_map.mpr ⟨c, hcr, heq.symm⟩)
      rw [List.filter_cons_of_neg (by simpa using hne)]
      exact ih h.2 hcr

theorem distributedCoins_filter (L : Dec) (d : String) (rewards : List DecCoin) :
    (distributedCoins L rewards).filter (fun x => decide (x.Denom = d)) =
      distributedCoins L (rewards.filter (fun x => decide (x.Denom = d))) := by
  induction rewards with
  | nil => rfl
  | cons r rest ih =>
    have hD : distributedCoins L (r :: rest) = distributedCoins L [r] ++ distributedCoins L rest :=
      distributedCoins_append L [r] rest
    by_cases hd : r.Denom = d
    · rw [List.filter_cons_of_pos (by simpa using hd), hD, List.filter_append, ih]
      have hD' := distributedCoins_append L [r] (rest.filter (fun x => decide (x.Denom = d)))
      rw [List.singleton_append] at hD'
      rw [hD']
      congr 1
      by_cases hT : GTE (TruncateDec r.Amount) L = true
      · simp [distributedCoins, hT, NewCoin, hd]
      · simp [distributedCoins, hT]
    · rw [List.filter_cons_of_neg (by simpa using hd), hD, List.filter_append, ih]
      by_cases hT : GTE (TruncateDec r.Amount) L = true
      · simp [distributedCoins, hT, NewCoin, hd]
      · simp [distributedCoins, hT]

theorem remainingRewards_filter (L : Dec) (d : String) (rewards : List DecCoin) :
    (remainingRewards L rewards).filter (fun x => decide (x.Denom = d)) =
      remainingRewards L (rewards.filter (fun x => decide (x.Denom = d))) := by
  induction rewards with
  | nil => rfl
  | cons r rest ih =>
    have hR : remainingRewards L (r :: rest) = remainingRewards L [r] ++ remainingRewards L rest :=
      remainingRewards_append L [r] rest
    by_cases hd : r.Denom = d
    · rw [List.filter_cons_of_pos (by simpa using hd), hR, List.filter_append, ih]
      have hR' := remainingRewards_append L [r] (rest.filter (fun x => decide (x.Denom = d)))
      rw [List.singleton_append] at hR'
      rw [hR']
      congr 1
      by_cases hT : GTE (TruncateDec r.Amount) L = true
      · simp [remainingRewards, hT, hd]
      · simp [remainingRewards, hT, hd]
    · rw [List.filter_cons_of_neg (by simpa using hd), hR, List.filter_append, ih]
      by_cases hT : GTE (TruncateDec r.Amount) L = true
      · simp [remainingRewards, hT, hd]
      · simp [remainingRewards, hT, hd]

/-! ## What one call returns and persists, per denom -/

theorem GTE_threshold_iff (a : Dec) (ha : 0 ≤ a) (T : Nat) :
    GTE (TruncateDec a) (NewDecFromBigInt (T : Int)) = true ↔ (T : Int) ≤ a / precisionReuse := by
  unfold GTE NewDecFromBigInt
  rw [TruncateDec_eq_floor a ha, decide_eq_true_iff]
  exact ⟨fun h => le_of_mul_le_mul_right h precisionReuse_pos,
    fun h => mul_le_mul_of_nonneg_right h (le_of_lt precisionReuse_pos)⟩

/-- The merge step does not abort when every amount involved is below `2^255` in
absolute value. -/
theorem mergeRewards_ok_of_small (previous : Option (List DecCoin))
    (contractRewards : List DecCoin)
    (hprev : ∀ a ∈ previous.getD [], a.Amount.natAbs < 2 ^ maxBitLen)
    (hin : ∀ b ∈ contractRewards, b.Amount.natAbs < 2 ^ maxBitLen) :
    mergeRewards previous contractRewards =
      .ok (mergeRewardsExact previous contractRewards) := by
  apply mergeRewards_ok_of_fits
  intro l hl a ha b hb _
  subst hl
  have h1 := hprev a ha
  have h2 := hin b hb
  have h3 : 2 ^ maxBitLen + 2 ^ maxBitLen ≤ decLimit := by decide
  omega

/-- With a working codec, a call that could read its key, whose merge does not
abort and whose coins the library accepts, succeeds without error, returns the
expected coins, and `GetLeftOverRewardEntry` then reads the expected
remainders. -/
theorem CreateOrMerge_view {B M : Type} (cdc : Codec B M) (hcdc : cdc.RoundTrips)
    (ctx : Context B) (rewardAddress : String) (contractRewards : List DecCoin)
    (leftOverThreshold : Nat) (previous : Option (List DecCoin)) (merged : List DecCoin)
    (h : readPrevious cdc ctx.store rewardAddress = .ok previous)
    (hmerged : mergeRewards previous (SortDecCoins contractRewards) = .ok merged)
    (hd : distributable (NewDecFromBigInt leftOverThreshold) merged) :
    ∃ res,
      CreateOrMergeLeftOverRewardEntry cdc ctx rewardAddress contractRewards leftOverThreshold =
        .ok res ∧
      res.err = none ∧
      res.coins = distributedCoins (NewDecFromBigInt leftOverThreshold) merged ∧
      GetLeftOverRewardEntry cdc { store := res.store, BlockHeight := ctx.BlockHeight }
          rewardAddress =
        .ok { ContractRewards :=
                remainingRewards (NewDecFromBigInt leftOverThreshold) merged } := by
  obtain ⟨bz, _, hu, hcall⟩ := CreateOrMerge_ok cdc hcdc ctx rewardAddress contractRewards
    leftOverThreshold previous merged h hmerged hd
  refine ⟨_, hcall, rfl, rfl, ?_⟩
  rw [GetLeftOverRewardEntry_Set, hu]

/-- With a working codec, a call that could read its key and returns has
returned the expected coins without error, and `GetLeftOverRewardEntry` then
reads the expected remainders. -/
theorem CreateOrMerge_view_inv {B M : Type} (cdc : Codec B M) (hcdc : cdc.RoundTrips)
    (ctx : Context B) (rewardAddress : String) (contractRewards : List DecCoin)
    (leftOverThreshold : Nat) (previous : Option (List DecCoin)) (res : MergeResult B)
    (h : readPrevious cdc ctx.store rewardAddress = .ok previous)
    (hcall : CreateOrMergeLeftOverRewardEntry cdc ctx rewardAddress contractRewards
      leftOverThreshold = .ok res) :
    mergeRewards previous (SortDecCoins contractRewards) =
        .ok (mergeRewardsExact previous (SortDecCoins contractRewards)) ∧
      distributable (NewDecFromBigInt leftOverThreshold)
        (mergeRewardsExact previous (SortDecCoins contractRewards)) ∧
      res.err = none ∧
      res.coins = distributedCoins (NewDecFromBigInt leftOverThreshold)
        (mergeRewardsExact previous (SortDecCoins contractRewards)) ∧
      GetLeftOverRewardEntry cdc { store := res.store, BlockHeight := ctx.BlockHeight }
          rewardAddress =
        .ok { ContractRewards :=
                remainingRewards (NewDecFromBigInt leftOverThreshold)
                  (mergeRewardsExact previous (SortDecCoins contractRewards)) } := by
  obtain ⟨merged, bz, hmerged, hd, _, hu, hres⟩ := CreateOrMerge_ok_inv cdc hcdc ctx
    rewardAddress contractRewards leftOverThreshold previous res h hcall
  have hm := mergeRewards_eq_ok hmerged
  subst hm
  subst hres
  refine ⟨hmerged, hd, rfl, rfl, ?_⟩
  rw [GetLeftOverRewardEntry_Set, hu]

theorem SortDecCoins_pair (a b : DecCoin) (h : a.Denom ≤ b.Denom) :
    SortDecCoins [a, b] = [a, b] :=
  List.Sorted.insertionSort_eq (List.pairwise_pair.mpr h)

/-- Counterexample to claim C2 as stated. On a store with no entry, merging the input
`uusd: 1.5, uusd: 2.5` (one denom twice) with threshold 1 returns two coins for
`uusd`, of amounts 1 and 2, and persists two entries for `uusd`, each `0.5`:
the returned coins do not hold exactly one coin for the denom. -/
theorem repeated_denom_distributed_twice :
    ∃ res,
      CreateOrMergeLeftOverRewardEntry (referenceCodec Nat)
          { store := emptyStore (Blob Nat), BlockHeight := 5 } "reward1"
          [{ Denom := "uusd", Amount := 15 * 10 ^ 17 },
           { Denom := "uusd", Amount := 25 * 10 ^ 17 }] 1 = .ok res ∧
      res.err = none ∧
      res.coins = [{ Denom := "uusd", Amount := 1 }, { Denom := "uusd", Amount := 2 }] ∧
      GetLeftOverRewardEntry (referenceCodec Nat) { store := res.store, BlockHeight := 5 }
          "reward1" =
        .ok { ContractRewards := [{ Denom := "uusd", Amount := 5 * 10 ^ 17 },
                                  { Denom := "uusd", Amount := 5 * 10 ^ 17 }] } := by
  obtain ⟨res, hcall, herr, hcoins, hget⟩ := CreateOrMerge_view (referenceCodec Nat)
    (referenceCodec_roundTrips Nat) { store := emptyStore (Blob Nat), BlockHeight := 5 }
    "reward1"
    [{ Denom := "uusd", Amount := 15 * 10 ^ 17 }, { Denom := "uusd", Amount := 25 * 10 ^ 17 }]
    1 none
    [{ Denom := "uusd", Amount := 15 * 10 ^ 17 }, { Denom := "uusd", Amount := 25 * 10 ^ 17 }]
    rfl (by rw [SortDecCoins_pair _ _ (le_refl "uusd")]; rfl) (by unfold distributable; decide)
  have hc : distributedCoins (NewDecFromBigInt ((1 : Nat) : Int))
      [{ Denom := "uusd", Amount := 15 * 10 ^ 17 },
       { Denom := "uusd", Amount := 25 * 10 ^ 17 }] = [{ Denom := "uusd", Amount := 1 }, { Denom := "uusd", Amount := 2 }] := by
    decide
  have hr : remainingRewards (NewDecFromBigInt ((1 : Nat) : Int))
      [{ Denom := "uusd", Amount := 15 * 10 ^ 17 },
       { Denom := "uusd", Amount := 25 * 10 ^ 17 }] =
      [{ Denom := "uusd", Amount := 5 * 10 ^ 17 }, { Denom := "uusd", Amount := 5 * 10 ^ 17 }] := by
    decide
  rw [hc] at hcoins
  rw [hr] at hget
  exact ⟨res, hcall, herr, hcoins, hget⟩

/-- Claim C2, amended. For every call that reads its key (no entry, or an entry
in ascending denom order, as the method writes it) with a working codec, whose
input has pairwise distinct denoms, whose merge does not overflow and whose
coins to distribute the library accepts (valid denom, integer part within 255
bits): for every coin of the merged set with denom `d` and amount `a ≥ 0` whose
integer part `floor a` is at least the threshold (the boundary included), the
call succeeds, the returned coins hold exactly one coin for `d`, of amount
`floor a`, and the persisted entry holds for `d` exactly `a - floor a`, which
lies in `[0, 1)`. Decimals are scaled by `10^18`, so `floor a` is `a / 10^18` and
one unit is `10^18`. -/
theorem threshold_reached_distributes {B M : Type} (cdc : Codec B M) (hcdc : cdc.RoundTrips)
    (ctx : Context B) (rewardAddress : String) (contractRewards : List DecCoin)
    (leftOverThreshold : Nat) (previous : Option (List DecCoin)) (merged : List DecCoin)
    (hread : readPrevious cdc ctx.store rewardAddress = .ok previous)
    (hprev : ∀ l, previous = some l → denomsAscending l)
    (hinput : (contractRewards.map (fun c => c.Denom)).Nodup)
    (hmerged : mergeRewards previous (SortDecCoins contractRewards) = .ok merged)
    (haccepted : distributable (NewDecFromBigInt leftOverThreshold) merged)
    (c : DecCoin) (hc : c ∈ merged)
    (hnonneg : 0 ≤ c.Amount)
    (hreach : (leftOverThreshold : Int) ≤ c.Amount / precisionReuse) :
    ∃ res entry,
      CreateOrMergeLeftOverRewardEntry cdc ctx rewardAddress contractRewards leftOverThreshold =
        .ok res ∧
      res.err = none ∧
      res.coins.filter (fun x => decide (x.Denom = c.Denom)) =
        [{ Denom := c.Denom, Amount := c.Amount / precisionReuse }] ∧
      GetLeftOverRewardEntry cdc { store := res.store, BlockHeight := ctx.BlockHeight }
          rewardAddress = .ok entry ∧
      entry.ContractRewards.filter (fun x => decide (x.Denom = c.Denom)) =
        [{ Denom := c.Denom,
           Amount := c.Amount - (c.Amount / precisionReuse) * precisionReuse }] ∧
      0 ≤ c.Amount - (c.Amount / precisionReuse) * precisionReuse ∧
      c.Amount - (c.Amount / precisionReuse) * precisionReuse < precisionReuse := by
  obtain ⟨res, hcall, herr, hcoins, hget⟩ := CreateOrMerge_view cdc hcdc ctx rewardAddress
    contractRewards leftOverThreshold previous merged hread hmerged haccepted
  have hdistinct : (merged.map (fun c => c.Denom)).Nodup := by
    rw [mergeRewards_eq_ok hmerged]
    exact nodup_denoms_mergeRewardsExact previous contractRewards hprev hinput
  have hfilter := filter_denom_of_nodup hdistinct hc
  have hT : GTE (TruncateDec c.Amount) (NewDecFromBigInt (leftOverThreshold : Int)) = true :=
    (GTE_threshold_iff c.Amount hnonneg leftOverThreshold).mpr hreach
  have hmod := sub_TruncateDec_eq_emod c.Amount hnonneg
  have hfloor := TruncateDec_eq_floor c.Amount hnonneg
  refine ⟨res, _, hcall, herr, ?_, hget, ?_, ?_, ?_⟩
  · rw [hcoins, distributedCoins_filter, hfilter]
    simp only [distributedCoins, List.filter_cons, hT, if_true, List.filter_nil, List.map_cons,
      List.map_nil]
    rw [integerPart_eq_floor c.Amount hnonneg]
  · rw [remainingRewards_filter, hfilter]
    simp only [remainingRewards, List.map_cons, List.map_nil, hT, if_true]
    rw [hfloor]
  · rw [← hfloor, hmod]
    exact Int.emod_nonneg _ (ne_of_gt precisionReuse_pos)
  · rw [← hfloor, hmod]
    exact Int.emod_lt_of_pos _ precisionReuse_pos

theorem scenario_first_coins :
    distributedCoins (NewDecFromBigInt ((10 : Nat) : Int))
      [{ Denom := "uusd", Amount := 75 * 10 ^ 17 }] = [] := by
  decide

theorem scenario_first_remainder :
    remainingRewards (NewDecFromBigInt ((10 : Nat) : Int))
      [{ Denom := "uusd", Amount := 75 * 10 ^ 17 }] =
      [{ Denom := "uusd", Amount := 75 * 10 ^ 17 }] := by
  decide

theorem scenario_second_merged :
    mergeRewards (some [{ Denom := "uusd", Amount := 75 * 10 ^ 17 }])
      (SortDecCoins [{ Denom := "uusd", Amount := 5 * 10 ^ 18 }]) =
      .ok [{ Denom := "uusd", Amount := 125 * 10 ^ 17 }] := by
  rw [mergeRewards_ok_of_small _ _ (by decide) (by decide)]
  have hs : SortDecCoins [{ Denom := "uusd", Amount := 5 * 10 ^ 18 }] =
      [{ Denom := "uusd", Amount := 5 * 10 ^ 18 }] := rfl
  rw [hs]
  simp only [mergeRewardsExact, safeAddExact, lt_self_iff_false, if_false, if_true]
  norm_num [removeZeroDecCoins]

theorem scenario_second_coins :
    distributedCoins (NewDecFromBigInt ((10 : Nat) : Int))
      [{ Denom := "uusd", Amount := 125 * 10 ^ 17 }] = [{ Denom := "uusd", Amount := 12 }] := by
  decide

theorem scenario_second_remainder :
    remainingRewards (NewDecFromBigInt ((10 : Nat) : Int))
      [{ Denom := "uusd", Amount := 125 * 10 ^ 17 }] =
      [{ Denom := "uusd", Amount := 5 * 10 ^ 17 }] := by
  decide

/-- Claim C4. The concrete threshold scenario: on a store with no entry for the
reward address and with threshold 10 (a working codec), merging `uusd: 7.5`
returns no coin and leaves the stored remainder `uusd: 7.5`; merging `uusd: 5.0`
next returns exactly the coin `uusd: 12` and leaves the stored remainder
`uusd: 0.5`. -/
theorem concrete_threshold_scenario {B M : Type} (cdc : Codec B M) (hcdc : cdc.RoundTrips)
    (ctx : Context B) (rewardAddress : String) (nextHeight : Int)
    (hnone : ctx.store.Get (Key.RewardEntryKey rewardAddress) = none) :
    ∃ first second,
      CreateOrMergeLeftOverRewardEntry cdc ctx rewardAddress
          [{ Denom := "uusd", Amount := 75 * 10 ^ 17 }] 10 = .ok first ∧
      first.err = none ∧
      first.coins = [] ∧
      GetLeftOverRewardEntry cdc { store := first.store, BlockHeight := ctx.BlockHeight }
          rewardAddress =
        .ok { ContractRewards := [{ Denom := "uusd", Amount := 75 * 10 ^ 17 }] } ∧
      CreateOrMergeLeftOverRewardEntry cdc { store := first.store, BlockHeight := nextHeight }
          rewardAddress [{ Denom := "uusd", Amount := 5 * 10 ^ 18 }] 10 = .ok second ∧
      second.err = none ∧
      second.coins = [{ Denom := "uusd", Amount := 12 }] ∧
      GetLeftOverRewardEntry cdc { store := second.store, BlockHeight := nextHeight }
          rewardAddress =
        .ok { ContractRewards := [{ Denom := "uusd", Amount := 5 * 10 ^ 17 }] } := by
  have hread : readPrevious cdc ctx.store rewardAddress = .ok none := by
    simp only [readPrevious, hnone]
  obtain ⟨bz₁, _, hu₁, hcall₁⟩ := CreateOrMerge_ok cdc hcdc ctx rewardAddress
    [{ Denom := "uusd", Amount := 75 * 10 ^ 17 }] 10 none
    [{ Denom := "uusd", Amount := 75 * 10 ^ 17 }] hread rfl
    (by unfold distributable; decide)
  rw [scenario_first_remainder] at hu₁
  rw [scenario_first_coins] at hcall₁
  have hread₂ := readPrevious_Set cdc ctx.store rewardAddress bz₁ _ hu₁
  obtain ⟨second, hcall₂, herr₂, hcoins₂, hget₂⟩ := CreateOrMerge_view cdc hcdc
    { store := ctx.store.Set (Key.RewardEntryKey rewardAddress) bz₁, BlockHeight := nextHeight }
    rewardAddress [{ Denom := "uusd", Amount := 5 * 10 ^ 18 }] 10 _ _ hread₂
    scenario_second_merged (by unfold distributable; decide)
  rw [scenario_second_coins] at hcoins₂
  rw [scenario_second_remainder] at hget₂
  refine ⟨_, second, hcall₁, rfl, rfl, ?_, hcall₂, herr₂, hcoins₂, hget₂⟩
  rw [GetLeftOverRewardEntry_Set, hu₁]

/-! ## Instances of the theorems on the reference codec -/

/-- Instance of claim C2: `uusd: 12.5` against threshold 10 on the empty store. -/
theorem threshold_reached_distributes_witness :
    ∃ res entry,
      CreateOrMergeLeftOverRewardEntry (referenceCodec Nat)
          { store := emptyStore (Blob Nat), BlockHeight := 5 } "reward1"
          [{ Denom := "uusd", Amount := 125 * 10 ^ 17 }] 10 = .ok res ∧
      res.err = none ∧
      res.coins.filter (fun x => decide (x.Denom = "uusd")) =
        [{ Denom := "uusd", Amount := (125 * 10 ^ 17 : Int) / precisionReuse }] ∧
      GetLeftOverRewardEntry (referenceCodec Nat) { store := res.store, BlockHeight := 5 }
          "reward1" = .ok entry ∧
      entry.ContractRewards.filter (fun x => decide (x.Denom = "uusd")) =
        [{ Denom := "uusd",
           Amount := (125 * 10 ^ 17 : Int) -
            ((125 * 10 ^ 17 : Int) / precisionReuse) * precisionReuse }] ∧
      0 ≤ (125 * 10 ^ 17 : Int) - ((125 * 10 ^ 17 : Int) / precisionReuse) * precisionReuse ∧
      (125 * 10 ^ 17 : Int) - ((125 * 10 ^ 17 : Int) / precisionReuse) * precisionReuse <
        precisionReuse :=
  threshold_reached_distributes (referenceCodec Nat) (referenceCodec_roundTrips Nat)
    { store := emptyStore (Blob Nat), BlockHeight := 5 } "reward1"
    [{ Denom := "uusd", Amount := 125 * 10 ^ 17 }] 10 none
    [{ Denom := "uusd", Amount := 125 * 10 ^ 17 }] rfl (fun l hl => by cases hl)
    (by decide) rfl (by unfold distributable; decide)
    { Denom := "uusd", Amount := 125 * 10 ^ 17 } (by decide) (by decide) (by decide)

/-- Instance of claim C4 on the reference codec and the empty store. -/
theorem concrete_threshold_scenario_witness :
    ∃ first second,
      CreateOrMergeLeftOverRewardEntry (referenceCodec Nat)
          { store := emptyStore (Blob Nat), BlockHeight := 5 } "reward1"
          [{ Denom := "uusd", Amount := 75 * 10 ^ 17 }] 10 = .ok first ∧
      first.err = none ∧
      first.coins = [] ∧
      GetLeftOverRewardEntry (referenceCodec Nat) { store := first.store, BlockHeight := 5 }
          "reward1" =
        .ok { ContractRewards := [{ Denom := "uusd", Amount := 75 * 10 ^ 17 }] } ∧
      CreateOrMergeLeftOverRewardEntry (referenceCodec Nat)
          { store := first.store, BlockHeight := 6 }
          "reward1" [{ Denom := "uusd", Amount := 5 * 10 ^ 18 }] 10 = .ok second ∧
      second.err = none ∧
      second.coins = [{ Denom := "uusd", Amount := 12 }] ∧
      GetLeftOverRewardEntry (referenceCodec Nat) { store := second.store, BlockHeight := 6 }
          "reward1" =
        .ok { ContractRewards := [{ Denom := "uusd", Amount := 5 * 10 ^ 17 }] } :=
  concrete_threshold_scenario (referenceCodec Nat) (referenceCodec_roundTrips Nat)
    { store := emptyStore (Blob Nat), BlockHeight := 5 } "reward1" 6 rfl

/-! ## The tracking ledger -/

theorem GetCurrentBlockTrackingInfo_Set {B M : Type} (cdc : Codec B M) (store : KVStore B)
    (height : Int) (bz : B) :
    GetCurrentBlockTrackingInfo cdc
        { store := store.Set Key.CurrentBlockTrackingKey bz, BlockHeight := height } =
      cdc.UnmarshalBlock (some bz) := by
  simp only [GetCurrentBlockTrackingInfo, KVStore.Get_Set_same]

/-- With a working codec `TrackNewBlock` succeeds and writes an encoding of the
record. -/
theorem TrackNewBlock_ok {B M : Type} (cdc : Codec B M) (hcdc : cdc.RoundTrips)
    (ctx : Context B) (block : BlockGasTracking) :
    ∃ bz, cdc.UnmarshalBlock (some bz) = .ok block ∧
      TrackNewBlock cdc ctx block = (ctx.store.Set Key.CurrentBlockTrackingKey bz, none) := by
  obtain ⟨bz, hm, hu⟩ := hcdc.block block
  exact ⟨bz, hu, by simp only [TrackNewBlock, hm]⟩

/-- With a working codec `TrackNewTx` on a stored, decodable block record
succeeds and writes an encoding of the record with the new transaction appended. -/
theorem TrackNewTx_ok {B M : Type} (cdc : Codec B M) (hcdc : cdc.RoundTrips)
    (ctx : Context B) (fee : List DecCoin) (gasLimit : Nat) (bz : B) (block : BlockGasTracking)
    (hget : ctx.store.Get Key.CurrentBlockTrackingKey = some bz)
    (hdec : cdc.UnmarshalBlock (some bz) = .ok block) :
    ∃ bz',
      cdc.UnmarshalBlock (some bz') =
        .ok { TxTrackingInfos := block.TxTrackingInfos ++
                [{ MaxGasAllowed := gasLimit, MaxContractRewards := fee,
                   ContractTrackingInfos := [] }] } ∧
      TrackNewTx cdc ctx fee gasLimit =
        (ctx.store.Set Key.CurrentBlockTrackingKey bz', none) := by
  obtain ⟨bzt, hmt⟩ := hcdc.tx
    { MaxGasAllowed := gasLimit, MaxContractRewards := fee, ContractTrackingInfos := [] }
  obtain ⟨bz', hm, hu⟩ := hcdc.block
    { TxTrackingInfos := block.TxTrackingInfos ++
        [{ MaxGasAllowed := gasLimit, MaxContractRewards := fee, ContractTrackingInfos := [] }] }
  refine ⟨bz', hu, ?_⟩
  simp only [TrackNewTx, hmt, hget, hdec, hm, Option.isNone_some, Bool.false_and]
  rfl

/-- With a working codec `TrackNewTx` without a stored block record at a height
of at most one succeeds and writes an encoding of the record that holds the new
transaction only. -/
theorem TrackNewTx_genesis {B M : Type} (cdc : Codec B M) (hcdc : cdc.RoundTrips)
    (ctx : Context B) (fee : List DecCoin) (gasLimit : Nat)
    (hget : ctx.store.Get Key.CurrentBlockTrackingKey = none) (hheight : ctx.BlockHeight ≤ 1) :
    ∃ bz',
      cdc.UnmarshalBlock (some bz') =
        .ok { TxTrackingInfos :=
                [{ MaxGasAllowed := gasLimit, MaxContractRewards := fee,
                   ContractTrackingInfos := [] }] } ∧
      TrackNewTx cdc ctx fee gasLimit =
        (ctx.store.Set Key.CurrentBlockTrackingKey bz', none) := by
  obtain ⟨bzt, hmt⟩ := hcdc.tx
    { MaxGasAllowed := gasLimit, MaxContractRewards := fee, ContractTrackingInfos := [] }
  obtain ⟨bz', hm, hu⟩ := hcdc.block
    { TxTrackingInfos :=
        [{ MaxGasAllowed := gasLimit, MaxContractRewards := fee, ContractTrackingInfos := [] }] }
  refine ⟨bz', hu, ?_⟩
  have hh : decide (ctx.BlockHeight > 1) = false := by
    simpa using hheight
  simp only [TrackNewTx, hmt, hget, hh, hcdc.nilBlock, hm, Bool.and_false, List.nil_append]
  rfl

/-- Without a stored block record `TrackNewTx` at a height above one returns the
block NotFound error and leaves the store alone, whenever the first encoding
succeeds. -/
theorem TrackNewTx_notFound {B M : Type} (cdc : Codec B M) (hcdc : cdc.RoundTrips)
    (ctx : Context B) (fee : List DecCoin) (gasLimit : Nat)
    (hget : ctx.store.Get Key.CurrentBlockTrackingKey = none) (hheight : 1 < ctx.BlockHeight) :
    TrackNewTx cdc ctx fee gasLimit = (ctx.store, some Error.ErrBlockTrackingDataNotFound) := by
  obtain ⟨bzt, hmt⟩ := hcdc.tx
    { MaxGasAllowed := gasLimit, MaxContractRewards := fee, ContractTrackingInfos := [] }
  have hh : decide (ctx.BlockHeight > 1) = true := by
    simpa using hheight
  simp only [TrackNewTx, hmt, hget, hh, Option.isNone_none, Bool.and_self, if_true]

theorem runTrackNewTx_appends {B M : Type} (cdc : Codec B M) (hcdc : cdc.RoundTrips)
    (calls : List TxCall) :
    ∀ (store : KVStore B) (bz : B) (block : BlockGasTracking),
      store.Get Key.CurrentBlockTrackingKey = some bz →
      cdc.UnmarshalBlock (some bz) = .ok block →
      ∃ bz',
        cdc.UnmarshalBlock (some bz') =
          .ok { TxTrackingInfos := block.TxTrackingInfos ++ calls.map TxCall.record } ∧
        (runTrackNewTx cdc store calls).2 = none ∧
        (runTrackNewTx cdc store calls).1.Get Key.CurrentBlockTrackingKey = some bz' := by
  induction calls with
  | nil =>
    intro store bz block hget hdec
    exact ⟨bz, by simpa using hdec, rfl, hget⟩
  | cons call rest ih =>
    intro store bz block hget hdec
    obtain ⟨bz₁, hu₁, hcall⟩ := TrackNewTx_ok cdc hcdc
      { store := store, BlockHeight := call.BlockHeight } call.fee call.gasLimit bz block hget hdec
    obtain ⟨bz', hu', herr, hget'⟩ := ih (store.Set Key.CurrentBlockTrackingKey bz₁) bz₁ _
      (KVStore.Get_Set_same _ _ _) hu₁
    refine ⟨bz', ?_, ?_, ?_⟩
    · rw [hu']
      simp [TxCall.record]
    · simp only [runTrackNewTx, hcall]; exact herr
    · simp only [runTrackNewTx, hcall]; exact hget'

/-- Claim C5. For every sequence of `N` calls of `TrackNewTx` (any fee caps, gas
limits and block heights) made right after `TrackNewBlock` with a record whose
transaction list is empty, with a working codec: every call succeeds and
`GetCurrentBlockTrackingInfo` then returns a block whose transaction sequence has
length `N` and whose `i`-th element carries the fee caps and gas limit of the
`i`-th call and an empty contract-call list. -/
theorem transactions_tracked_in_call_order {B M : Type} (cdc : Codec B M)
    (hcdc : cdc.RoundTrips) (ctx : Context B) (calls : List TxCall) (height : Int) :
    (TrackNewBlock cdc ctx { TxTrackingInfos := [] }).2 = none ∧
    (runTrackNewTx cdc (TrackNewBlock cdc ctx { TxTrackingInfos := [] }).1 calls).2 = none ∧
    ∃ block,
      GetCurrentBlockTrackingInfo cdc
        { store := (runTrackNewTx cdc (TrackNewBlock cdc ctx { TxTrackingInfos := [] }).1 calls).1
          BlockHeight := height } = .ok block ∧
      block.TxTrackingInfos.length = calls.length ∧
      ∀ i (hi : i < calls.length),
        block.TxTrackingInfos.get? i =
          some { MaxGasAllowed := calls[i].gasLimit, MaxContractRewards := calls[i].fee,
                 ContractTrackingInfos := [] } := by
  obtain ⟨bz, hu, hblock⟩ := TrackNewBlock_ok cdc hcdc ctx { TxTrackingInfos := [] }
  obtain ⟨bz', hu', herr, hget'⟩ := runTrackNewTx_appends cdc hcdc calls
    (ctx.store.Set Key.CurrentBlockTrackingKey bz) bz _ (KVStore.Get_Set_same _ _ _) hu
  rw [hblock]
  refine ⟨rfl, herr, ⟨{ TxTrackingInfos := calls.map TxCall.record }, ?_, ?_, ?_⟩⟩
  · simp only [GetCurrentBlockTrackingInfo, hget']
    simpa using hu'
  · simp
  · intro i hi
    simp [TxCall.record, List.getElem?_eq_getElem hi]

/-- Claim C6. The genesis carve-out of `TrackNewTx`, with a working codec and a
store whose block record, if present, decodes. When no block record is stored,
the call at a height of at most one succeeds and leaves a stored block record
holding exactly the new transaction, and the call at a height above one returns
`ErrBlockTrackingDataNotFound` and leaves the store alone. Altogether the call
fails if and only if the record is absent and the height is above one. -/
theorem genesis_carve_out {B M : Type} (cdc : Codec B M) (hcdc : cdc.RoundTrips)
    (ctx : Context B) (fee : List DecCoin) (gasLimit : Nat) (height : Int)
    (hstored : ∀ bz, ctx.store.Get Key.CurrentBlockTrackingKey = some bz →
      ∃ block, cdc.UnmarshalBlock (some bz) = .ok block) :
    (ctx.store.Get Key.CurrentBlockTrackingKey = none → ctx.BlockHeight ≤ 1 →
      (TrackNewTx cdc ctx fee gasLimit).2 = none ∧
      GetCurrentBlockTrackingInfo cdc
          { store := (TrackNewTx cdc ctx fee gasLimit).1, BlockHeight := height } =
        .ok { TxTrackingInfos :=
                [{ MaxGasAllowed := gasLimit, MaxContractRewards := fee,
                   ContractTrackingInfos := [] }] }) ∧
    (ctx.store.Get Key.CurrentBlockTrackingKey = none → 1 < ctx.BlockHeight →
      TrackNewTx cdc ctx fee gasLimit =
        (ctx.store, some Error.ErrBlockTrackingDataNotFound)) ∧
    ((TrackNewTx cdc ctx fee gasLimit).2 ≠ none ↔
      (ctx.store.Get Key.CurrentBlockTrackingKey = none ∧ 1 < ctx.BlockHeight)) := by
  refine ⟨?_, ?_, ?_⟩
  · intro hnone hheight
    obtain ⟨bz', hu, hcall⟩ := TrackNewTx_genesis cdc hcdc ctx fee gasLimit hnone hheight
    rw [hcall]
    exact ⟨rfl, by rw [GetCurrentBlockTrackingInfo_Set, hu]⟩
  · intro hnone hheight
    exact TrackNewTx_notFound cdc hcdc ctx fee gasLimit hnone hheight
  · constructor
    · intro hfail
      cases hget : ctx.store.Get Key.CurrentBlockTrackingKey with
      | none =>
        refine ⟨rfl, ?_⟩
        by_contra hle
        obtain ⟨bz', _, hcall⟩ := TrackNewTx_genesis cdc hcdc ctx fee gasLimit hget
          (not_lt.mp hle)
        rw [hcall] at hfail
        exact hfail rfl
      | some bz =>
        obtain ⟨block, hdec⟩ := hstored bz hget
        obtain ⟨bz', _, hcall⟩ := TrackNewTx_ok cdc hcdc ctx fee gasLimit bz block hget hdec
        rw [hcall] at hfail
        exact absurd rfl hfail
    · rintro ⟨hnone, hheight⟩
      rw [TrackNewTx_notFound cdc hcdc ctx fee gasLimit hnone hheight]
      simp

/-- Claim C7. When the current block record exists and its transaction list is
empty, `TrackContractGasUsage` returns `ErrTxTrackingDataNotFound` for every
address, gas amount, operation and eligibility flag, leaves the store alone, and
that error differs from `ErrBlockTrackingDataNotFound`. -/
theorem no_transaction_error {B M : Type} (cdc : Codec B M) (ctx : Context B)
    (contractAddress : String) (gasUsed : Nat) (operation : ContractOperation)
    (isEligibleForReward : Bool)
    (hblock : GetCurrentBlockTrackingInfo cdc ctx = .ok { TxTrackingInfos := [] }) :
    TrackContractGasUsage cdc ctx contractAddress gasUsed operation isEligibleForReward =
      some (ctx.store, some Error.ErrTxTrackingDataNotFound) ∧
    Error.ErrTxTrackingDataNotFound ≠ Error.ErrBlockTrackingDataNotFound := by
  refine ⟨?_, by decide⟩
  cases hget : ctx.store.Get Key.CurrentBlockTrackingKey with
  | none => simp only [GetCurrentBlockTrackingInfo, hget] at hblock; cases hblock
  | some bz =>
    simp only [GetCurrentBlockTrackingInfo, hget] at hblock
    simp only [TrackContractGasUsage, hget, hblock, List.length_nil, if_true]

/-- Claim C8. When no current block record is stored, `TrackContractGasUsage`
returns `ErrBlockTrackingDataNotFound` and leaves the store alone at every block
height, also at a height of at most one, where `TrackNewTx` (with a working
codec) succeeds: the genesis carve-out is in `TrackNewTx` only. -/
theorem no_block_error_at_every_height {B M : Type} (cdc : Codec B M)
    (hcdc : cdc.RoundTrips) (ctx : Context B)
    (contractAddress : String) (gasUsed : Nat) (operation : ContractOperation)
    (isEligibleForReward : Bool) (fee : List DecCoin) (gasLimit : Nat)
    (hnone : ctx.store.Get Key.CurrentBlockTrackingKey = none) :
    TrackContractGasUsage cdc ctx contractAddress gasUsed operation isEligibleForReward =
      some (ctx.store, some Error.ErrBlockTrackingDataNotFound) ∧
    (ctx.BlockHeight ≤ 1 → (TrackNewTx cdc ctx fee gasLimit).2 = none) := by
  refine ⟨by simp only [TrackContractGasUsage, hnone], fun hheight => ?_⟩
  obtain ⟨bz', _, hcall⟩ := TrackNewTx_genesis cdc hcdc ctx fee gasLimit hnone hheight
  rw [hcall]

/-- With a working codec `TrackContractGasUsage` on a stored, decodable block
record with a last transaction succeeds and writes an encoding of the record
with the new entry appended to the contract-call list of the last transaction. -/
theorem TrackContractGasUsage_ok {B M : Type} (cdc : Codec B M) (hcdc : cdc.RoundTrips)
    (ctx : Context B) (contractAddress : String) (gasUsed : Nat)
    (operation : ContractOperation) (isEligibleForReward : Bool) (bz : B)
    (txs : List TransactionTracking) (last : TransactionTracking)
    (hget : ctx.store.Get Key.CurrentBlockTrackingKey = some bz)
    (hdec : cdc.UnmarshalBlock (some bz) = .ok { TxTrackingInfos := txs ++ [last] }) :
    ∃ bz',
      cdc.UnmarshalBlock (some bz') =
        .ok { TxTrackingInfos := txs ++
                [{ last with
                   ContractTrackingInfos := last.ContractTrackingInfos ++
                     [{ Address := contractAddress, GasConsumed := gasUsed,
                        Operation := operation,
                        IsEligibleForReward := isEligibleForReward }] }] } ∧
      TrackContractGasUsage cdc ctx contractAddress gasUsed operation isEligibleForReward =
        some (ctx.store.Set Key.CurrentBlockTrackingKey bz', none) := by
  obtain ⟨bz', hm, hu⟩ := hcdc.block
    { TxTrackingInfos := txs ++
        [{ last with
           ContractTrackingInfos := last.ContractTrackingInfos ++
             [{ Address := contractAddress, GasConsumed := gasUsed, Operation := operation,
                IsEligibleForReward := isEligibleForReward }] }] }
  refine ⟨bz', hu, ?_⟩
  have hlen : (txs ++ [last]).length - 1 = txs.length := by simp
  have hne : ¬ (txs ++ [last]).length = 0 := by simp
  have hlast : (txs ++ [last]).get? txs.length = some last := by simp
  have hset : ∀ x, (txs ++ [last]).set txs.length x = txs ++ [x] := by
    intro x
    rw [List.set_append_right _ _ (le_refl _)]
    simp
  simp only [TrackContractGasUsage, hget, hdec, hlen, hne, if_false, hlast, hset, hm]

theorem runTrackContractGasUsage_appends {B M : Type} (cdc : Codec B M)
    (hcdc : cdc.RoundTrips) (calls : List GasCall) :
    ∀ (store : KVStore B) (bz : B) (txs : List TransactionTracking)
      (last : TransactionTracking),
      store.Get Key.CurrentBlockTrackingKey = some bz →
      cdc.UnmarshalBlock (some bz) = .ok { TxTrackingInfos := txs ++ [last] } →
      ∃ store' bz',
        runTrackContractGasUsage cdc store calls = some (store', none) ∧
        store'.Get Key.CurrentBlockTrackingKey = some bz' ∧
        cdc.UnmarshalBlock (some bz') =
          .ok { TxTrackingInfos := txs ++
                  [{ last with
                     ContractTrackingInfos :=
                       last.ContractTrackingInfos ++ calls.map GasCall.record }] } := by
  induction calls with
  | nil =>
    intro store bz txs last hget hdec
    exact ⟨store, bz, rfl, hget, by simpa using hdec⟩
  | cons call rest ih =>
    intro store bz txs last hget hdec
    obtain ⟨bz₁, hu₁, hcall⟩ := TrackContractGasUsage_ok cdc hcdc
      { store := store, BlockHeight := call.BlockHeight } call.contractAddress call.gasUsed
      call.operation call.isEligibleForReward bz txs last hget hdec
    obtain ⟨store', bz', hrun, hget', hu'⟩ := ih (store.Set Key.CurrentBlockTrackingKey bz₁) bz₁
      txs _ (KVStore.Get_Set_same _ _ _) hu₁
    refine ⟨store', bz', ?_, hget', ?_⟩
    · simp only [runTrackContractGasUsage, hcall]; exact hrun
    · rw [hu']
      simp [GasCall.record]

/-- Claim C9. For every stored block record with at least one transaction and
every sequence of `TrackContractGasUsage` calls (a working codec): all calls
succeed, the transactions before the last are as before, and the contract-call
list of the last transaction is its previous list followed by one entry per call,
in call order, with address, gas, operation and eligibility flag as passed; in
particular its length grows by the number of calls, whatever addresses repeat. -/
theorem contract_calls_appended_in_order {B M : Type} (cdc : Codec B M)
    (hcdc : cdc.RoundTrips) (ctx : Context B) (txs : List TransactionTracking)
    (last : TransactionTracking) (calls : List GasCall) (height : Int)
    (hblock : GetCurrentBlockTrackingInfo cdc ctx = .ok { TxTrackingInfos := txs ++ [last] }) :
    ∃ store',
      runTrackContractGasUsage cdc ctx.store calls = some (store', none) ∧
      GetCurrentBlockTrackingInfo cdc { store := store', BlockHeight := height } =
        .ok { TxTrackingInfos := txs ++
                [{ MaxGasAllowed := last.MaxGasAllowed
                   MaxContractRewards := last.MaxContractRewards
                   ContractTrackingInfos :=
                     last.ContractTrackingInfos ++
                       calls.map (fun call =>
                         { Address := call.contractAddress, GasConsumed := call.gasUsed,
                           Operation := call.operation,
                           IsEligibleForReward := call.isEligibleForReward }) }] } ∧
      (last.ContractTrackingInfos ++
          calls.map (fun call =>
            ({ Address := call.contractAddress, GasConsumed := call.gasUsed,
               Operation := call.operation,
               IsEligibleForReward := call.isEligibleForReward } : ContractGasTracking))).length =
        last.ContractTrackingInfos.length + calls.length := by
  cases hget : ctx.store.Get Key.CurrentBlockTrackingKey with
  | none => simp only [GetCurrentBlockTrackingInfo, hget] at hblock; cases hblock
  | some bz =>
    simp only [GetCurrentBlockTrackingInfo, hget] at hblock
    obtain ⟨store', bz', hrun, hget', hu'⟩ := runTrackContractGasUsage_appends cdc hcdc calls
      ctx.store bz txs last hget hblock
    refine ⟨store', hrun, ?_, by simp⟩
    simp only [GetCurrentBlockTrackingInfo, hget']
    exact hu'

/-- Claim C10. Metadata upsert, with a working codec: after
`AddNewContractMetadata` of `m1` and then of `m2` for one address both calls have
succeeded and `GetNewContractMetadata` of the address returns `m2`; and for every
other address that had no metadata before, `GetNewContractMetadata` still fails
with `ErrContractInstanceMetadataNotFound`. -/
theorem metadata_upsert {B M : Type} (cdc : Codec B M) (hcdc : cdc.RoundTrips)
    (ctx : Context B) (address : String) (m1 m2 : M) (height₂ height₃ : Int) :
    (AddNewContractMetadata cdc ctx address m1).2 = none ∧
    (AddNewContractMetadata cdc
      { store := (AddNewContractMetadata cdc ctx address m1).1, BlockHeight := height₂ }
      address m2).2 = none ∧
    GetNewContractMetadata cdc
      { store := (AddNewContractMetadata cdc
          { store := (AddNewContractMetadata cdc ctx address m1).1, BlockHeight := height₂ }
          address m2).1
        BlockHeight := height₃ } address = .ok m2 ∧
    ∀ other, other ≠ address →
      ctx.store.Get (Key.ContractInstanceMetadataKey other) = none →
      GetNewContractMetadata cdc
        { store := (AddNewContractMetadata cdc
            { store := (AddNewContractMetadata cdc ctx address m1).1, BlockHeight := height₂ }
            address m2).1
          BlockHeight := height₃ } other =
        .error Error.ErrContractInstanceMetadataNotFound := by
  obtain ⟨bz₁, hm₁, _⟩ := hcdc.metadata m1
  obtain ⟨bz₂, hm₂, hu₂⟩ := hcdc.metadata m2
  have h1 : AddNewContractMetadata cdc ctx address m1 =
      (ctx.store.Set (Key.ContractInstanceMetadataKey address) bz₁, none) := by
    simp only [AddNewContractMetadata, hm₁]
  rw [h1]
  have h2 : AddNewContractMetadata cdc
      { store := ctx.store.Set (Key.ContractInstanceMetadataKey address) bz₁,
        BlockHeight := height₂ } address m2 =
      ((ctx.store.Set (Key.ContractInstanceMetadataKey address) bz₁).Set
        (Key.ContractInstanceMetadataKey address) bz₂, none) := by
    simp only [AddNewContractMetadata, hm₂]
  rw [h2]
  refine ⟨rfl, rfl, ?_, ?_⟩
  · simp only [GetNewContractMetadata, KVStore.Get_Set_same, hu₂]
  · intro other hne hnone
    have hk : Key.ContractInstanceMetadataKey other ≠ Key.ContractInstanceMetadataKey address := by
      intro h; exact hne (Key.ContractInstanceMetadataKey.inj h)
    simp only [GetNewContractMetadata, KVStore.Get_Set_other _ _ _ _ hk, hnone]

/-- Instance of claim C5: two transactions tracked after a new block. -/
theorem transactions_tracked_in_call_order_witness :
    (TrackNewBlock (referenceCodec Nat) (genesisContext 7) { TxTrackingInfos := [] }).2 = none ∧
    (runTrackNewTx (referenceCodec Nat)
      (TrackNewBlock (referenceCodec Nat) (genesisContext 7) { TxTrackingInfos := [] }).1
      sampleTxCalls).2 = none ∧
    ∃ block,
      GetCurrentBlockTrackingInfo (referenceCodec Nat)
        { store := (runTrackNewTx (referenceCodec Nat)
            (TrackNewBlock (referenceCodec Nat) (genesisContext 7) { TxTrackingInfos := [] }).1
            sampleTxCalls).1
          BlockHeight := 7 } = .ok block ∧
      block.TxTrackingInfos.length = sampleTxCalls.length ∧
      ∀ i (hi : i < sampleTxCalls.length),
        block.TxTrackingInfos.get? i =
          some { MaxGasAllowed := sampleTxCalls[i].gasLimit
                 MaxContractRewards := sampleTxCalls[i].fee
                 ContractTrackingInfos := [] } :=
  transactions_tracked_in_call_order (referenceCodec Nat) (referenceCodec_roundTrips Nat)
    (genesisContext 7) sampleTxCalls 7

/-- Instance of claim C6: no block record is stored, at height one. -/
theorem genesis_carve_out_witness :
    ((genesisContext 1).store.Get Key.CurrentBlockTrackingKey = none →
      (genesisContext 1).BlockHeight ≤ 1 →
      (TrackNewTx (referenceCodec Nat) (genesisContext 1) [] 50000).2 = none ∧
      GetCurrentBlockTrackingInfo (referenceCodec Nat)
          { store := (TrackNewTx (referenceCodec Nat) (genesisContext 1) [] 50000).1
            BlockHeight := 1 } =
        .ok { TxTrackingInfos :=
                [{ MaxGasAllowed := 50000, MaxContractRewards := [],
                   ContractTrackingInfos := [] }] }) ∧
    ((genesisContext 1).store.Get Key.CurrentBlockTrackingKey = none →
      1 < (genesisContext 1).BlockHeight →
      TrackNewTx (referenceCodec Nat) (genesisContext 1) [] 50000 =
        ((genesisContext 1).store, some Error.ErrBlockTrackingDataNotFound)) ∧
    ((TrackNewTx (referenceCodec Nat) (genesisContext 1) [] 50000).2 ≠ none ↔
      ((genesisContext 1).store.Get Key.CurrentBlockTrackingKey = none ∧
        1 < (genesisContext 1).BlockHeight)) :=
  genesis_carve_out (referenceCodec Nat) (referenceCodec_roundTrips Nat) (genesisContext 1) []
    50000 1 (fun _ h => by cases h)

/-- Instance of claim C7: a contract call right after a new, empty block. -/
theorem no_transaction_error_witness :
    TrackContractGasUsage (referenceCodec Nat)
        { store := storeWithBlock { TxTrackingInfos := [] }, BlockHeight := 7 }
        "contract1" 120 ContractOperation.Execute true =
      some (storeWithBlock { TxTrackingInfos := [] }, some Error.ErrTxTrackingDataNotFound) ∧
    Error.ErrTxTrackingDataNotFound ≠ Error.ErrBlockTrackingDataNotFound :=
  no_transaction_error (referenceCodec Nat)
    { store := storeWithBlock { TxTrackingInfos := [] }, BlockHeight := 7 }
    "contract1" 120 ContractOperation.Execute true rfl

/-- Instance of claim C8: a contract call on the empty store at height one. -/
theorem no_block_error_at_every_height_witness :
    TrackContractGasUsage (referenceCodec Nat) (genesisContext 1) "contract1" 120
        ContractOperation.Execute true =
      some ((genesisContext 1).store, some Error.ErrBlockTrackingDataNotFound) ∧
    ((genesisContext 1).BlockHeight ≤ 1 →
      (TrackNewTx (referenceCodec Nat) (genesisContext 1) [] 50000).2 = none) :=
  no_block_error_at_every_height (referenceCodec Nat) (referenceCodec_roundTrips Nat)
    (genesisContext 1) "contract1" 120 ContractOperation.Execute true [] 50000 rfl

/-- Instance of claim C9: two calls to one contract in a block of one transaction. -/
theorem contract_calls_appended_in_order_witness :
    ∃ store',
      runTrackContractGasUsage (referenceCodec Nat)
        (storeWithBlock { TxTrackingInfos := [] ++ [sampleTx] }) sampleGasCalls =
          some (store', none) ∧
      GetCurrentBlockTrackingInfo (referenceCodec Nat) { store := store', BlockHeight := 7 } =
        .ok { TxTrackingInfos := [] ++
                [{ MaxGasAllowed := sampleTx.MaxGasAllowed
                   MaxContractRewards := sampleTx.MaxContractRewards
                   ContractTrackingInfos :=
                     sampleTx.ContractTrackingInfos ++
                       sampleGasCalls.map (fun call =>
                         { Address := call.contractAddress, GasConsumed := call.gasUsed,
                           Operation := call.operation,
                           IsEligibleForReward := call.isEligibleForReward }) }] } ∧
      (sampleTx.ContractTrackingInfos ++
          sampleGasCalls.map (fun call =>
            ({ Address := call.contractAddress, GasConsumed := call.gasUsed,
               Operation := call.operation,
               IsEligibleForReward := call.isEligibleForReward } : ContractGasTracking))).length =
        sampleTx.ContractTrackingInfos.length + sampleGasCalls.length :=
  contract_calls_appended_in_order (referenceCodec Nat) (referenceCodec_roundTrips Nat)
    { store := storeWithBlock { TxTrackingInfos := [] ++ [sampleTx] }, BlockHeight := 7 }
    [] sampleTx sampleGasCalls 7 rfl

/-- Instance of claim C10: metadata 1 and then 2 for one contract. -/
theorem metadata_upsert_witness :
    (AddNewContractMetadata (referenceCodec Nat) (genesisContext 7) "contract1" 1).2 = none ∧
    (AddNewContractMetadata (referenceCodec Nat)
      { store := (AddNewContractMetadata (referenceCodec Nat) (genesisContext 7) "contract1" 1).1
        BlockHeight := 8 }
      "contract1" 2).2 = none ∧
    GetNewContractMetadata (referenceCodec Nat)
      { store := (AddNewContractMetadata (referenceCodec Nat)
          { store :=
              (AddNewContractMetadata (referenceCodec Nat) (genesisContext 7) "contract1" 1).1
            BlockHeight := 8 }
          "contract1" 2).1
        BlockHeight := 9 } "contract1" = .ok 2 ∧
    ∀ other, other ≠ "contract1" →
      (genesisContext 7).store.Get (Key.ContractInstanceMetadataKey other) = none →
      GetNewContractMetadata (referenceCodec Nat)
        { store := (AddNewContractMetadata (referenceCodec Nat)
            { store :=
                (AddNewContractMetadata (referenceCodec Nat) (genesisContext 7) "contract1" 1).1
              BlockHeight := 8 }
            "contract1" 2).1
          BlockHeight := 9 } other =
        .error Error.ErrContractInstanceMetadataNotFound :=
  metadata_upsert (referenceCodec Nat) (referenceCodec_roundTrips Nat) (genesisContext 7)
    "contract1" 1 2 8 9

/-! ## Lookup of the left-over entry -/

theorem mem_SortDecCoins {c : DecCoin} {coins : List DecCoin} :
    c ∈ SortDecCoins coins ↔ c ∈ coins :=
  (List.perm_insertionSort _ coins).mem_iff

theorem sorted_SortDecCoins (coins : List DecCoin) :
    (SortDecCoins coins).Pairwise (fun a b => a.Denom ≤ b.Denom) := by
  haveI : IsTotal DecCoin (fun a b => a.Denom ≤ b.Denom) := ⟨fun a b => le_total _ _⟩
  haveI : IsTrans DecCoin (fun a b => a.Denom ≤ b.Denom) := ⟨fun _ _ _ h₁ h₂ => le_trans h₁ h₂⟩
  exact List.sorted_insertionSort (fun a b : DecCoin => a.Denom ≤ b.Denom) coins

theorem distributable_SortDecCoins (L : Dec) (coins : List DecCoin) :
    distributable L (SortDecCoins coins) ↔ distributable L coins := by
  unfold distributable
  exact ⟨fun h r hr => h r (mem_SortDecCoins.mpr hr), fun h r hr => h r (mem_SortDecCoins.mp hr)⟩

theorem distributable_of_all_below (L : Dec) (rewards : List DecCoin)
    (h : ∀ c ∈ rewards, ¬ GTE (TruncateDec c.Amount) L = true) :
    distributable L rewards :=
  fun r hr hT => absurd hT (h r hr)

theorem distributedCoins_of_all_below (L : Dec) (rewards : List DecCoin)
    (h : ∀ c ∈ rewards, ¬ GTE (TruncateDec c.Amount) L = true) :
    distributedCoins L rewards = [] := by
  unfold distributedCoins
  rw [List.filter_eq_nil_iff.mpr h]
  rfl

theorem remainingRewards_of_all_below (L : Dec) (rewards : List DecCoin)
    (h : ∀ c ∈ rewards, ¬ GTE (TruncateDec c.Amount) L = true) :
    remainingRewards L rewards = rewards := by
  unfold remainingRewards
  conv_rhs => rw [← List.map_id rewards]
  apply List.map_congr_left
  intro c hc
  simp [h c hc]

/-- Claim C11. `GetLeftOverRewardEntry` returns `ErrRewardEntryNotFound` for a
reward address whose key is absent (never merged). With a working codec, after
one successful `CreateOrMergeLeftOverRewardEntry` for that address (one that
returns rather than aborts; it returns whenever the library accepts every coin
to distribute), the call has returned no error and `GetLeftOverRewardEntry`
succeeds and returns exactly the entry whose encoding the merge wrote under the
key, while an address other than the merged one whose key is absent still gets
`ErrRewardEntryNotFound`. When every input amount stays below the threshold the
call does succeed, for any denoms, no coin is returned and the entry read back
is the input put in denom order: a rearrangement of the input, ascending in
denom, which for pairwise distinct denoms is `SortDecCoins` of the input. -/
theorem lookup_after_first_merge {B M : Type} (cdc : Codec B M) (hcdc : cdc.RoundTrips)
    (ctx : Context B) (rewardAddress : String) (contractRewards : List DecCoin)
    (leftOverThreshold : Nat) (height : Int)
    (hnone : ctx.store.Get (Key.RewardEntryKey rewardAddress) = none) :
    GetLeftOverRewardEntry cdc ctx rewardAddress = .error Error.ErrRewardEntryNotFound ∧
    (distributable (NewDecFromBigInt leftOverThreshold) contractRewards →
      ∃ res, CreateOrMergeLeftOverRewardEntry cdc ctx rewardAddress contractRewards
        leftOverThreshold = .ok res) ∧
    (∀ res,
      CreateOrMergeLeftOverRewardEntry cdc ctx rewardAddress contractRewards leftOverThreshold =
        .ok res →
      res.err = none ∧
      ∃ entry bz,
        cdc.MarshalEntry entry = .ok bz ∧
        res.store.Get (Key.RewardEntryKey rewardAddress) = some bz ∧
        GetLeftOverRewardEntry cdc { store := res.store, BlockHeight := height } rewardAddress =
          .ok entry ∧
        ∀ other, other ≠ rewardAddress →
          ctx.store.Get (Key.RewardEntryKey other) = none →
          GetLeftOverRewardEntry cdc { store := res.store, BlockHeight := height } other =
            .error Error.ErrRewardEntryNotFound) ∧
    ((∀ c ∈ contractRewards,
        0 ≤ c.Amount ∧ c.Amount / precisionReuse < (leftOverThreshold : Int)) →
      ∃ res entry,
        CreateOrMergeLeftOverRewardEntry cdc ctx rewardAddress contractRewards
          leftOverThreshold = .ok res ∧
        res.err = none ∧
        res.coins = [] ∧
        GetLeftOverRewardEntry cdc { store := res.store, BlockHeight := height } rewardAddress =
          .ok entry ∧
        entry.ContractRewards.Perm contractRewards ∧
        entry.ContractRewards.Pairwise (fun a b => a.Denom ≤ b.Denom) ∧
        ((contractRewards.map (fun c => c.Denom)).Nodup →
          entry.ContractRewards = SortDecCoins contractRewards)) := by
  have hread : readPrevious cdc ctx.store rewardAddress = .ok none := by
    simp only [readPrevious, hnone]
  have hmerged : mergeRewards none (SortDecCoins contractRewards) =
      .ok (SortDecCoins contractRewards) := rfl
  refine ⟨by simp only [GetLeftOverRewardEntry, hnone], ?_, ?_, ?_⟩
  · intro hd
    obtain ⟨bz, _, _, hcall⟩ := CreateOrMerge_ok cdc hcdc ctx rewardAddress contractRewards
      leftOverThreshold none _ hread hmerged
      ((distributable_SortDecCoins _ _).mpr hd)
    exact ⟨_, hcall⟩
  · intro res hcall
    obtain ⟨merged, bz, _, _, hm, hu, hres⟩ := CreateOrMerge_ok_inv cdc hcdc ctx
      rewardAddress contractRewards leftOverThreshold none res hread hcall
    subst hres
    refine ⟨rfl, _, bz, hm, KVStore.Get_Set_same _ _ _, ?_, ?_⟩
    · rw [GetLeftOverRewardEntry_Set, hu]
    · intro other hne hother
      have hk : Key.RewardEntryKey other ≠ Key.RewardEntryKey rewardAddress := by
        intro h; exact hne (Key.RewardEntryKey.inj h)
      simp only [GetLeftOverRewardEntry, KVStore.Get_Set_other _ _ _ _ hk, hother]
  · intro hbelow
    have hall : ∀ c ∈ SortDecCoins contractRewards,
        ¬ GTE (TruncateDec c.Amount) (NewDecFromBigInt (leftOverThreshold : Int)) = true := by
      intro c hc
      have hc' : c ∈ contractRewards := mem_SortDecCoins.mp hc
      obtain ⟨hnn, hlt⟩ := hbelow c hc'
      exact fun h => absurd ((GTE_threshold_iff c.Amount hnn leftOverThreshold).mp h)
        (not_le.mpr hlt)
    obtain ⟨bz, _, hu, hcall⟩ := CreateOrMerge_ok cdc hcdc ctx rewardAddress contractRewards
      leftOverThreshold none _ hread hmerged (distributable_of_all_below _ _ hall)
    rw [distributedCoins_of_all_below _ _ hall] at hcall
    rw [remainingRewards_of_all_below _ _ hall] at hu
    refine ⟨_, { ContractRewards := SortDecCoins contractRewards }, hcall, rfl, rfl, ?_,
      List.perm_insertionSort _ contractRewards, sorted_SortDecCoins contractRewards,
      fun _ => rfl⟩
    rw [GetLeftOverRewardEntry_Set, hu]

/-- Instance of claim C11: `uusd: 7.5` against threshold 10 on the empty store. -/
theorem lookup_after_first_merge_witness :
    GetLeftOverRewardEntry (referenceCodec Nat) (genesisContext 5) "reward1" =
      .error Error.ErrRewardEntryNotFound ∧
    (distributable (NewDecFromBigInt ((10 : Nat) : Int))
        [{ Denom := "uusd", Amount := 75 * 10 ^ 17 }] →
      ∃ res, CreateOrMergeLeftOverRewardEntry (referenceCodec Nat) (genesisContext 5) "reward1"
        [{ Denom := "uusd", Amount := 75 * 10 ^ 17 }] 10 = .ok res) ∧
    (∀ res,
      CreateOrMergeLeftOverRewardEntry (referenceCodec Nat) (genesisContext 5) "reward1"
          [{ Denom := "uusd", Amount := 75 * 10 ^ 17 }] 10 = .ok res →
      res.err = none ∧
      ∃ entry bz,
        (referenceCodec Nat).MarshalEntry entry = .ok bz ∧
        res.store.Get (Key.RewardEntryKey "reward1") = some bz ∧
        GetLeftOverRewardEntry (referenceCodec Nat) { store := res.store, BlockHeight := 6 }
            "reward1" = .ok entry ∧
        ∀ other, other ≠ "reward1" →
          (genesisContext 5).store.Get (Key.RewardEntryKey other) = none →
          GetLeftOverRewardEntry (referenceCodec Nat) { store := res.store, BlockHeight := 6 }
              other = .error Error.ErrRewardEntryNotFound) ∧
    ((∀ c ∈ [({ Denom := "uusd", Amount := 75 * 10 ^ 17 } : DecCoin)],
        0 ≤ c.Amount ∧ c.Amount / precisionReuse < ((10 : Nat) : Int)) →
      ∃ res entry,
        CreateOrMergeLeftOverRewardEntry (referenceCodec Nat) (genesisContext 5) "reward1"
            [{ Denom := "uusd", Amount := 75 * 10 ^ 17 }] 10 = .ok res ∧
        res.err = none ∧
        res.coins = [] ∧
        GetLeftOverRewardEntry (referenceCodec Nat) { store := res.store, BlockHeight := 6 }
            "reward1" = .ok entry ∧
        entry.ContractRewards.Perm [{ Denom := "uusd", Amount := 75 * 10 ^ 17 }] ∧
        entry.ContractRewards.Pairwise (fun a b => a.Denom ≤ b.Denom) ∧
        ((List.map (fun c : DecCoin => c.Denom)
            [{ Denom := "uusd", Amount := 75 * 10 ^ 17 }]).Nodup →
          entry.ContractRewards = SortDecCoins [{ Denom := "uusd", Amount := 75 * 10 ^ 17 }])) :=
  lookup_after_first_merge (referenceCodec Nat) (referenceCodec_roundTrips Nat)
    (genesisContext 5) "reward1" [{ Denom := "uusd", Amount := 75 * 10 ^ 17 }] 10 6 rfl

/-- Claim C12. `TrackNewBlock` overwrites unconditionally: for every prior store
(no block record, or any bytes under the key) and every record `r`, with a
working codec the call succeeds and `GetCurrentBlockTrackingInfo` then returns
exactly `r`, whatever was stored before; every other key is left as it was. -/
theorem new_block_overwrites {B M : Type} (cdc : Codec B M) (hcdc : cdc.RoundTrips)
    (ctx : Context B) (r : BlockGasTracking) (height : Int) :
    (TrackNewBlock cdc ctx r).2 = none ∧
    GetCurrentBlockTrackingInfo cdc
      { store := (TrackNewBlock cdc ctx r).1, BlockHeight := height } = .ok r ∧
    ∀ k, k ≠ Key.CurrentBlockTrackingKey →
      (TrackNewBlock cdc ctx r).1.Get k = ctx.store.Get k := by
  obtain ⟨bz, hu, hcall⟩ := TrackNewBlock_ok cdc hcdc ctx r
  rw [hcall]
  refine ⟨rfl, ?_, fun k hk => KVStore.Get_Set_other _ _ _ _ hk⟩
  rw [GetCurrentBlockTrackingInfo_Set, hu]

/-- Instance of claim C12: a block of two transactions is replaced by an empty
block. -/
theorem new_block_overwrites_witness :
    (TrackNewBlock (referenceCodec Nat)
      { store := storeWithBlock { TxTrackingInfos := [sampleTx, sampleTx] }, BlockHeight := 8 }
      { TxTrackingInfos := [] }).2 = none ∧
    GetCurrentBlockTrackingInfo (referenceCodec Nat)
      { store := (TrackNewBlock (referenceCodec Nat)
          { store := storeWithBlock { TxTrackingInfos := [sampleTx, sampleTx] },
            BlockHeight := 8 }
          { TxTrackingInfos := [] }).1
        BlockHeight := 8 } = .ok { TxTrackingInfos := [] } ∧
    ∀ k, k ≠ Key.CurrentBlockTrackingKey →
      (TrackNewBlock (referenceCodec Nat)
        { store := storeWithBlock { TxTrackingInfos := [sampleTx, sampleTx] }, BlockHeight := 8 }
        { TxTrackingInfos := [] }).1.Get k =
        (storeWithBlock { TxTrackingInfos := [sampleTx, sampleTx] }).Get k :=
  new_block_overwrites (referenceCodec Nat) (referenceCodec_roundTrips Nat)
    { store := storeWithBlock { TxTrackingInfos := [sampleTx, sampleTx] }, BlockHeight := 8 }
    { TxTrackingInfos := [] } 8

/-! ## Entries written by the method -/

theorem remainingRewards_denoms (L : Dec) (rewards : List DecCoin) :
    (remainingRewards L rewards).map (fun c => c.Denom) = rewards.map (fun c => c.Denom) := by
  unfold remainingRewards
  rw [List.map_map]
  apply List.map_congr_left
  intro c _
  by_cases hT : GTE (TruncateDec c.Amount) L = true <;> simp [hT]

theorem denomsAscending_iff_map (coins : List DecCoin) :
    denomsAscending coins ↔ (coins.map (fun c => c.Denom)).Pairwise (fun a b => a < b) := by
  unfold denomsAscending
  rw [List.pairwise_map]

theorem denomsAscending_remainingRewards (L : Dec) {rewards : List DecCoin}
    (h : denomsAscending rewards) : denomsAscending (remainingRewards L rewards) := by
  rw [denomsAscending_iff_map, remainingRewards_denoms, ← denomsAscending_iff_map]
  exact h

theorem nonneg_removeZeroDecCoins {coins : List DecCoin} (h : ∀ c ∈ coins, 0 ≤ c.Amount) :
    ∀ c ∈ removeZeroDecCoins coins, 0 ≤ c.Amount :=
  fun c hc => h c (denom_mem_removeZeroDecCoins hc)

theorem nonneg_optional_append (keep : Prop) [Decidable keep] (x : DecCoin)
    (rest : List DecCoin) (hx : 0 ≤ x.Amount) (hrest : ∀ c ∈ rest, 0 ≤ c.Amount) :
    ∀ c ∈ (if keep then [x] else []) ++ rest, 0 ≤ c.Amount := by
  intro c hc
  rcases List.mem_append.mp hc with h | h
  · by_cases hk : keep
    · simp only [hk, if_true, List.mem_singleton] at h
      rw [h]; exact hx
    · simp only [hk, if_false] at h
      cases h
  · exact hrest c h

/-- Adding two coin sets of non-negative amounts gives non-negative amounts. -/
theorem nonneg_safeAddExact (coinsA coinsB : List DecCoin) :
    (∀ c ∈ coinsA, 0 ≤ c.Amount) → (∀ c ∈ coinsB, 0 ≤ c.Amount) →
      ∀ c ∈ safeAddExact coinsA coinsB, 0 ≤ c.Amount := by
  induction coinsA, coinsB using safeAddExact.induct with
  | case1 coinsB =>
    intro _ hB
    rw [safeAddExact]
    exact nonneg_removeZeroDecCoins hB
  | case2 coinA restA =>
    intro hA _
    rw [safeAddExact]
    exact nonneg_removeZeroDecCoins hA
  | case3 coinA restA coinB restB hlt ih =>
    intro hA hB
    rw [safeAddExact, if_pos hlt]
    exact nonneg_optional_append _ coinA _ (hA coinA (List.mem_cons_self _ _))
      (ih (fun c hc => hA c (List.mem_cons_of_mem _ hc)) hB)
  | case4 coinA restA coinB restB hlt heq ih =>
    intro hA hB
    rw [safeAddExact, if_neg hlt, if_pos heq]
    exact nonneg_optional_append _ _ _
      (add_nonneg (hA coinA (List.mem_cons_self _ _)) (hB coinB (List.mem_cons_self _ _)))
      (ih (fun c hc => hA c (List.mem_cons_of_mem _ hc))
        (fun c hc => hB c (List.mem_cons_of_mem _ hc)))
  | case5 coinA restA coinB restB hlt hne ih =>
    intro hA hB
    rw [safeAddExact, if_neg hlt, if_neg hne]
    exact nonneg_optional_append _ coinB _ (hB coinB (List.mem_cons_self _ _))
      (ih hA (fun c hc => hB c (List.mem_cons_of_mem _ hc)))

theorem nonneg_mergeRewardsExact (previous : Option (List DecCoin)) (contractRewards : List DecCoin)
    (hprev : ∀ l, previous = some l → ∀ c ∈ l, 0 ≤ c.Amount)
    (hinput : ∀ c ∈ contractRewards, 0 ≤ c.Amount) :
    ∀ c ∈ mergeRewardsExact previous (SortDecCoins contractRewards), 0 ≤ c.Amount := by
  have hsorted : ∀ c ∈ SortDecCoins contractRewards, 0 ≤ c.Amount :=
    fun c hc => hinput c (mem_SortDecCoins.mp hc)
  cases previous with
  | none => exact hsorted
  | some prev => exact nonneg_safeAddExact prev _ (hprev prev rfl) hsorted

theorem mem_remainingRewards {L : Dec} {rewards : List DecCoin} {r : DecCoin}
    (h : r ∈ remainingRewards L rewards) :
    ∃ c ∈ rewards, r.Denom = c.Denom ∧
      ((GTE (TruncateDec c.Amount) L = true ∧ r.Amount = c.Amount - TruncateDec c.Amount) ∨
       (¬ GTE (TruncateDec c.Amount) L = true ∧ r = c)) := by
  unfold remainingRewards at h
  obtain ⟨c, hc, hrc⟩ := List.mem_map.mp h
  refine ⟨c, hc, ?_⟩
  by_cases hT : GTE (TruncateDec c.Amount) L = true
  · rw [if_pos hT] at hrc
    rw [← hrc]
    exact ⟨rfl, Or.inl ⟨hT, rfl⟩⟩
  · rw [if_neg hT] at hrc
    rw [← hrc]
    exact ⟨rfl, Or.inr ⟨hT, rfl⟩⟩

theorem nonneg_remainingRewards (L : Dec) {rewards : List DecCoin}
    (h : ∀ c ∈ rewards, 0 ≤ c.Amount) :
    ∀ r ∈ remainingRewards L rewards, 0 ≤ r.Amount := by
  intro r hr
  obtain ⟨c, hc, _, hcase⟩ := mem_remainingRewards hr
  rcases hcase with ⟨_, hamt⟩ | ⟨_, hrc⟩
  · rw [hamt, sub_TruncateDec_eq_emod c.Amount (h c hc)]
    exact Int.emod_nonneg _ (ne_of_gt precisionReuse_pos)
  · rw [hrc]; exact h c hc

theorem readPrevious_Set_other {B M : Type} (cdc : Codec B M) (store : KVStore B)
    (rewardAddress other : String) (bz : B) (h : other ≠ rewardAddress) :
    readPrevious cdc (store.Set (Key.RewardEntryKey rewardAddress) bz) other =
      readPrevious cdc store other := by
  have hk : Key.RewardEntryKey other ≠ Key.RewardEntryKey rewardAddress := by
    intro he; exact h (Key.RewardEntryKey.inj he)
  simp only [readPrevious, KVStore.Get_Set_other _ _ _ _ hk]

/-- In a reachable store, with a working codec, every reward address reads as
no entry or as an entry in ascending denom order with non-negative amounts. -/
theorem Reachable.stored_ascending {B M : Type} {cdc : Codec B M} (hcdc : cdc.RoundTrips)
    {store : KVStore B} (h : Reachable cdc store) :
    ∀ rewardAddress, ∃ previous,
      readPrevious cdc store rewardAddress = .ok previous ∧
      ∀ l, previous = some l → denomsAscending l ∧ ∀ c ∈ l, 0 ≤ c.Amount := by
  induction h with
  | empty =>
    intro rewardAddress
    exact ⟨none, rfl, fun l hl => by cases hl⟩
  | merge store height addr input T res _ hnodup hnonneg hcall herr ih =>
    intro rewardAddress
    obtain ⟨prev, hread, hprev⟩ := ih addr
    obtain ⟨merged, bz, hmerged, _, _, hu, hres⟩ := CreateOrMerge_ok_inv cdc hcdc
      { store := store, BlockHeight := height } addr input T prev res hread hcall
    have hm := mergeRewards_eq_ok hmerged
    subst hm
    subst hres
    by_cases hsame : rewardAddress = addr
    · subst hsame
      refine ⟨_, readPrevious_Set cdc store rewardAddress bz _ hu, ?_⟩
      intro l hl
      cases hl
      exact ⟨denomsAscending_remainingRewards _
          (denomsAscending_mergeRewardsExact prev input (fun l hl => (hprev l hl).1) hnodup),
        nonneg_remainingRewards _
          (nonneg_mergeRewardsExact prev input (fun l hl => (hprev l hl).2) hnonneg)⟩
    · show ∃ previous, readPrevious cdc (store.Set (Key.RewardEntryKey addr) bz)
          rewardAddress = .ok previous ∧ _
      rw [readPrevious_Set_other cdc store addr rewardAddress bz hsame]
      exact ih rewardAddress

/-! ## Conservation: when the sequence of merges succeeds -/

theorem amountOf_nonneg (d : String) {l : List DecCoin} (h : ∀ c ∈ l, 0 ≤ c.Amount) :
    0 ≤ amountOf d l := by
  unfold amountOf
  apply List.sum_nonneg
  intro x hx
  obtain ⟨c, hc, rfl⟩ := List.mem_map.mp hx
  exact h c (List.mem_of_mem_filter hc)

theorem amount_le_amountOf {l : List DecCoin} (h : ∀ c ∈ l, 0 ≤ c.Amount) {c : DecCoin}
    (hc : c ∈ l) : c.Amount ≤ amountOf c.Denom l := by
  unfold amountOf
  apply List.single_le_sum
  · intro x hx
    obtain ⟨c', hc', rfl⟩ := List.mem_map.mp hx
    exact h c' (List.mem_of_mem_filter hc')
  · exact List.mem_map.mpr ⟨c, List.mem_filter.mpr ⟨hc, by simp⟩, rfl⟩

theorem coinAmountOf_distributedCoins_nonneg (L : Dec) (d : String) {rewards : List DecCoin}
    (h : ∀ c ∈ rewards, 0 ≤ c.Amount) : 0 ≤ coinAmountOf d (distributedCoins L rewards) := by
  unfold coinAmountOf
  apply List.sum_nonneg
  intro x hx
  obtain ⟨c, hc, rfl⟩ := List.mem_map.mp hx
  have hc' := List.mem_of_mem_filter hc
  unfold distributedCoins at hc'
  obtain ⟨r, hr, rfl⟩ := List.mem_map.mp hc'
  have hr' := h r (List.mem_of_mem_filter hr)
  show 0 ≤ integerPart r.Amount
  rw [integerPart_eq_floor r.Amount hr']
  exact Int.ediv_nonneg hr' (le_of_lt precisionReuse_pos)

theorem amountOf_remainingRewards_le (L : Dec) (d : String) {rewards : List DecCoin}
    (h : ∀ c ∈ rewards, 0 ≤ c.Amount) :
    amountOf d (remainingRewards L rewards) ≤ amountOf d rewards := by
  have h1 := threshold_conserves L d rewards
  have h2 := mul_nonneg (coinAmountOf_distributedCoins_nonneg L d h)
    (le_of_lt precisionReuse_pos)
  linarith

theorem valid_mergeRewardsExact (previous : Option (List DecCoin))
    (contractRewards : List DecCoin)
    (hprev : ∀ l, previous = some l → ∀ c ∈ l, ValidateDenom c.Denom = true)
    (hinput : ∀ c ∈ contractRewards, ValidateDenom c.Denom = true) :
    ∀ c ∈ mergeRewardsExact previous (SortDecCoins contractRewards),
      ValidateDenom c.Denom = true := by
  intro c hc
  cases previous with
  | none => exact hinput c (mem_SortDecCoins.mp hc)
  | some prev =>
    obtain ⟨x, hx, hxd⟩ := denom_mem_safeAddExact prev (SortDecCoins contractRewards) c hc
    rw [← hxd]
    rcases List.mem_append.mp hx with hx | hx
    · exact hprev prev rfl x hx
    · exact hinput x (mem_SortDecCoins.mp hx)

theorem valid_remainingRewards (L : Dec) {rewards : List DecCoin}
    (h : ∀ c ∈ rewards, ValidateDenom c.Denom = true) :
    ∀ r ∈ remainingRewards L rewards, ValidateDenom r.Denom = true := by
  intro r hr
  obtain ⟨c, hc, hd, _⟩ := mem_remainingRewards hr
  rw [hd]
  exact h c hc

theorem precisionReuse_le : (2 ^ maxBitLen : Int) * precisionReuse ≤ (decLimit : Int) := by
  have h : precisionReuse ≤ (2 : Int) ^ DecimalPrecisionBits := by
    unfold precisionReuse DecimalPrecisionBits
    norm_num
  unfold decLimit
  push_cast
  exact mul_le_mul_of_nonneg_left h (by positivity)

/-- The library accepts the coins of a set whose denoms are valid and whose
amounts are non-negative and below `2^255` whole units. -/
theorem distributable_of_bounded (L : Dec) {rewards : List DecCoin}
    (h : ∀ c ∈ rewards, ValidateDenom c.Denom = true ∧ 0 ≤ c.Amount ∧
      c.Amount < (2 ^ maxBitLen : Int) * precisionReuse) :
    distributable L rewards := by
  intro r hr _
  obtain ⟨hv, hnn, hlt⟩ := h r hr
  have hfloor := integerPart_eq_floor r.Amount hnn
  have h0 : 0 ≤ integerPart r.Amount := by
    rw [hfloor]; exact Int.ediv_nonneg hnn (le_of_lt precisionReuse_pos)
  have h1 : integerPart r.Amount < (2 ^ maxBitLen : Int) := by
    rw [hfloor]; exact Int.ediv_lt_of_lt_mul precisionReuse_pos hlt
  refine ⟨?_, hv, h0⟩
  have h2 : ((integerPart r.Amount).natAbs : Int) < ((2 ^ maxBitLen : Nat) : Int) := by
    rw [Int.natAbs_of_nonneg h0]; push_cast; exact h1
  exact_mod_cast h2

/-- A merge of non-negative amounts whose per-denom totals stay below `2^255`
whole units neither overflows nor builds a coin the library rejects, given valid
denoms. -/
theorem merge_accepted_of_bounded (L : Dec) (previous : Option (List DecCoin))
    (contractRewards : List DecCoin)
    (hprev : ∀ c ∈ previous.getD [], ValidateDenom c.Denom = true ∧ 0 ≤ c.Amount)
    (hinput : ∀ c ∈ contractRewards, ValidateDenom c.Denom = true ∧ 0 ≤ c.Amount)
    (hbound : ∀ d, amountOf d (previous.getD []) + amountOf d contractRewards <
      (2 ^ maxBitLen : Int) * precisionReuse) :
    mergeRewards previous (SortDecCoins contractRewards) =
        .ok (mergeRewardsExact previous (SortDecCoins contractRewards)) ∧
      distributable L (mergeRewardsExact previous (SortDecCoins contractRewards)) ∧
      (∀ c ∈ mergeRewardsExact previous (SortDecCoins contractRewards),
        ValidateDenom c.Denom = true ∧ 0 ≤ c.Amount) := by
  have hprev' : ∀ l, previous = some l → ∀ c ∈ l, ValidateDenom c.Denom = true ∧ 0 ≤ c.Amount := by
    intro l hl
    subst hl
    exact hprev
  have hnn : ∀ c ∈ mergeRewardsExact previous (SortDecCoins contractRewards), 0 ≤ c.Amount :=
    nonneg_mergeRewardsExact previous contractRewards (fun l hl c hc => (hprev' l hl c hc).2)
      (fun c hc => (hinput c hc).2)
  have hv := valid_mergeRewardsExact previous contractRewards
    (fun l hl c hc => (hprev' l hl c hc).1) (fun c hc => (hinput c hc).1)
  refine ⟨?_, ?_, fun c hc => ⟨hv c hc, hnn c hc⟩⟩
  · apply mergeRewards_ok_of_fits
    intro l hl a ha b hb hab
    subst hl
    have ha1 : a.Amount ≤ amountOf a.Denom l := amount_le_amountOf (fun c hc => (hprev c hc).2) ha
    have hb0 : ∀ c ∈ SortDecCoins contractRewards, 0 ≤ c.Amount :=
      fun c hc => (hinput c (mem_SortDecCoins.mp hc)).2
    have hb1 : b.Amount ≤ amountOf b.Denom (SortDecCoins contractRewards) :=
      amount_le_amountOf hb0 hb
    rw [amountOf_SortDecCoins, ← hab] at hb1
    have h1 := hbound a.Denom
    simp only [Option.getD_some] at h1
    have h2 := precisionReuse_le
    have ha0 := (hprev a ha).2
    have hb0' := hb0 b hb
    have h3 : ((a.Amount + b.Amount).natAbs : Int) < ((decLimit : Nat) : Int) := by
      have hab0 : (0 : Int) ≤ a.Amount + b.Amount := add_nonneg ha0 hb0'
      rw [Int.natAbs_of_nonneg hab0]
      linarith
    exact_mod_cast h3
  · apply distributable_of_bounded
    intro c hc
    refine ⟨hv c hc, hnn c hc, ?_⟩
    have h1 := amount_le_amountOf hnn hc
    rw [amountOf_mergeRewardsExact, amountOf_SortDecCoins] at h1
    exact lt_of_le_of_lt h1 (hbound c.Denom)

theorem runMerges_succeeds {B M : Type} (cdc : Codec B M) (hcdc : cdc.RoundTrips)
    (rewardAddress : String) (calls : List MergeCall) :
    ∀ (store : KVStore B) (previous : Option (List DecCoin)),
      readPrevious cdc store rewardAddress = .ok previous →
      (∀ c ∈ previous.getD [], ValidateDenom c.Denom = true ∧ 0 ≤ c.Amount) →
      (∀ call ∈ calls, ∀ c ∈ call.contractRewards,
        ValidateDenom c.Denom = true ∧ 0 ≤ c.Amount) →
      (∀ d, amountOf d (previous.getD []) +
          (calls.map (fun c => amountOf d c.contractRewards)).sum <
        (2 ^ maxBitLen : Int) * precisionReuse) →
      ∃ store' coins, runMerges cdc rewardAddress store calls = some (store', coins) := by
  induction calls with
  | nil =>
    intro store previous _ _ _ _
    exact ⟨store, [], rfl⟩
  | cons call rest ih =>
    intro store previous hread hprev hcalls hbound
    have hin := hcalls call (List.mem_cons_self _ _)
    have hrest0 : ∀ d, 0 ≤ (rest.map (fun c => amountOf d c.contractRewards)).sum := by
      intro d
      apply List.sum_nonneg
      intro x hx
      obtain ⟨c, hc, rfl⟩ := List.mem_map.mp hx
      exact amountOf_nonneg d (fun y hy => (hcalls c (List.mem_cons_of_mem _ hc) y hy).2)
    have hb : ∀ d, amountOf d (previous.getD []) + amountOf d call.contractRewards +
        (rest.map (fun c => amountOf d c.contractRewards)).sum <
        (2 ^ maxBitLen : Int) * precisionReuse := by
      intro d
      have := hbound d
      rw [List.map_cons, List.sum_cons] at this
      linarith
    obtain ⟨hmerged, hd, hvn⟩ := merge_accepted_of_bounded
      (NewDecFromBigInt call.leftOverThreshold) previous call.contractRewards hprev hin
      (fun d => by have h1 := hb d; have h2 := hrest0 d; linarith)
    obtain ⟨bz, _, hu, hcall⟩ := CreateOrMerge_ok cdc hcdc
      { store := store, BlockHeight := call.BlockHeight } rewardAddress call.contractRewards
      call.leftOverThreshold previous _ hread hmerged hd
    obtain ⟨store', coins, hrun⟩ := ih _ _ (readPrevious_Set cdc store rewardAddress bz _ hu)
      (by
        intro c hc
        simp only [Option.getD_some] at hc
        exact ⟨valid_remainingRewards _ (fun x hx => (hvn x hx).1) c hc,
          nonneg_remainingRewards _ (fun x hx => (hvn x hx).2) c hc⟩)
      (fun c hc => hcalls c (List.mem_cons_of_mem _ hc))
      (by
        intro d
        simp only [Option.getD_some]
        have h1 := amountOf_remainingRewards_le (NewDecFromBigInt call.leftOverThreshold) d
          (fun x hx => (hvn x hx).2)
        rw [amountOf_mergeRewardsExact, amountOf_SortDecCoins] at h1
        have h2 := hb d
        linarith)
    exact ⟨store', distributedCoins (NewDecFromBigInt call.leftOverThreshold)
      (mergeRewardsExact previous (SortDecCoins call.contractRewards)) ++ coins,
      by simp only [runMerges, hcall, hrun, Option.map_some']⟩

/-- Claim C1. Conservation: starting from a store with no entry for the reward
address, for every finite sequence of merges into that address (any decimal
inputs, any thresholds, any block heights, a codec that round-trips) in which
every call returns, without error, and for every denom, the amounts of all coins
returned so far plus the amount currently stored for the denom (zero if it is
not stored) equal the sum of all input amounts merged for the denom. Amounts are
compared as decimals, a coin of amount `n` being `n * 10^18`. Such a sequence
does return, and conserves, whenever the input denoms are valid, the input
amounts are non-negative and the input amounts of each denom sum to less than
`2^255` whole units; the calls of a sequence that aborts in the library are not
covered. The sums per denom do not depend on the order in which the coins of
one denom are met. -/
theorem conservation_of_merges {B M : Type} (cdc : Codec B M) (hcdc : cdc.RoundTrips)
    (rewardAddress : String) (store : KVStore B)
    (hnone : store.Get (Key.RewardEntryKey rewardAddress) = none) (calls : List MergeCall) :
    (∀ store' coins,
      runMerges cdc rewardAddress store calls = some (store', coins) →
      ∀ denom, coinAmountOf denom coins * precisionReuse +
            amountOf denom (storedRewards cdc store' rewardAddress) =
          (calls.map (fun c => amountOf denom c.contractRewards)).sum) ∧
    ((∀ call ∈ calls, ∀ c ∈ call.contractRewards,
        ValidateDenom c.Denom = true ∧ 0 ≤ c.Amount) →
      (∀ denom, (calls.map (fun c => amountOf denom c.contractRewards)).sum <
        (2 ^ maxBitLen : Int) * precisionReuse) →
      ∃ store' coins,
        runMerges cdc rewardAddress store calls = some (store', coins) ∧
        ∀ denom, coinAmountOf denom coins * precisionReuse +
              amountOf denom (storedRewards cdc store' rewardAddress) =
            (calls.map (fun c => amountOf denom c.contractRewards)).sum) := by
  have hread : readPrevious cdc store rewardAddress = .ok none := by
    simp only [readPrevious, hnone]
  have hcons : ∀ store' coins,
      runMerges cdc rewardAddress store calls = some (store', coins) →
      ∀ denom, coinAmountOf denom coins * precisionReuse +
            amountOf denom (storedRewards cdc store' rewardAddress) =
          (calls.map (fun c => amountOf denom c.contractRewards)).sum := by
    intro store' coins hrun d
    have := runMerges_conserves cdc hcdc rewardAddress calls store none hread store' coins hrun d
    simpa [amountOf_nil] using this
  refine ⟨hcons, fun hvalid hbound => ?_⟩
  obtain ⟨store', coins, hrun⟩ := runMerges_succeeds cdc hcdc rewardAddress calls store none
    hread (fun c hc => by simp at hc) hvalid
    (fun d => by simpa [amountOf_nil] using hbound d)
  exact ⟨store', coins, hrun, hcons store' coins hrun⟩

/-- Instance of claim C1: two merges of `uusd` into the empty store succeed and
conserve. -/
theorem conservation_of_merges_witness :
    ∃ store' coins,
      runMerges (referenceCodec Nat) "reward1" (emptyStore (Blob Nat)) sampleMerges =
        some (store', coins) ∧
      ∀ denom, coinAmountOf denom coins * precisionReuse +
            amountOf denom (storedRewards (referenceCodec Nat) store' "reward1") =
          (sampleMerges.map (fun c => amountOf denom c.contractRewards)).sum :=
  (conservation_of_merges (referenceCodec Nat) (referenceCodec_roundTrips Nat) "reward1"
    (emptyStore (Blob Nat)) rfl sampleMerges).2 (by decide)
    (fun denom => by
      by_cases hd : "uusd" = denom <;>
        simp [sampleMerges, amountOf, hd, maxBitLen, precisionReuse])

/-! ## The returned coin list -/

theorem GTE_threshold_iff_integerPart (a : Dec) (T : Nat) :
    GTE (TruncateDec a) (NewDecFromBigInt (T : Int)) = true ↔ (T : Int) ≤ integerPart a := by
  unfold GTE NewDecFromBigInt TruncateDec integerPart
  rw [decide_eq_true_iff]
  exact ⟨fun h => le_of_mul_le_mul_right h precisionReuse_pos,
    fun h => mul_le_mul_of_nonneg_right h (le_of_lt precisionReuse_pos)⟩

theorem distributedCoins_denoms (T : Nat) (rewards : List DecCoin) :
    (distributedCoins (NewDecFromBigInt (T : Int)) rewards).map (fun c => c.Denom) =
      (rewards.filter (fun c => decide ((T : Int) ≤ integerPart c.Amount))).map
        (fun c => c.Denom) := by
  have hfilter : rewards.filter
      (fun r => GTE (TruncateDec r.Amount) (NewDecFromBigInt (T : Int))) =
      rewards.filter (fun c => decide ((T : Int) ≤ integerPart c.Amount)) := by
    apply List.filter_congr
    intro c _
    by_cases h : (T : Int) ≤ integerPart c.Amount
    · rw [(GTE_threshold_iff_integerPart c.Amount T).mpr h]; simp [h]
    · have : ¬ GTE (TruncateDec c.Amount) (NewDecFromBigInt (T : Int)) = true :=
        fun hg => h ((GTE_threshold_iff_integerPart c.Amount T).mp hg)
      simp [h, this]
  unfold distributedCoins
  rw [hfilter, List.map_map]
  rfl

/-- Claim C13. In every store reached from the empty store by merges whose inputs
have pairwise distinct denoms and non-negative amounts, with a working codec, a
further such call reads its key; it returns whenever its merge does not overflow
and the library accepts every coin to distribute (valid denom, integer part
within 255 bits); and whenever it returns, it returns no error and a coin list
whose denoms are exactly the denoms of the merged set whose truncated amount is
at least the threshold, in the order of the merged set, which is strictly
ascending (so every denom occurs once): a denom that reaches the threshold has
exactly one coin, of its truncated amount, and a denom that stays below the
threshold has none. The merged amounts are non-negative, so the truncated amount
is the floor. -/
theorem returned_coins_ascending {B M : Type} (cdc : Codec B M) (hcdc : cdc.RoundTrips)
    (store : KVStore B) (hreach : Reachable cdc store) (height : Int) (rewardAddress : String)
    (contractRewards : List DecCoin) (leftOverThreshold : Nat)
    (hinput : (contractRewards.map (fun c => c.Denom)).Nodup)
    (hnonneg : ∀ c ∈ contractRewards, 0 ≤ c.Amount) :
    ∃ previous,
      readPrevious cdc store rewardAddress = .ok previous ∧
      (mergeRewards previous (SortDecCoins contractRewards) =
          .ok (mergeRewardsExact previous (SortDecCoins contractRewards)) →
        distributable (NewDecFromBigInt leftOverThreshold)
          (mergeRewardsExact previous (SortDecCoins contractRewards)) →
        ∃ res, CreateOrMergeLeftOverRewardEntry cdc { store := store, BlockHeight := height }
          rewardAddress contractRewards leftOverThreshold = .ok res) ∧
      (∀ res,
        CreateOrMergeLeftOverRewardEntry cdc { store := store, BlockHeight := height }
          rewardAddress contractRewards leftOverThreshold = .ok res →
        res.err = none ∧
        res.coins.map (fun c => c.Denom) =
          ((mergeRewardsExact previous (SortDecCoins contractRewards)).filter
            (fun c => decide ((leftOverThreshold : Int) ≤ integerPart c.Amount))).map
            (fun c => c.Denom) ∧
        (res.coins.map (fun c => c.Denom)).Pairwise (fun a b => a < b) ∧
        (∀ c ∈ mergeRewardsExact previous (SortDecCoins contractRewards),
          (leftOverThreshold : Int) ≤ integerPart c.Amount →
          res.coins.filter (fun x => decide (x.Denom = c.Denom)) =
            [{ Denom := c.Denom, Amount := integerPart c.Amount }]) ∧
        (∀ c ∈ mergeRewardsExact previous (SortDecCoins contractRewards),
          integerPart c.Amount < (leftOverThreshold : Int) →
          c.Denom ∉ res.coins.map (fun x => x.Denom))) ∧
      (∀ c ∈ mergeRewardsExact previous (SortDecCoins contractRewards),
        0 ≤ c.Amount ∧ integerPart c.Amount = c.Amount / precisionReuse) := by
  obtain ⟨previous, hread, hprev⟩ := hreach.stored_ascending hcdc rewardAddress
  have hasc := denomsAscending_mergeRewardsExact previous contractRewards
    (fun l hl => (hprev l hl).1) hinput
  have hdistinct := nodup_denoms_of_ascending hasc
  have hmerged := nonneg_mergeRewardsExact previous contractRewards
    (fun l hl => (hprev l hl).2) hnonneg
  refine ⟨previous, hread, ?_, ?_, ?_⟩
  · intro hok hd
    obtain ⟨res, hcall, _⟩ := CreateOrMerge_view cdc hcdc
      { store := store, BlockHeight := height } rewardAddress contractRewards
      leftOverThreshold previous _ hread hok hd
    exact ⟨res, hcall⟩
  · intro res hcall
    obtain ⟨_, _, herr, hcoins, _⟩ := CreateOrMerge_view_inv cdc hcdc
      { store := store, BlockHeight := height } rewardAddress contractRewards
      leftOverThreshold previous res hread hcall
    refine ⟨herr, ?_, ?_, ?_, ?_⟩
    · rw [hcoins, distributedCoins_denoms]
    · rw [hcoins, distributedCoins_denoms]
      exact List.Pairwise.sublist ((List.filter_sublist _).map _)
        ((denomsAscending_iff_map _).mp hasc)
    · intro c hc hreached
      have hT := (GTE_threshold_iff_integerPart c.Amount leftOverThreshold).mpr hreached
      rw [hcoins, distributedCoins_filter, filter_denom_of_nodup hdistinct hc]
      simp only [distributedCoins, List.filter_cons, hT, if_true, List.filter_nil,
        List.map_cons, List.map_nil]
    · intro c hc hbelow hmem
      have hT : ¬ GTE (TruncateDec c.Amount) (NewDecFromBigInt (leftOverThreshold : Int)) =
          true :=
        fun h => absurd ((GTE_threshold_iff_integerPart c.Amount leftOverThreshold).mp h)
          (not_le.mpr hbelow)
      have hnil : res.coins.filter (fun x => decide (x.Denom = c.Denom)) = [] := by
        rw [hcoins, distributedCoins_filter, filter_denom_of_nodup hdistinct hc]
        simp [distributedCoins, hT]
      obtain ⟨x, hx, hxd⟩ := List.mem_map.mp hmem
      have := List.filter_eq_nil_iff.mp hnil x hx
      simp [hxd] at this
  · intro c hc
    exact ⟨hmerged c hc, integerPart_eq_floor c.Amount (hmerged c hc)⟩

/-- Instance of claim C13: three denoms merged into the empty store, threshold 2. -/
theorem returned_coins_ascending_witness :
    ∃ previous,
      readPrevious (referenceCodec Nat) (emptyStore (Blob Nat)) "reward1" = .ok previous ∧
      (mergeRewards previous (SortDecCoins sampleRewards) =
          .ok (mergeRewardsExact previous (SortDecCoins sampleRewards)) →
        distributable (NewDecFromBigInt ((2 : Nat) : Int))
          (mergeRewardsExact previous (SortDecCoins sampleRewards)) →
        ∃ res, CreateOrMergeLeftOverRewardEntry (referenceCodec Nat)
          { store := emptyStore (Blob Nat), BlockHeight := 5 } "reward1" sampleRewards 2 =
            .ok res) ∧
      (∀ res,
        CreateOrMergeLeftOverRewardEntry (referenceCodec Nat)
          { store := emptyStore (Blob Nat), BlockHeight := 5 } "reward1" sampleRewards 2 =
            .ok res →
        res.err = none ∧
        res.coins.map (fun c => c.Denom) =
          ((mergeRewardsExact previous (SortDecCoins sampleRewards)).filter
            (fun c => decide (((2 : Nat) : Int) ≤ integerPart c.Amount))).map
            (fun c => c.Denom) ∧
        (res.coins.map (fun c => c.Denom)).Pairwise (fun a b => a < b) ∧
        (∀ c ∈ mergeRewardsExact previous (SortDecCoins sampleRewards),
          ((2 : Nat) : Int) ≤ integerPart c.Amount →
          res.coins.filter (fun x => decide (x.Denom = c.Denom)) =
            [{ Denom := c.Denom, Amount := integerPart c.Amount }]) ∧
        (∀ c ∈ mergeRewardsExact previous (SortDecCoins sampleRewards),
          integerPart c.Amount < ((2 : Nat) : Int) →
          c.Denom ∉ res.coins.map (fun x => x.Denom))) ∧
      (∀ c ∈ mergeRewardsExact previous (SortDecCoins sampleRewards),
        0 ≤ c.Amount ∧ integerPart c.Amount = c.Amount / precisionReuse) :=
  returned_coins_ascending (referenceCodec Nat) (referenceCodec_roundTrips Nat)
    (emptyStore (Blob Nat)) Reachable.empty 5 "reward1" sampleRewards 2
    (by decide) (by decide)

/-! ## Order of the input -/

/-- Sorting forgets the order of an input with pairwise distinct denoms. -/
theorem SortDecCoins_eq_of_perm {coins₁ coins₂ : List DecCoin} (hperm : coins₁.Perm coins₂)
    (hnodup : (coins₁.map (fun c => c.Denom)).Nodup) :
    SortDecCoins coins₁ = SortDecCoins coins₂ := by
  haveI : IsAntisymm DecCoin (fun a b => a.Denom < b.Denom) :=
    ⟨fun _ _ h₁ h₂ => absurd h₁ (lt_asymm h₂)⟩
  have hnodup₂ : (coins₂.map (fun c => c.Denom)).Nodup := ((hperm.map _).nodup_iff).mp hnodup
  have h₁ : (SortDecCoins coins₁).Pairwise (fun a b => a.Denom < b.Denom) :=
    denomsAscending_SortDecCoins coins₁ hnodup
  have h₂ : (SortDecCoins coins₂).Pairwise (fun a b => a.Denom < b.Denom) :=
    denomsAscending_SortDecCoins coins₂ hnodup₂
  have hp : (SortDecCoins coins₁).Perm (SortDecCoins coins₂) :=
    ((List.perm_insertionSort _ coins₁).trans hperm).trans (List.perm_insertionSort _ coins₂).symm
  exact List.eq_of_perm_of_sorted hp h₁ h₂

/-- Claim C14. Order independence of the input: for every codec, store state,
block height, reward address and threshold, two inputs that are permutations of
each other with pairwise distinct denoms give the same result of
`CreateOrMergeLeftOverRewardEntry`: the same returned coin list in the same
order, the same error, and the same store afterwards, hence the same persisted
entry, which `GetLeftOverRewardEntry` reads the same. -/
theorem merge_input_order_independent {B M : Type} (cdc : Codec B M) (ctx : Context B)
    (rewardAddress : String) (leftOverThreshold : Nat) (height : Int)
    (contractRewards₁ contractRewards₂ : List DecCoin)
    (hperm : contractRewards₁.Perm contractRewards₂)
    (hnodup : (contractRewards₁.map (fun c => c.Denom)).Nodup) :
    CreateOrMergeLeftOverRewardEntry cdc ctx rewardAddress contractRewards₁ leftOverThreshold =
      CreateOrMergeLeftOverRewardEntry cdc ctx rewardAddress contractRewards₂
        leftOverThreshold ∧
    ∀ res₁ res₂,
      CreateOrMergeLeftOverRewardEntry cdc ctx rewardAddress contractRewards₁
        leftOverThreshold = .ok res₁ →
      CreateOrMergeLeftOverRewardEntry cdc ctx rewardAddress contractRewards₂
        leftOverThreshold = .ok res₂ →
      res₁.coins = res₂.coins ∧ res₁.err = res₂.err ∧ res₁.store = res₂.store ∧
      GetLeftOverRewardEntry cdc { store := res₁.store, BlockHeight := height } rewardAddress =
        GetLeftOverRewardEntry cdc { store := res₂.store, BlockHeight := height }
          rewardAddress := by
  have hcall : CreateOrMergeLeftOverRewardEntry cdc ctx rewardAddress contractRewards₁
      leftOverThreshold =
      CreateOrMergeLeftOverRewardEntry cdc ctx rewardAddress contractRewards₂
        leftOverThreshold := by
    unfold CreateOrMergeLeftOverRewardEntry
    rw [SortDecCoins_eq_of_perm hperm hnodup]
  refine ⟨hcall, fun res₁ res₂ h₁ h₂ => ?_⟩
  rw [hcall, h₂] at h₁
  cases h₁
  exact ⟨rfl, rfl, rfl, rfl⟩

/-- Instance of claim C14: the sample input and its reverse. -/
theorem merge_input_order_independent_witness :
    CreateOrMergeLeftOverRewardEntry (referenceCodec Nat) (genesisContext 5) "reward1"
        sampleRewards 2 =
      CreateOrMergeLeftOverRewardEntry (referenceCodec Nat) (genesisContext 5) "reward1"
        sampleRewards.reverse 2 ∧
    ∀ res₁ res₂,
      CreateOrMergeLeftOverRewardEntry (referenceCodec Nat) (genesisContext 5) "reward1"
        sampleRewards 2 = .ok res₁ →
      CreateOrMergeLeftOverRewardEntry (referenceCodec Nat) (genesisContext 5) "reward1"
        sampleRewards.reverse 2 = .ok res₂ →
      res₁.coins = res₂.coins ∧ res₁.err = res₂.err ∧ res₁.store = res₂.store ∧
      GetLeftOverRewardEntry (referenceCodec Nat) { store := res₁.store, BlockHeight := 6 }
          "reward1" =
        GetLeftOverRewardEntry (referenceCodec Nat) { store := res₂.store, BlockHeight := 6 }
          "reward1" :=
  merge_input_order_independent (referenceCodec Nat) (genesisContext 5) "reward1" 2 6
    sampleRewards sampleRewards.reverse (List.reverse_perm sampleRewards).symm (by decide)

/-! ## The merged set -/

theorem ne_zero_removeZeroDecCoins {coins : List DecCoin} :
    ∀ c ∈ removeZeroDecCoins coins, c.Amount ≠ 0 := by
  intro c hc
  have := (List.mem_filter.mp hc).2
  simpa using this

theorem ne_zero_optional_append (x : DecCoin) (rest : List DecCoin)
    (hrest : ∀ c ∈ rest, c.Amount ≠ 0) :
    ∀ c ∈ (if x.Amount ≠ 0 then [x] else []) ++ rest, c.Amount ≠ 0 := by
  intro c hc
  rcases List.mem_append.mp hc with h | h
  · by_cases hk : x.Amount ≠ 0
    · rw [if_pos hk, List.mem_singleton] at h
      rw [h]; exact hk
    · rw [if_neg hk] at h
      cases h
  · exact hrest c h

/-- A sum of coin sets holds no coin of amount zero. -/
theorem ne_zero_safeAddExact (coinsA coinsB : List DecCoin) :
    ∀ c ∈ safeAddExact coinsA coinsB, c.Amount ≠ 0 := by
  induction coinsA, coinsB using safeAddExact.induct with
  | case1 coinsB => rw [safeAddExact]; exact ne_zero_removeZeroDecCoins
  | case2 coinA restA => rw [safeAddExact]; exact ne_zero_removeZeroDecCoins
  | case3 coinA restA coinB restB hlt ih =>
    rw [safeAddExact, if_pos hlt]
    exact ne_zero_optional_append coinA _ ih
  | case4 coinA restA coinB restB hlt heq ih =>
    rw [safeAddExact, if_neg hlt, if_pos heq]
    exact ne_zero_optional_append
      { Denom := coinA.Denom, Amount := coinA.Amount + coinB.Amount } _ ih
  | case5 coinA restA coinB restB hlt hne ih =>
    rw [safeAddExact, if_neg hlt, if_neg hne]
    exact ne_zero_optional_append coinB _ ih

theorem amountOf_eq_zero_of_not_mem {d : String} {coins : List DecCoin}
    (h : d ∉ coins.map (fun c => c.Denom)) : amountOf d coins = 0 := by
  unfold amountOf
  have : coins.filter (fun c => decide (c.Denom = d)) = [] := by
    apply List.filter_eq_nil_iff.mpr
    intro c hc hcd
    exact h (List.mem_map.mpr ⟨c, hc, by simpa using hcd⟩)
  rw [this]
  rfl

theorem amountOf_of_mem_nodup {coins : List DecCoin}
    (h : (coins.map (fun c => c.Denom)).Nodup) {c : DecCoin} (hc : c ∈ coins) :
    amountOf c.Denom coins = c.Amount := by
  unfold amountOf
  rw [filter_denom_of_nodup h hc]
  simp

theorem runMerges_cons {B M : Type} (cdc : Codec B M) (hcdc : cdc.RoundTrips)
    (rewardAddress : String) (store : KVStore B) (call : MergeCall) (rest : List MergeCall)
    (previous : Option (List DecCoin)) (merged : List DecCoin)
    (hread : readPrevious cdc store rewardAddress = .ok previous)
    (hmerged : mergeRewards previous (SortDecCoins call.contractRewards) = .ok merged)
    (hd : distributable (NewDecFromBigInt call.leftOverThreshold) merged) :
    ∃ bz,
      cdc.UnmarshalEntry (some bz) =
        .ok { ContractRewards :=
                remainingRewards (NewDecFromBigInt call.leftOverThreshold) merged } ∧
      runMerges cdc rewardAddress store (call :: rest) =
        (runMerges cdc rewardAddress (store.Set (Key.RewardEntryKey rewardAddress) bz) rest).map
          (fun r =>
            (r.1, distributedCoins (NewDecFromBigInt call.leftOverThreshold) merged ++ r.2)) := by
  obtain ⟨bz, _, hu, hcall⟩ := CreateOrMerge_ok cdc hcdc
    { store := store, BlockHeight := call.BlockHeight } rewardAddress call.contractRewards
    call.leftOverThreshold previous merged hread hmerged hd
  exact ⟨bz, hu, by simp only [runMerges, hcall]⟩

theorem SortDecCoins_sampleFirstMerge : SortDecCoins sampleFirstMerge = sampleFirstMerge := by
  have h : ("ubb" : String) ≤ "ucc" := by
    rw [← not_lt, String.lt_iff_toList_lt]; decide
  exact SortDecCoins_pair _ _ h

theorem mergeRewardsExact_sampleStored :
    mergeRewardsExact (some sampleStored) (SortDecCoins sampleNewDenom) =
      [{ Denom := "uaa", Amount := 25 * 10 ^ 16 }, { Denom := "ucc", Amount := 5 * 10 ^ 17 }] := by
  have h₁ : ¬ ("ubb" : String) < "uaa" := by rw [String.lt_iff_toList_lt]; decide
  have h₂ : ¬ ("ubb" : String) = "uaa" := by decide
  have hs : SortDecCoins sampleNewDenom = sampleNewDenom := rfl
  rw [hs]
  simp only [mergeRewardsExact, sampleStored, sampleNewDenom]
  rw [safeAddExact, if_neg h₁, if_neg h₂, safeAddExact]
  decide

theorem mergeRewards_sampleStored :
    mergeRewards (some sampleStored) (SortDecCoins sampleNewDenom) =
      .ok [{ Denom := "uaa", Amount := 25 * 10 ^ 16 },
           { Denom := "ucc", Amount := 5 * 10 ^ 17 }] := by
  rw [mergeRewards_ok_of_small _ _ (by decide) (by decide), mergeRewardsExact_sampleStored]

theorem first_merge_coins :
    distributedCoins (NewDecFromBigInt ((1 : Nat) : Int)) sampleFirstMerge =
      [{ Denom := "ubb", Amount := 2 }] := by
  decide

theorem first_merge_remainder :
    remainingRewards (NewDecFromBigInt ((1 : Nat) : Int)) sampleFirstMerge = sampleStored := by
  decide

theorem second_merge_coins :
    distributedCoins (NewDecFromBigInt ((1 : Nat) : Int))
      [{ Denom := "uaa", Amount := 25 * 10 ^ 16 }, { Denom := "ucc", Amount := 5 * 10 ^ 17 }] =
      [] := by
  decide

theorem second_merge_remainder :
    remainingRewards (NewDecFromBigInt ((1 : Nat) : Int))
      [{ Denom := "uaa", Amount := 25 * 10 ^ 16 }, { Denom := "ucc", Amount := 5 * 10 ^ 17 }] =
      [{ Denom := "uaa", Amount := 25 * 10 ^ 16 }, { Denom := "ucc", Amount := 5 * 10 ^ 17 }] := by
  decide

/-- Counterexample to claim C15 as stated, on denoms the library accepts. On the
reference codec, merging `ubb: 2.0, ucc: 0.5` into the empty store at threshold 1
returns `ubb: 2` and leaves the entry `ubb: 0, ucc: 0.5`. Merging `uaa: 0.25`
next builds the merged set `uaa: 0.25, ucc: 0.5` and persists it: the new denom
`uaa` stands before the stored denom `ucc`, not after it, and the stored denom
`ubb` is not in the merged set, so its denoms are not the union. The merged set
of the specification's wording would be `ubb: 0, ucc: 0.5, uaa: 0.25`. -/
theorem merged_set_not_appended :
    (runMerges (referenceCodec Nat) "reward1" (emptyStore (Blob Nat))
        [{ BlockHeight := 5, contractRewards := sampleFirstMerge, leftOverThreshold := 1 }]).map
      (fun r => (r.2, storedRewards (referenceCodec Nat) r.1 "reward1")) =
      some ([{ Denom := "ubb", Amount := 2 }], sampleStored) ∧
    (runMerges (referenceCodec Nat) "reward1" (emptyStore (Blob Nat))
        [{ BlockHeight := 5, contractRewards := sampleFirstMerge, leftOverThreshold := 1 },
         { BlockHeight := 6, contractRewards := sampleNewDenom, leftOverThreshold := 1 }]).map
      (fun r => (r.2, storedRewards (referenceCodec Nat) r.1 "reward1")) =
      some ([{ Denom := "ubb", Amount := 2 }],
        [{ Denom := "uaa", Amount := 25 * 10 ^ 16 },
         { Denom := "ucc", Amount := 5 * 10 ^ 17 }]) ∧
    mergeRewards (some sampleStored) (SortDecCoins sampleNewDenom) =
      .ok [{ Denom := "uaa", Amount := 25 * 10 ^ 16 },
           { Denom := "ucc", Amount := 5 * 10 ^ 17 }] ∧
    mergeRewardsAppending sampleStored (SortDecCoins sampleNewDenom) =
      [{ Denom := "ubb", Amount := 0 }, { Denom := "ucc", Amount := 5 * 10 ^ 17 },
       { Denom := "uaa", Amount := 25 * 10 ^ 16 }] ∧
    mergeRewards (some sampleStored) (SortDecCoins sampleNewDenom) ≠
      .ok (mergeRewardsAppending sampleStored (SortDecCoins sampleNewDenom)) ∧
    "ubb" ∈ sampleStored.map (fun c => c.Denom) ∧
    ∀ merged, mergeRewards (some sampleStored) (SortDecCoins sampleNewDenom) = .ok merged →
      "ubb" ∉ merged.map (fun c => c.Denom) := by
  have hcdc := referenceCodec_roundTrips Nat
  have hread₀ : readPrevious (referenceCodec Nat) (emptyStore (Blob Nat)) "reward1" = .ok none :=
    rfl
  have happ : mergeRewardsAppending sampleStored (SortDecCoins sampleNewDenom) =
      [{ Denom := "ubb", Amount := 0 }, { Denom := "ucc", Amount := 5 * 10 ^ 17 },
       { Denom := "uaa", Amount := 25 * 10 ^ 16 }] := by
    decide
  have hfirst : mergeRewards none (SortDecCoins sampleFirstMerge) = .ok sampleFirstMerge := by
    rw [SortDecCoins_sampleFirstMerge]; rfl
  have hacc₁ : distributable (NewDecFromBigInt ((1 : Nat) : Int)) sampleFirstMerge := by
    unfold distributable; decide
  have hacc₂ : distributable (NewDecFromBigInt ((1 : Nat) : Int))
      [{ Denom := "uaa", Amount := 25 * 10 ^ 16 },
       { Denom := "ucc", Amount := 5 * 10 ^ 17 }] := by
    unfold distributable; decide
  refine ⟨?_, ?_, mergeRewards_sampleStored, happ, ?_, by decide, ?_⟩
  · obtain ⟨bz₁, hu₁, hrun₁⟩ := runMerges_cons (referenceCodec Nat) hcdc "reward1"
      (emptyStore (Blob Nat))
      { BlockHeight := 5, contractRewards := sampleFirstMerge, leftOverThreshold := 1 } []
      none sampleFirstMerge hread₀ hfirst hacc₁
    simp only [first_merge_coins, first_merge_remainder] at hu₁ hrun₁
    rw [hrun₁]
    simp only [runMerges, Option.map_some', List.append_nil]
    rw [storedRewards_of_readPrevious _ _ _ _ (readPrevious_Set _ _ _ bz₁ _ hu₁)]
    rfl
  · obtain ⟨bz₁, hu₁, hrun₁⟩ := runMerges_cons (referenceCodec Nat) hcdc "reward1"
      (emptyStore (Blob Nat))
      { BlockHeight := 5, contractRewards := sampleFirstMerge, leftOverThreshold := 1 }
      [{ BlockHeight := 6, contractRewards := sampleNewDenom, leftOverThreshold := 1 }]
      none sampleFirstMerge hread₀ hfirst hacc₁
    simp only [first_merge_coins, first_merge_remainder] at hu₁ hrun₁
    obtain ⟨bz₂, hu₂, hrun₂⟩ := runMerges_cons (referenceCodec Nat) hcdc "reward1"
      ((emptyStore (Blob Nat)).Set (Key.RewardEntryKey "reward1") bz₁)
      { BlockHeight := 6, contractRewards := sampleNewDenom, leftOverThreshold := 1 } []
      _ _ (readPrevious_Set _ _ _ bz₁ _ hu₁) mergeRewards_sampleStored hacc₂
    simp only [second_merge_coins, second_merge_remainder] at hu₂ hrun₂
    rw [hrun₁, hrun₂]
    simp only [runMerges, Option.map_some', List.append_nil, List.nil_append]
    rw [storedRewards_of_readPrevious _ _ _ _ (readPrevious_Set _ _ _ bz₂ _ hu₂)]
    rfl
  · rw [mergeRewards_sampleStored, happ]
    intro h
    have hlen := congrArg (fun r => (r.toOption.getD []).length) h
    simp [Except.toOption] at hlen
  · intro merged hmerged
    rw [mergeRewards_sampleStored] at hmerged
    cases hmerged
    decide

theorem denomsAscending_sampleStored : denomsAscending sampleStored := by
  have h : ("ubb" : String) < "ucc" := by rw [String.lt_iff_toList_lt]; decide
  unfold denomsAscending sampleStored
  exact List.pairwise_pair.mpr h

/-- Claim C15, amended. For a call that reads its key (an entry in ascending denom
order, or none) with an input of pairwise distinct denoms: the merge either
overflows, and the call aborts, or builds a merged set, which the method then
processes; and that merged set is in strictly ascending denom order (a new denom
is placed by denom order, not appended), holds for every denom it contains the
stored amount plus the input amount, contains, when an entry exists, exactly the
denoms for which that sum is not zero (a denom whose stored and input amounts add
up to zero is dropped, every other denom of the union is kept), and is exactly
the sorted input when no entry exists, in which case the merge cannot
overflow. -/
theorem merged_set_sorted_sum {B M : Type} (cdc : Codec B M) (ctx : Context B)
    (rewardAddress : String) (contractRewards : List DecCoin) (leftOverThreshold : Nat)
    (previous : Option (List DecCoin))
    (hread : readPrevious cdc ctx.store rewardAddress = .ok previous)
    (hprev : ∀ l, previous = some l → denomsAscending l)
    (hinput : (contractRewards.map (fun c => c.Denom)).Nodup) :
    ((∃ merged, mergeRewards previous (SortDecCoins contractRewards) = .ok merged) ∨
      (mergeRewards previous (SortDecCoins contractRewards) = .error Abort.IntOverflow ∧
        CreateOrMergeLeftOverRewardEntry cdc ctx rewardAddress contractRewards
          leftOverThreshold = .error Abort.IntOverflow)) ∧
    (previous = none →
      mergeRewards previous (SortDecCoins contractRewards) =
        .ok (SortDecCoins contractRewards)) ∧
    ∀ merged, mergeRewards previous (SortDecCoins contractRewards) = .ok merged →
      CreateOrMergeLeftOverRewardEntry cdc ctx rewardAddress contractRewards
          leftOverThreshold =
        distributeAndStore cdc ctx.store rewardAddress merged leftOverThreshold ∧
      denomsAscending merged ∧
      (∀ c ∈ merged,
        c.Amount = amountOf c.Denom (previous.getD []) + amountOf c.Denom contractRewards) ∧
      (∀ l, previous = some l → ∀ d,
        d ∈ merged.map (fun c => c.Denom) ↔
          amountOf d l + amountOf d contractRewards ≠ 0) ∧
      (∀ l, previous = some l → ∀ d,
        d ∈ merged.map (fun c => c.Denom) →
          d ∈ l.map (fun c => c.Denom) ∨ d ∈ contractRewards.map (fun c => c.Denom)) := by
  have hcall := CreateOrMerge_of_readPrevious cdc ctx rewardAddress contractRewards
    leftOverThreshold previous hread
  refine ⟨?_, ?_, ?_⟩
  · rcases mergeRewards_cases previous (SortDecCoins contractRewards) with h | h
    · exact Or.inl ⟨_, h⟩
    · refine Or.inr ⟨h, ?_⟩
      rw [hcall, h]
  · intro hnone
    rw [hnone]
    rfl
  intro merged hmerged
  have hm := mergeRewards_eq_ok hmerged
  subst hm
  have hasc := denomsAscending_mergeRewardsExact previous contractRewards hprev hinput
  have hdistinct := nodup_denoms_of_ascending hasc
  have hsum : ∀ d, amountOf d (mergeRewardsExact previous (SortDecCoins contractRewards)) =
      amountOf d (previous.getD []) + amountOf d contractRewards := by
    intro d
    rw [amountOf_mergeRewardsExact, amountOf_SortDecCoins]
  have hiff : ∀ l, previous = some l → ∀ d,
      d ∈ (mergeRewardsExact previous (SortDecCoins contractRewards)).map (fun c => c.Denom) ↔
        amountOf d l + amountOf d contractRewards ≠ 0 := by
    intro l hl d
    subst hl
    have hsum' := hsum d
    rw [Option.getD_some] at hsum'
    constructor
    · intro hmem
      obtain ⟨c, hc, hcd⟩ := List.mem_map.mp hmem
      have hne : c.Amount ≠ 0 := ne_zero_safeAddExact l _ c hc
      have hamt := amountOf_of_mem_nodup hdistinct hc
      rw [hcd, hsum'] at hamt
      rw [hamt]
      exact hne
    · intro hne
      by_contra hnot
      have hzero := amountOf_eq_zero_of_not_mem hnot
      rw [hsum'] at hzero
      exact hne hzero
  refine ⟨?_, hasc, ?_, hiff, ?_⟩
  · rw [hcall, hmerged]
  · intro c hc
    rw [← hsum c.Denom]
    exact (amountOf_of_mem_nodup hdistinct hc).symm
  · intro l hl d hmem
    have hne := (hiff l hl d).mp hmem
    by_contra hnot
    push_neg at hnot
    rw [amountOf_eq_zero_of_not_mem hnot.1, amountOf_eq_zero_of_not_mem hnot.2] at hne
    exact hne (add_zero 0)

/-- Instance of claim C15 as amended: `uaa: 0.25` merged into the stored entry
`ubb: 0, ucc: 0.5`. -/
theorem merged_set_sorted_sum_witness :
    ((∃ merged, mergeRewards (some sampleStored) (SortDecCoins sampleNewDenom) = .ok merged) ∨
      (mergeRewards (some sampleStored) (SortDecCoins sampleNewDenom) =
          .error Abort.IntOverflow ∧
        CreateOrMergeLeftOverRewardEntry (referenceCodec Nat)
          { store := storeWithEntry "reward1" sampleStored, BlockHeight := 6 } "reward1"
          sampleNewDenom 1 = .error Abort.IntOverflow)) ∧
    (some sampleStored = none →
      mergeRewards (some sampleStored) (SortDecCoins sampleNewDenom) =
        .ok (SortDecCoins sampleNewDenom)) ∧
    ∀ merged, mergeRewards (some sampleStored) (SortDecCoins sampleNewDenom) = .ok merged →
      CreateOrMergeLeftOverRewardEntry (referenceCodec Nat)
          { store := storeWithEntry "reward1" sampleStored, BlockHeight := 6 } "reward1"
          sampleNewDenom 1 =
        distributeAndStore (referenceCodec Nat) (storeWithEntry "reward1" sampleStored)
          "reward1" merged 1 ∧
      denomsAscending merged ∧
      (∀ c ∈ merged,
        c.Amount = amountOf c.Denom ((some sampleStored).getD []) +
          amountOf c.Denom sampleNewDenom) ∧
      (∀ l, some sampleStored = some l → ∀ d,
        d ∈ merged.map (fun c => c.Denom) ↔
          amountOf d l + amountOf d sampleNewDenom ≠ 0) ∧
      (∀ l, some sampleStored = some l → ∀ d,
        d ∈ merged.map (fun c => c.Denom) →
          d ∈ l.map (fun c => c.Denom) ∨ d ∈ sampleNewDenom.map (fun c => c.Denom)) :=
  merged_set_sorted_sum (referenceCodec Nat)
    { store := storeWithEntry "reward1" sampleStored, BlockHeight := 6 } "reward1"
    sampleNewDenom 1 (some sampleStored) rfl
    (fun l hl => by cases hl; exact denomsAscending_sampleStored) (by decide)

/-! ## Frame of the tracking ledger -/

theorem GetCurrentBlockTrackingInfo_ok_iff {B M : Type} (cdc : Codec B M) (ctx : Context B)
    (block : BlockGasTracking) :
    GetCurrentBlockTrackingInfo cdc ctx = .ok block ↔
      ∃ bz, ctx.store.Get Key.CurrentBlockTrackingKey = some bz ∧
        cdc.UnmarshalBlock (some bz) = .ok block := by
  cases hget : ctx.store.Get Key.CurrentBlockTrackingKey with
  | none => simp [GetCurrentBlockTrackingInfo, hget]
  | some bz => simp [GetCurrentBlockTrackingInfo, hget]

/-- Claim C16. Append-only frame, for a stored block record that decodes and a
working codec. A successful `TrackNewTx` leaves a record with one more
transaction in which every previously tracked transaction is unchanged at its
position. A successful `TrackContractGasUsage` leaves a record with the same
number of transactions in which every transaction but the last is unchanged, the
last transaction keeps its reward caps and gas limit, and every contract-call
entry it already had is unchanged at its position, one entry being added. -/
theorem append_only_frame {B M : Type} (cdc : Codec B M) (hcdc : cdc.RoundTrips)
    (ctx : Context B) (block : BlockGasTracking) (height : Int)
    (hblock : GetCurrentBlockTrackingInfo cdc ctx = .ok block) :
    (∀ fee gasLimit, (TrackNewTx cdc ctx fee gasLimit).2 = none →
      ∃ block',
        GetCurrentBlockTrackingInfo cdc
          { store := (TrackNewTx cdc ctx fee gasLimit).1, BlockHeight := height } = .ok block' ∧
        block'.TxTrackingInfos.length = block.TxTrackingInfos.length + 1 ∧
        ∀ i, i < block.TxTrackingInfos.length →
          block'.TxTrackingInfos.get? i = block.TxTrackingInfos.get? i) ∧
    (∀ contractAddress gasUsed operation isEligibleForReward store',
      TrackContractGasUsage cdc ctx contractAddress gasUsed operation isEligibleForReward =
        some (store', none) →
      ∃ block' last last',
        GetCurrentBlockTrackingInfo cdc { store := store', BlockHeight := height } =
          .ok block' ∧
        block'.TxTrackingInfos.length = block.TxTrackingInfos.length ∧
        (∀ i, i + 1 < block.TxTrackingInfos.length →
          block'.TxTrackingInfos.get? i = block.TxTrackingInfos.get? i) ∧
        block.TxTrackingInfos.getLast? = some last ∧
        block'.TxTrackingInfos.getLast? = some last' ∧
        last'.MaxContractRewards = last.MaxContractRewards ∧
        last'.MaxGasAllowed = last.MaxGasAllowed ∧
        last'.ContractTrackingInfos.length = last.ContractTrackingInfos.length + 1 ∧
        ∀ j, j < last.ContractTrackingInfos.length →
          last'.ContractTrackingInfos.get? j = last.ContractTrackingInfos.get? j) := by
  obtain ⟨bz, hget, hdec⟩ := (GetCurrentBlockTrackingInfo_ok_iff cdc ctx block).mp hblock
  constructor
  · intro fee gasLimit _
    obtain ⟨bz', hu, hcall⟩ := TrackNewTx_ok cdc hcdc ctx fee gasLimit bz block hget hdec
    rw [hcall]
    refine ⟨_, by rw [GetCurrentBlockTrackingInfo_Set, hu], by simp, ?_⟩
    intro i hi
    simp only [List.get?_eq_getElem?]
    exact List.getElem?_append_left hi
  · intro contractAddress gasUsed operation isEligibleForReward store' hcall
    obtain ⟨txs⟩ := block
    rcases List.eq_nil_or_concat txs with hnil | ⟨init, last, hconcat⟩
    · subst hnil
      simp only [TrackContractGasUsage, hget, hdec, List.length_nil, if_true] at hcall
      cases hcall
    · rw [List.concat_eq_append] at hconcat
      subst hconcat
      obtain ⟨bz', hu, hcall'⟩ := TrackContractGasUsage_ok cdc hcdc ctx contractAddress gasUsed
        operation isEligibleForReward bz init last hget hdec
      rw [hcall'] at hcall
      cases hcall
      refine ⟨_, last,
        { last with
          ContractTrackingInfos := last.ContractTrackingInfos ++
            [{ Address := contractAddress, GasConsumed := gasUsed, Operation := operation,
               IsEligibleForReward := isEligibleForReward }] },
        by rw [GetCurrentBlockTrackingInfo_Set, hu], by simp, ?_, by simp,
        by simp, rfl, rfl, by simp, ?_⟩
      · intro i hi
        have hi' : i < init.length := by
          simp only [List.length_append, List.length_singleton] at hi
          omega
        simp only [List.get?_eq_getElem?]
        rw [List.getElem?_append_left hi', List.getElem?_append_left hi']
      · intro j hj
        simp only [List.get?_eq_getElem?]
        exact List.getElem?_append_left hj

/-- Instance of claim C16: a block of two transactions on the reference codec. -/
theorem append_only_frame_witness :
    (∀ fee gasLimit,
      (TrackNewTx (referenceCodec Nat)
        { store := storeWithBlock { TxTrackingInfos := [sampleTx, sampleTx] }, BlockHeight := 7 }
        fee gasLimit).2 = none →
      ∃ block',
        GetCurrentBlockTrackingInfo (referenceCodec Nat)
          { store := (TrackNewTx (referenceCodec Nat)
              { store := storeWithBlock { TxTrackingInfos := [sampleTx, sampleTx] },
                BlockHeight := 7 } fee gasLimit).1
            BlockHeight := 7 } = .ok block' ∧
        block'.TxTrackingInfos.length =
          ({ TxTrackingInfos := [sampleTx, sampleTx] } : BlockGasTracking).TxTrackingInfos.length
            + 1 ∧
        ∀ i, i <
            ({ TxTrackingInfos := [sampleTx, sampleTx] } : BlockGasTracking).TxTrackingInfos.length →
          block'.TxTrackingInfos.get? i =
            ({ TxTrackingInfos := [sampleTx, sampleTx] } : BlockGasTracking).TxTrackingInfos.get?
              i) ∧
    (∀ contractAddress gasUsed operation isEligibleForReward store',
      TrackContractGasUsage (referenceCodec Nat)
        { store := storeWithBlock { TxTrackingInfos := [sampleTx, sampleTx] }, BlockHeight := 7 }
        contractAddress gasUsed operation isEligibleForReward = some (store', none) →
      ∃ block' last last',
        GetCurrentBlockTrackingInfo (referenceCodec Nat)
          { store := store', BlockHeight := 7 } = .ok block' ∧
        block'.TxTrackingInfos.length =
          ({ TxTrackingInfos := [sampleTx, sampleTx] } : BlockGasTracking).TxTrackingInfos.length ∧
        (∀ i, i + 1 <
            ({ TxTrackingInfos := [sampleTx, sampleTx] } : BlockGasTracking).TxTrackingInfos.length →
          block'.TxTrackingInfos.get? i =
            ({ TxTrackingInfos := [sampleTx, sampleTx] } : BlockGasTracking).TxTrackingInfos.get?
              i) ∧
        ({ TxTrackingInfos := [sampleTx, sampleTx] } : BlockGasTracking).TxTrackingInfos.getLast? =
          some last ∧
        block'.TxTrackingInfos.getLast? = some last' ∧
        last'.MaxContractRewards = last.MaxContractRewards ∧
        last'.MaxGasAllowed = last.MaxGasAllowed ∧
        last'.ContractTrackingInfos.length = last.ContractTrackingInfos.length + 1 ∧
        ∀ j, j < last.ContractTrackingInfos.length →
          last'.ContractTrackingInfos.get? j = last.ContractTrackingInfos.get? j) :=
  append_only_frame (referenceCodec Nat) (referenceCodec_roundTrips Nat)
    { store := storeWithBlock { TxTrackingInfos := [sampleTx, sampleTx] }, BlockHeight := 7 }
    { TxTrackingInfos := [sampleTx, sampleTx] } 7 rfl

/-! ## Atomicity on error -/

theorem distributeAndStore_store_of_err {B M : Type} (cdc : Codec B M) (store : KVStore B)
    (rewardAddress : String) (merged : List DecCoin) (leftOverThreshold : Nat)
    (res : MergeResult B)
    (h : distributeAndStore cdc store rewardAddress merged leftOverThreshold = .ok res)
    (herr : res.err ≠ none) : res.store = store := by
  by_cases hd : distributable (NewDecFromBigInt leftOverThreshold) merged
  · rw [distributeAndStore_eq cdc store rewardAddress merged leftOverThreshold hd] at h
    cases hm : cdc.MarshalEntry
        { ContractRewards := remainingRewards (NewDecFromBigInt leftOverThreshold) merged } with
    | error err =>
      simp only [hm] at h
      cases h
      rfl
    | ok bz =>
      simp only [hm] at h
      cases h
      exact absurd rfl herr
  · obtain ⟨abort, _, habort⟩ := distributeAndStore_abort cdc store rewardAddress merged
      leftOverThreshold hd
    rw [habort] at h
    cases h

/-- Claim C17. Atomicity on error, for every codec (working or not) and every
store: whenever `TrackNewTx`, `TrackContractGasUsage`, `TrackNewBlock`,
`AddNewContractMetadata` or `CreateOrMergeLeftOverRewardEntry` returns an error,
the store afterwards is the store before the call. -/
theorem store_unchanged_on_error {B M : Type} (cdc : Codec B M) (ctx : Context B) :
    (∀ fee gasLimit, (TrackNewTx cdc ctx fee gasLimit).2 ≠ none →
      (TrackNewTx cdc ctx fee gasLimit).1 = ctx.store) ∧
    (∀ contractAddress gasUsed operation isEligibleForReward store' err,
      TrackContractGasUsage cdc ctx contractAddress gasUsed operation isEligibleForReward =
        some (store', some err) → store' = ctx.store) ∧
    (∀ block, (TrackNewBlock cdc ctx block).2 ≠ none →
      (TrackNewBlock cdc ctx block).1 = ctx.store) ∧
    (∀ address metadata, (AddNewContractMetadata cdc ctx address metadata).2 ≠ none →
      (AddNewContractMetadata cdc ctx address metadata).1 = ctx.store) ∧
    (∀ rewardAddress contractRewards leftOverThreshold res,
      CreateOrMergeLeftOverRewardEntry cdc ctx rewardAddress contractRewards
        leftOverThreshold = .ok res →
      res.err ≠ none → res.store = ctx.store) := by
  refine ⟨?_, ?_, ?_, ?_, ?_⟩
  · intro fee gasLimit herr
    unfold TrackNewTx at herr ⊢
    cases hmt : cdc.MarshalTx
        { MaxGasAllowed := gasLimit, MaxContractRewards := fee, ContractTrackingInfos := [] } with
    | error err => simp only [hmt]
    | ok bzt =>
      simp only [hmt] at herr ⊢
      by_cases hcond : ((ctx.store.Get Key.CurrentBlockTrackingKey).isNone &&
          decide (ctx.BlockHeight > 1)) = true
      · rw [if_pos hcond]
      · rw [if_neg hcond] at herr ⊢
        cases hdec : cdc.UnmarshalBlock (ctx.store.Get Key.CurrentBlockTrackingKey) with
        | error err => simp only [hdec]
        | ok block =>
          simp only [hdec] at herr ⊢
          cases hm : cdc.MarshalBlock
              { TxTrackingInfos := block.TxTrackingInfos ++
                  [{ MaxGasAllowed := gasLimit, MaxContractRewards := fee,
                     ContractTrackingInfos := [] }] } with
          | error err => simp only [hm]
          | ok bz =>
            simp only [hm] at herr
            exact absurd rfl herr
  · intro contractAddress gasUsed operation isEligibleForReward store' err hcall
    unfold TrackContractGasUsage at hcall
    cases hget : ctx.store.Get Key.CurrentBlockTrackingKey with
    | none =>
      simp only [hget] at hcall
      cases hcall
      rfl
    | some bz =>
      simp only [hget] at hcall
      cases hdec : cdc.UnmarshalBlock (some bz) with
      | error e =>
        simp only [hdec] at hcall
        cases hcall
        rfl
      | ok block =>
        simp only [hdec] at hcall
        by_cases hlen : block.TxTrackingInfos.length = 0
        · simp only [hlen, if_true] at hcall
          cases hcall
          rfl
        · simp only [hlen, if_false] at hcall
          cases hlast : block.TxTrackingInfos.get? (block.TxTrackingInfos.length - 1) with
          | none => simp only [hlast] at hcall; cases hcall
          | some last =>
            simp only [hlast] at hcall
            cases hm : cdc.MarshalBlock
                { TxTrackingInfos :=
                    block.TxTrackingInfos.set (block.TxTrackingInfos.length - 1)
                      { last with
                        ContractTrackingInfos := last.ContractTrackingInfos ++
                          [{ Address := contractAddress, GasConsumed := gasUsed,
                             Operation := operation,
                             IsEligibleForReward := isEligibleForReward }] } } with
            | error e =>
              simp only [hm] at hcall
              cases hcall
              rfl
            | ok bz' =>
              simp only [hm] at hcall
              cases hcall
  · intro block herr
    unfold TrackNewBlock at herr ⊢
    cases hm : cdc.MarshalBlock block with
    | error err => simp only [hm]
    | ok bz =>
      simp only [hm] at herr
      exact absurd rfl herr
  · intro address metadata herr
    unfold AddNewContractMetadata at herr ⊢
    cases hm : cdc.MarshalMetadata metadata with
    | error err => simp only [hm]
    | ok bz =>
      simp only [hm] at herr
      exact absurd rfl herr
  · intro rewardAddress contractRewards leftOverThreshold res hcall herr
    unfold CreateOrMergeLeftOverRewardEntry at hcall
    cases hget : ctx.store.Get (Key.RewardEntryKey rewardAddress) with
    | none =>
      simp only [hget] at hcall
      cases hmerged : mergeRewards none (SortDecCoins contractRewards) with
      | error abort => simp only [hmerged] at hcall; cases hcall
      | ok merged =>
        simp only [hmerged] at hcall
        exact distributeAndStore_store_of_err cdc ctx.store rewardAddress _ leftOverThreshold
          res hcall herr
    | some bz =>
      simp only [hget] at hcall
      cases hdec : cdc.UnmarshalEntry (some bz) with
      | error e =>
        simp only [hdec] at hcall
        cases hcall
        rfl
      | ok entry =>
        simp only [hdec] at hcall
        cases hmerged : mergeRewards (some entry.ContractRewards)
            (SortDecCoins contractRewards) with
        | error abort => simp only [hmerged] at hcall; cases hcall
        | ok merged =>
          simp only [hmerged] at hcall
          exact distributeAndStore_store_of_err cdc ctx.store rewardAddress _
            leftOverThreshold res hcall herr

/-- Instance of claim C17: each of the five operations returns an error on a codec
whose encoders fail (the contract call for want of a block record), and the store
is the one before the call. -/
theorem store_unchanged_on_error_witness :
    ((TrackNewTx failingCodec (genesisContext 1) [] 50000).2 ≠ none ∧
      (TrackNewTx failingCodec (genesisContext 1) [] 50000).1 = (genesisContext 1).store) ∧
    (TrackContractGasUsage failingCodec (genesisContext 1) "contract1" 120
        ContractOperation.Execute true =
        some ((genesisContext 1).store, some Error.ErrBlockTrackingDataNotFound) ∧
      (genesisContext 1).store = (genesisContext 1).store) ∧
    ((TrackNewBlock failingCodec (genesisContext 1) { TxTrackingInfos := [] }).2 ≠ none ∧
      (TrackNewBlock failingCodec (genesisContext 1) { TxTrackingInfos := [] }).1 =
        (genesisContext 1).store) ∧
    ((AddNewContractMetadata failingCodec (genesisContext 1) "contract1" 3).2 ≠ none ∧
      (AddNewContractMetadata failingCodec (genesisContext 1) "contract1" 3).1 =
        (genesisContext 1).store) ∧
    ((CreateOrMergeLeftOverRewardEntry failingCodec (genesisContext 1) "reward1"
        sampleNewDenom 1).map (fun res => res.err) = .ok (some (Error.Codec 7)) ∧
      ∀ res, CreateOrMergeLeftOverRewardEntry failingCodec (genesisContext 1) "reward1"
        sampleNewDenom 1 = .ok res → res.err ≠ none → res.store = (genesisContext 1).store) :=
  ⟨⟨by decide,
      (store_unchanged_on_error failingCodec (genesisContext 1)).1 [] 50000 (by decide)⟩,
    ⟨rfl,
      (store_unchanged_on_error failingCodec (genesisContext 1)).2.1 "contract1" 120
        ContractOperation.Execute true _ _ rfl⟩,
    ⟨by decide,
      (store_unchanged_on_error failingCodec (genesisContext 1)).2.2.1
        { TxTrackingInfos := [] } (by decide)⟩,
    ⟨by decide,
      (store_unchanged_on_error failingCodec (genesisContext 1)).2.2.2.1 "contract1" 3
        (by decide)⟩,
    ⟨rfl,
      (store_unchanged_on_error failingCodec (genesisContext 1)).2.2.2.2 "reward1"
        sampleNewDenom 1⟩⟩

/-! ## Bounds on what stays stored, and the zero threshold -/

theorem distributedCoins_of_all_reached (L : Dec) (rewards : List DecCoin)
    (h : ∀ c ∈ rewards, GTE (TruncateDec c.Amount) L = true) :
    distributedCoins L rewards =
      rewards.map (fun c => { Denom := c.Denom, Amount := integerPart c.Amount }) := by
  unfold distributedCoins
  rw [List.filter_eq_self.mpr h]

theorem remainingRewards_of_all_reached (L : Dec) (rewards : List DecCoin)
    (h : ∀ c ∈ rewards, GTE (TruncateDec c.Amount) L = true) :
    remainingRewards L rewards =
      rewards.map (fun c => { Denom := c.Denom, Amount := c.Amount - TruncateDec c.Amount }) := by
  unfold remainingRewards
  apply List.map_congr_left
  intro c hc
  rw [if_pos (h c hc)]

/-- Claim C19. Zero threshold, for a call with a working codec that reads its
key, with an input of pairwise distinct denoms, a merge that does not overflow,
a merged set of non-negative amounts and coins the library accepts (valid denom,
integer part within 255 bits): the call succeeds and returns one coin for every
coin of the merged set, in its order, of amount `floor a`, and persists
`a - floor a` for each; so a merged amount below one unit (half a unit, say)
gives a returned coin of amount zero while the stored amount of that denom is
the merged amount unchanged. -/
theorem zero_threshold_returns_every_denom {B M : Type} (cdc : Codec B M)
    (hcdc : cdc.RoundTrips) (ctx : Context B) (rewardAddress : String)
    (contractRewards : List DecCoin) (previous : Option (List DecCoin))
    (merged : List DecCoin)
    (hread : readPrevious cdc ctx.store rewardAddress = .ok previous)
    (hinput : (contractRewards.map (fun c => c.Denom)).Nodup)
    (hmerged : mergeRewards previous (SortDecCoins contractRewards) = .ok merged)
    (hnonneg : ∀ c ∈ merged, 0 ≤ c.Amount)
    (haccepted : distributable (NewDecFromBigInt ((0 : Nat) : Int)) merged) :
    ∃ res entry,
      CreateOrMergeLeftOverRewardEntry cdc ctx rewardAddress contractRewards 0 = .ok res ∧
      res.err = none ∧
      res.coins =
        merged.map (fun c => { Denom := c.Denom, Amount := c.Amount / precisionReuse }) ∧
      GetLeftOverRewardEntry cdc { store := res.store, BlockHeight := ctx.BlockHeight }
          rewardAddress = .ok entry ∧
      entry.ContractRewards =
        merged.map
          (fun c => { Denom := c.Denom,
                      Amount := c.Amount - (c.Amount / precisionReuse) * precisionReuse }) ∧
      ∀ c ∈ merged, c.Amount < precisionReuse →
        ({ Denom := c.Denom, Amount := 0 } : Coin) ∈ res.coins ∧
        c ∈ entry.ContractRewards := by
  have _ := hinput
  obtain ⟨res, hcall, herr, hcoins, hget⟩ := CreateOrMerge_view cdc hcdc ctx rewardAddress
    contractRewards 0 previous merged hread hmerged haccepted
  have hall : ∀ c ∈ merged,
      GTE (TruncateDec c.Amount) (NewDecFromBigInt ((0 : Nat) : Int)) = true := by
    intro c hc
    rw [GTE_threshold_iff c.Amount (hnonneg c hc) 0]
    exact Int.ediv_nonneg (hnonneg c hc) (le_of_lt precisionReuse_pos)
  have hcoins' : res.coins =
      merged.map (fun c => { Denom := c.Denom, Amount := c.Amount / precisionReuse }) := by
    rw [hcoins, distributedCoins_of_all_reached _ _ hall]
    apply List.map_congr_left
    intro c hc
    rw [integerPart_eq_floor c.Amount (hnonneg c hc)]
  have hentry : remainingRewards (NewDecFromBigInt ((0 : Nat) : Int)) merged =
      merged.map
        (fun c => { Denom := c.Denom,
                    Amount := c.Amount - (c.Amount / precisionReuse) * precisionReuse }) := by
    rw [remainingRewards_of_all_reached _ _ hall]
    apply List.map_congr_left
    intro c hc
    rw [TruncateDec_eq_floor c.Amount (hnonneg c hc)]
  refine ⟨res, _, hcall, herr, hcoins', hget, hentry, ?_⟩
  intro c hc hsmall
  have hzero : c.Amount / precisionReuse = 0 := Int.ediv_eq_zero_of_lt (hnonneg c hc) hsmall
  constructor
  · rw [hcoins']
    exact List.mem_map.mpr ⟨c, hc, by rw [hzero]⟩
  · rw [hentry]
    refine List.mem_map.mpr ⟨c, hc, ?_⟩
    rw [hzero, zero_mul, sub_zero]

/-- Instance of claim C19: half a unit of `uusd` merged into the empty store at
threshold zero returns the coin `uusd: 0` and leaves `uusd: 0.5` stored. -/
theorem zero_threshold_returns_every_denom_witness :
    ∃ res entry,
      CreateOrMergeLeftOverRewardEntry (referenceCodec Nat) (genesisContext 5) "reward1"
          [{ Denom := "uusd", Amount := 5 * 10 ^ 17 }] 0 = .ok res ∧
      res.err = none ∧
      res.coins = [{ Denom := "uusd", Amount := 0 }] ∧
      GetLeftOverRewardEntry (referenceCodec Nat)
          { store := res.store, BlockHeight := (genesisContext 5).BlockHeight } "reward1" =
        .ok entry ∧
      entry.ContractRewards = [{ Denom := "uusd", Amount := 5 * 10 ^ 17 }] := by
  obtain ⟨res, entry, hcall, herr, hcoins, hget, hentry, _⟩ :=
    zero_threshold_returns_every_denom (referenceCodec Nat) (referenceCodec_roundTrips Nat)
      (genesisContext 5) "reward1" [{ Denom := "uusd", Amount := 5 * 10 ^ 17 }] none
      [{ Denom := "uusd", Amount := 5 * 10 ^ 17 }] rfl (by decide) rfl (by decide)
      (by unfold distributable; decide)
  refine ⟨res, entry, hcall, herr, ?_, hget, ?_⟩
  · rw [hcoins]; decide
  · rw [hentry]; decide

/-! ## Index safety -/

theorem distributeAndStore_ne_index {B M : Type} (cdc : Codec B M) (store : KVStore B)
    (rewardAddress : String) (merged : List DecCoin) (leftOverThreshold : Nat) :
    distributeAndStore cdc store rewardAddress merged leftOverThreshold ≠
      .error Abort.IndexOutOfRange := by
  by_cases hd : distributable (NewDecFromBigInt leftOverThreshold) merged
  · rw [distributeAndStore_eq cdc store rewardAddress merged leftOverThreshold hd]
    cases cdc.MarshalEntry
      { ContractRewards := remainingRewards (NewDecFromBigInt leftOverThreshold) merged } <;>
      exact fun h => by cases h
  · obtain ⟨abort, hne, habort⟩ := distributeAndStore_abort cdc store rewardAddress merged
      leftOverThreshold hd
    rw [habort]
    intro h
    cases h
    exact hne rfl

theorem mergeThenDistribute_ne_index {B M : Type} (cdc : Codec B M) (store : KVStore B)
    (rewardAddress : String) (previous : Option (List DecCoin)) (sorted : List DecCoin)
    (leftOverThreshold : Nat) :
    (match mergeRewards previous sorted with
      | .error abort => Except.error abort
      | .ok merged => distributeAndStore cdc store rewardAddress merged leftOverThreshold) ≠
      Except.error Abort.IndexOutOfRange := by
  rcases mergeRewards_cases previous sorted with h | h
  · rw [h]
    exact distributeAndStore_ne_index cdc store rewardAddress _ leftOverThreshold
  · rw [h]
    intro h'
    cases h'

/-- Claim C20. Index safety. In the threshold loop of
`CreateOrMergeLeftOverRewardEntry`, for every input and after every number `k` of
iterations, no access has left its slice: the loop has not ended in an index out
of range, it has completed `k` iterations whenever the library accepts the coins
built in them, and whenever it has completed them the write index `rewardIndex`
is at most `k` and both slices keep their allocated length; the loop therefore
ends with `rewardIndex` within the allocated length and the final reslice
succeeds. In `TrackContractGasUsage` the element `TxTrackingInfos[txsLen - 1]`
exists whenever `txsLen` is not zero. Hence neither method aborts on an index out
of range, for any codec, store and arguments. -/
theorem index_safety {B M : Type} (cdc : Codec B M) (ctx : Context B) :
    (∀ (leftOverDec : Dec) (rewards : List DecCoin) (k : Nat), k ≤ rewards.length →
      (List.range k).foldlM (loopBody leftOverDec)
          { rewardsToBeDistributed := List.replicate rewards.length zeroCoin
            rewardIndex := 0
            ContractRewards := rewards } ≠ .error Abort.IndexOutOfRange ∧
      (distributable leftOverDec (rewards.take k) →
        ∃ s, (List.range k).foldlM (loopBody leftOverDec)
          { rewardsToBeDistributed := List.replicate rewards.length zeroCoin
            rewardIndex := 0
            ContractRewards := rewards } = .ok s) ∧
      ∀ s,
        (List.range k).foldlM (loopBody leftOverDec)
          { rewardsToBeDistributed := List.replicate rewards.length zeroCoin
            rewardIndex := 0
            ContractRewards := rewards } = .ok s →
        s.rewardIndex ≤ k ∧
        s.rewardsToBeDistributed.length = rewards.length ∧
        s.ContractRewards.length = rewards.length) ∧
    (∀ (leftOverDec : Dec) (rewards : List DecCoin),
      thresholdLoop leftOverDec rewards ≠ .error Abort.IndexOutOfRange ∧
      (distributable leftOverDec rewards → ∃ s, thresholdLoop leftOverDec rewards = .ok s) ∧
      ∀ s, thresholdLoop leftOverDec rewards = .ok s →
        s.rewardIndex ≤ s.rewardsToBeDistributed.length ∧
        ∃ coins, reslice s.rewardsToBeDistributed s.rewardIndex = .ok coins) ∧
    (∀ rewardAddress contractRewards leftOverThreshold,
      CreateOrMergeLeftOverRewardEntry cdc ctx rewardAddress contractRewards
        leftOverThreshold ≠ .error Abort.IndexOutOfRange) ∧
    (∀ (txs : List TransactionTracking), txs.length ≠ 0 →
      (txs.get? (txs.length - 1)).isSome = true) ∧
    (∀ contractAddress gasUsed operation isEligibleForReward,
      (TrackContractGasUsage cdc ctx contractAddress gasUsed operation
        isEligibleForReward).isSome = true) := by
  have hlast : ∀ (txs : List TransactionTracking), txs.length ≠ 0 →
      (txs.get? (txs.length - 1)).isSome = true := by
    intro txs hne
    rw [List.get?_eq_getElem?, List.getElem?_eq_getElem (by omega)]
    rfl
  refine ⟨?_, ?_, ?_, hlast, ?_⟩
  · intro L rewards k hk
    rw [loopStateAfter_zero L rewards]
    have hD : (distributedCoins L (rewards.take k)).length ≤ k := by
      have := distributedCoins_length_le L (rewards.take k)
      rw [List.length_take] at this
      omega
    have hinv : (loopStateAfter L rewards k).rewardIndex ≤ k ∧
        (loopStateAfter L rewards k).rewardsToBeDistributed.length = rewards.length ∧
        (loopStateAfter L rewards k).ContractRewards.length = rewards.length := by
      refine ⟨hD, ?_, ?_⟩
      · simp only [loopStateAfter, List.length_append, List.length_replicate]
        omega
      · simp only [loopStateAfter, List.length_append, remainingRewards_length,
          List.length_take, List.length_drop]
        omega
    rcases foldlM_range_loopBody L rewards k hk with ⟨_, hfold⟩ | ⟨hnot, abort, hne, hfold⟩
    · rw [hfold]
      refine ⟨(fun h => by cases h), (fun _ => ⟨_, rfl⟩), ?_⟩
      intro s hs
      cases hs
      exact hinv
    · rw [hfold]
      refine ⟨?_, (fun hd => absurd hd hnot), (fun s hs => by cases hs)⟩
      intro h
      cases h
      exact hne rfl
  · intro L rewards
    rcases thresholdLoop_eq L rewards with ⟨_, hloop⟩ | ⟨hnot, abort, hne, hloop⟩
    · rw [hloop]
      refine ⟨(fun h => by cases h), (fun _ => ⟨_, rfl⟩), ?_⟩
      intro s hs
      cases hs
      refine ⟨?_, _, reslice_distributed L rewards _⟩
      simp only [List.length_append]
      omega
    · rw [hloop]
      refine ⟨?_, (fun hd => absurd hd hnot), (fun s hs => by cases hs)⟩
      intro h
      cases h
      exact hne rfl
  · intro rewardAddress contractRewards leftOverThreshold
    cases hget : ctx.store.Get (Key.RewardEntryKey rewardAddress) with
    | none =>
      simp only [CreateOrMergeLeftOverRewardEntry, hget]
      exact mergeThenDistribute_ne_index cdc ctx.store rewardAddress none _ leftOverThreshold
    | some bz =>
      cases hdec : cdc.UnmarshalEntry (some bz) with
      | error err =>
        simp only [CreateOrMergeLeftOverRewardEntry, hget, hdec]
        exact fun h => by cases h
      | ok entry =>
        simp only [CreateOrMergeLeftOverRewardEntry, hget, hdec]
        exact mergeThenDistribute_ne_index cdc ctx.store rewardAddress _ _ leftOverThreshold
  · intro contractAddress gasUsed operation isEligibleForReward
    cases hget : ctx.store.Get Key.CurrentBlockTrackingKey with
    | none =>
      simp only [TrackContractGasUsage, hget]
      rfl
    | some bz =>
      cases hdec : cdc.UnmarshalBlock (some bz) with
      | error err =>
        simp only [TrackContractGasUsage, hget, hdec]
        rfl
      | ok block =>
        by_cases hlen : block.TxTrackingInfos.length = 0
        · simp only [TrackContractGasUsage, hget, hdec, hlen, if_true]
          rfl
        · have hsome := hlast block.TxTrackingInfos hlen
          obtain ⟨last, hl⟩ := Option.isSome_iff_exists.mp hsome
          simp only [TrackContractGasUsage, hget, hdec, hlen, if_false, hl]
          cases cdc.MarshalBlock _ <;> rfl

/-- Instance of claim C20: the sample input after two of its three iterations,
the whole call on it, and a contract call in a block of one transaction. -/
theorem index_safety_witness :
    (∃ s,
      (List.range 2).foldlM (loopBody (NewDecFromBigInt 2))
        { rewardsToBeDistributed := List.replicate sampleRewards.length zeroCoin
          rewardIndex := 0
          ContractRewards := sampleRewards } = .ok s ∧
      s.rewardIndex ≤ 2 ∧
      s.rewardsToBeDistributed.length = sampleRewards.length ∧
      s.ContractRewards.length = sampleRewards.length) ∧
    CreateOrMergeLeftOverRewardEntry (referenceCodec Nat) (genesisContext 5) "reward1"
      sampleRewards 2 ≠ .error Abort.IndexOutOfRange ∧
    (TrackContractGasUsage (referenceCodec Nat)
      { store := storeWithBlock { TxTrackingInfos := [sampleTx] }, BlockHeight := 7 }
      "contract1" 120 ContractOperation.Execute true).isSome = true := by
  have h := (index_safety (referenceCodec Nat) (genesisContext 5)).1 (NewDecFromBigInt 2)
    sampleRewards 2 (by decide)
  obtain ⟨s, hs⟩ := h.2.1 (by unfold distributable; decide)
  exact ⟨⟨s, hs, h.2.2 s hs⟩,
    (index_safety (referenceCodec Nat) (genesisContext 5)).2.2.1 "reward1" sampleRewards 2,
    (index_safety (referenceCodec Nat)
      { store := storeWithBlock { TxTrackingInfos := [sampleTx] }, BlockHeight := 7 }).2.2.2.2
      "contract1" 120 ContractOperation.Execute true⟩

end GasTracker
